import Mathlib

/-!
# lexy: `delimited`, `escape`, `while_` and production rules

A shallow embedding of `include/lexy/dsl/delimited.hpp`, `while.hpp` and
`production.hpp`.

* The reader is a cursor `cur` (an offset) over a fixed input `inp : List Code`.
* The context is the list of reported errors and of observed token spans.
* A sink is the list of the calls made on it, each call with its arguments.
* `NextParser::parse(context, reader, args...)` is a function of the state and
  of the argument list, returning the `bool` result and the state it leaves.
* The `while (true)` loops take a fuel argument; `none` is "still running".
-/

namespace lexy

/-! ## Data model -/

/-- A code unit of the input. -/
abbrev Code := Char

/-- Values that rules hand to continuations and to sinks. -/
inductive Value where
  | lexeme (b e : Nat)
  | code (c : Char)
  | num (n : Int)
  deriving DecidableEq, Repr

/-- Structured errors reported through `context.error`. -/
inductive Error where
  | missing_delimiter (b e : Nat)
  | invalid_escape_sequence
  | exhausted_choice
  | expected_literal (pos idx : Nat)
  | token_error (ec : Nat) (b e : Nat)
  | minus_failure (b e : Nat)
  deriving DecidableEq, Repr

/-- A span observed through `context.token(kind, begin, end)`. -/
structure TokenEvent where
  kind : Nat
  b : Nat
  e : Nat
  deriving DecidableEq, Repr

/-- Reader position together with what the context has recorded so far. -/
structure State where
  cur : Nat
  errors : List Error
  tokens : List TokenEvent
  deriving DecidableEq, Repr

/-- The calls made on a sink, oldest first; each call with its arguments. -/
abbrev Sink := List (List Value)

/-- Result of `try_parse`: `ok = true`, `canceled = false`, `backtracked = 2`. -/
inductive rule_try_parse_result where
  | ok
  | canceled
  | backtracked
  deriving DecidableEq, Repr

/-- The cast `static_cast<bool>(result)` of a result that is not `backtracked`. -/
def rule_try_parse_result.to_bool : rule_try_parse_result → Bool
  | .ok => true
  | .canceled => false
  | .backtracked => true

/-- The cast `static_cast<rule_try_parse_result>(b)` of a `bool`. -/
def rule_try_parse_result.of_bool : Bool → rule_try_parse_result
  | true => .ok
  | false => .canceled

/-- `NextParser::parse(context, reader, args...)`. -/
abbrev NextParser := State → List Value → Bool × State

/-- A continuation that is also handed a sink by reference. -/
abbrev SinkParser := State → Sink → List Value → Bool × State × Sink

/-- `reader.eof()`. -/
def reader_eof (inp : List Code) (st : State) : Bool := decide (inp.length ≤ st.cur)

/-- `context.error(err)`. -/
def context_error (st : State) (err : Error) : State :=
  { st with errors := st.errors ++ [err] }

/-- `context.token(kind, begin, end)`. -/
def context_token (st : State) (kind b e : Nat) : State :=
  { st with tokens := st.tokens ++ [⟨kind, b, e⟩] }

/-- A token: its engine (`engine::match(reader)` returns an error code, `0` being
`engine::error_code()`, and leaves the reader at the position given second),
whether the engine can fail, its kind, and the error `token_error` reports. -/
structure Token where
  engine : List Code → Nat → Nat × Nat
  can_fail : Bool
  kind : Nat
  token_error : Nat → Nat → Nat → Error

/-- What a rule does when it is tried as a branch. -/
inductive TryOutcome where
  | backtracked (st : State)
  | canceled (st : State)
  | matched (st : State) (vals : List Value)
  deriving DecidableEq, Repr

/-- What a rule does when it is parsed unconditionally. -/
inductive ParseOutcome where
  | failed (st : State)
  | succeeded (st : State) (vals : List Value)
  deriving DecidableEq, Repr

/-- A rule that can be tried as a branch: what `try_parse` does before the continuation
runs. -/
structure Branch where
  try_ : List Code → State → TryOutcome

/-- A rule that can be parsed unconditionally: what `parse` does before the continuation
runs. -/
structure Rule where
  parse : List Code → State → ParseOutcome

/-- A rule with both interfaces, such as a token. -/
structure BranchRule extends Branch, Rule

/-- One pass through the body of a `while (true)` loop: it returns, or it goes round again. -/
inductive LoopStep where
  | done (r : Bool × State)
  | again (st : State) (sink : Sink)
  deriving DecidableEq, Repr

/-! ## Rule interfaces used by `delimited` -/

/-- Modelled from the spec: `lexy::engine_try_match<Engine>(reader)` (engine.hpp is not
part of the sources). The engine runs on a copy of the reader; the copy is committed
when the engine reports no error, and the reader is left alone otherwise. -/
def engine_try_match (engine : List Code → Nat → Nat × Nat) (inp : List Code) (cur : Nat) :
    Option Nat :=
  let r := engine inp cur
  if r.1 = 0 then some r.2 else none

/-- Modelled from the spec: the token adapter's unconditional parse (section 4.2). On
engine failure `token_error` reports one error and the parse fails; on success the span
is observed through `context.token` and no value is produced. -/
def Token.parse (T : Token) (inp : List Code) (st : State) : ParseOutcome :=
  let r := T.engine inp st.cur
  if r.1 ≠ 0 then
    .failed (context_error { st with cur := r.2 } (T.token_error r.2 r.1 st.cur))
  else
    .succeeded (context_token { st with cur := r.2 } T.kind st.cur r.2) []

/-- Modelled from the spec: the token adapter tried as a branch. The engine is tried
with `engine_try_match`; when it does not match the branch backtracks with the reader
where it was, reporting nothing. -/
def Token.try_ (T : Token) (inp : List Code) (st : State) : TryOutcome :=
  match engine_try_match T.engine inp st.cur with
  | none => .backtracked st
  | some e => .matched (context_token { st with cur := e } T.kind st.cur e) []

/-- A token used as a rule and as a branch. -/
def Token.rule (T : Token) : BranchRule := { try_ := T.try_, parse := T.parse }

/-- Modelled from the spec: `rule_parser<Rule, Next>::try_parse(context, reader, ..., sink)`
(base.hpp is not part of the sources). A rule that backtracks or cancels does not reach
the continuation; a rule that matches calls it once, with the values the rule produced,
and the result is `ok` or `canceled` as the continuation returned `true` or `false`. -/
def try_parse (R : Branch) (k : SinkParser) (inp : List Code) (st : State) (sink : Sink) :
    rule_try_parse_result × State × Sink :=
  match R.try_ inp st with
  | .backtracked s => (.backtracked, s, sink)
  | .canceled s => (.canceled, s, sink)
  | .matched s vals =>
    let r := k s sink vals
    (rule_try_parse_result.of_bool r.1, r.2.1, r.2.2)

/-- Modelled from the spec: `_list_finish<NextParser, PrevArgs...>::parse` (list.hpp is not
part of the sources): "finish the sink, deliver `sink.finish()` as an appended argument to
the continuation"; the values of the rule that ran before it follow. -/
def _list_finish (next : NextParser) (finish : Sink → Value) (prev_args : List Value) :
    SinkParser :=
  fun st sink args =>
    let r := next st (prev_args ++ [finish sink] ++ args)
    (r.1, r.2, sink)

/-- Modelled from the spec: `_list_sink::parse` (list.hpp is not part of the sources): the
values the escape rule produced are pushed to the sink in one call, nothing else is,
and the continuation succeeds. -/
def _list_sink : SinkParser :=
  fun st sink args => (true, st, if args.isEmpty then sink else sink ++ [args])

/-! ## `_del<Close, Char, void>` (delimited.hpp, lines 104-166) -/

/-- The content branch of the loop body (lines 137-159; lines 74-96 are the same text):
match `Char` with its engine, observe the token and push one lexeme. -/
def _del_char (Char : Token) (inp : List Code) (st : State) (sink : Sink) : LoopStep :=
  if Char.can_fail then
    let content_begin := st.cur
    let r := Char.engine inp st.cur
    if r.1 ≠ 0 then
      .done (false, context_error { st with cur := r.2 } (Char.token_error r.2 r.1 content_begin))
    else
      let content_end := r.2
      .again (context_token { st with cur := r.2 } Char.kind content_begin content_end)
        (sink ++ [[Value.lexeme content_begin content_end]])
  else
    let content_begin := st.cur
    let r := Char.engine inp st.cur
    let content_end := r.2
    .again (context_token { st with cur := r.2 } Char.kind content_begin content_end)
      (sink ++ [[Value.lexeme content_begin content_end]])

/-- The body of `while (true)` in `_del<Close, Char, void>::parser::parse` (lines 119-160). -/
def _del_void_body (next : NextParser) (finish : Sink → Value) (Close : Branch) (Char : Token)
    (inp : List Code) (args : List Value) (del_begin : Nat) (st : State) (sink : Sink) :
    LoopStep :=
  let result := try_parse Close (_list_finish next finish args) inp st sink
  if result.1 ≠ .backtracked then
    .done (result.1.to_bool, result.2.1)
  else if reader_eof inp result.2.1 then
    .done (false, context_error result.2.1 (.missing_delimiter del_begin result.2.1.cur))
  else
    _del_char Char inp result.2.1 result.2.2

/-- The loop `while (true)` of `_del<Close, Char, void>::parser::parse`. -/
def _del_void_loop (next : NextParser) (finish : Sink → Value) (Close : Branch) (Char : Token)
    (inp : List Code) (args : List Value) (del_begin : Nat) :
    Nat → State → Sink → Option (Bool × State)
  | 0, _, _ => none
  | fuel + 1, st, sink =>
    match _del_void_body next finish Close Char inp args del_begin st sink with
    | .done r => some r
    | .again st1 sink1 => _del_void_loop next finish Close Char inp args del_begin fuel st1 sink1

/-- `_del<Close, Char, void>::parser<NextParser>::parse(context, reader, args...)`. -/
def _del_void_parse (fuel : Nat) (next : NextParser) (finish : Sink → Value) (Close : Branch)
    (Char : Token) (inp : List Code) (st : State) (args : List Value) : Option (Bool × State) :=
  let sink : Sink := []
  let del_begin := st.cur
  _del_void_loop next finish Close Char inp args del_begin fuel st sink

/-! ## `_del<Close, Char, Escape>` (delimited.hpp, lines 32-103) -/

/-- The body of `while (true)` in `_del<Close, Char, Escape>::parser::parse` (lines 48-97). -/
def _del_body (next : NextParser) (finish : Sink → Value) (Close : Branch) (Char : Token)
    (Escape : Branch) (inp : List Code) (args : List Value) (del_begin : Nat) (st : State)
    (sink : Sink) : LoopStep :=
  let result := try_parse Close (_list_finish next finish args) inp st sink
  if result.1 ≠ .backtracked then
    .done (result.1.to_bool, result.2.1)
  else if reader_eof inp result.2.1 then
    .done (false, context_error result.2.1 (.missing_delimiter del_begin result.2.1.cur))
  else
    let result2 := try_parse Escape _list_sink inp result.2.1 result.2.2
    if result2.1 ≠ .backtracked then
      if result2.1 = .canceled then .done (false, result2.2.1)
      else .again result2.2.1 result2.2.2
    else
      _del_char Char inp result2.2.1 result2.2.2

/-- The loop `while (true)` of `_del<Close, Char, Escape>::parser::parse`. -/
def _del_loop (next : NextParser) (finish : Sink → Value) (Close : Branch) (Char : Token)
    (Escape : Branch) (inp : List Code) (args : List Value) (del_begin : Nat) :
    Nat → State → Sink → Option (Bool × State)
  | 0, _, _ => none
  | fuel + 1, st, sink =>
    match _del_body next finish Close Char Escape inp args del_begin st sink with
    | .done r => some r
    | .again st1 sink1 =>
      _del_loop next finish Close Char Escape inp args del_begin fuel st1 sink1

/-- `_del<Close, Char, Escape>::parser<NextParser>::parse(context, reader, args...)`. -/
def _del_parse (fuel : Nat) (next : NextParser) (finish : Sink → Value) (Close : Branch)
    (Char : Token) (Escape : Branch) (inp : List Code) (st : State) (args : List Value) :
    Option (Bool × State) :=
  let sink : Sink := []
  let del_begin := st.cur
  _del_loop next finish Close Char Escape inp args del_begin fuel st sink

/-! ## The `delimited` builder (delimited.hpp, lines 168-230) -/

/-- `_delim_dsl<Open, Close>`. -/
structure _delim_dsl where
  Open : BranchRule
  Close : BranchRule

/-- `_delim_dsl::open()`. -/
def _delim_dsl.open_ (d : _delim_dsl) : BranchRule := d.Open

/-- `_delim_dsl::close()`. -/
def _delim_dsl.close (d : _delim_dsl) : BranchRule := d.Close

/-- `delimited(Open, Close)`. -/
def delimited (Open Close : BranchRule) : _delim_dsl := ⟨Open, Close⟩

/-- `delimited(Delim)`. -/
def delimited_delim (Delim : BranchRule) : _delim_dsl := ⟨Delim, Delim⟩

/-- `_delim_dsl::operator()(Char)`, parsed: `no_whitespace(open() >> _del<Close, Char, void>{})`.
The opening rule is parsed, then the content parser runs with the values of the opening
rule appended to the arguments. No whitespace rule is modelled, so `no_whitespace` changes
nothing. -/
def _delim_dsl.parse (d : _delim_dsl) (Char : Token) (fuel : Nat) (next : NextParser)
    (finish : Sink → Value) (inp : List Code) (st : State) (args : List Value) :
    Option (Bool × State) :=
  match d.open_.parse inp st with
  | .failed s => some (false, s)
  | .succeeded s vals => _del_void_parse fuel next finish d.Close.toBranch Char inp s (args ++ vals)

/-- `_delim_dsl::operator()(Char, Escape)`, parsed:
`no_whitespace(open() >> _del<Close, Char, Escape>{})`. -/
def _delim_dsl.parse_escape (d : _delim_dsl) (Char : Token) (Escape : Branch) (fuel : Nat)
    (next : NextParser) (finish : Sink → Value) (inp : List Code) (st : State)
    (args : List Value) : Option (Bool × State) :=
  match d.open_.parse inp st with
  | .failed s => some (false, s)
  | .succeeded s vals =>
    _del_parse fuel next finish d.Close.toBranch Char Escape inp s (args ++ vals)

/-! ## Tokens and rules the builders are used with -/

/-- The engine of a string literal: match the units of `str` one after the other; on a
mismatch the error code is `1` and the reader stays at the unit that did not match. -/
def lit_match : List Code → List Code → Nat → Nat × Nat
  | [], _, cur => (0, cur)
  | c :: cs, inp, cur => if inp.get? cur = some c then lit_match cs inp (cur + 1) else (1, cur)

/-- Modelled from the spec: `LEXY_LIT(str)` (literal.hpp is not part of the sources), a token
that matches exactly the units of `str` and reports `expected_literal` otherwise. -/
def LEXY_LIT (str : List Code) : Token where
  engine := lit_match str
  can_fail := true
  kind := 1
  token_error := fun cur _ begin => Error.expected_literal begin (cur - begin)

/-- Modelled from the spec: `lit_c<C>` (literal.hpp is not part of the sources), the literal
of the one unit `C`. -/
def lit_c (c : Code) : Token := LEXY_LIT [c]

/-- Modelled from the spec: a token matching one unit that satisfies `p`, the shape of
"any-char-except-quote" (its header is not part of the sources). -/
def char_if (p : Code → Bool) : Token where
  engine := fun inp cur =>
    match inp.get? cur with
    | some c => if p c then (0, cur + 1) else (1, cur)
    | none => (1, cur)
  can_fail := true
  kind := 2
  token_error := fun cur ec begin => Error.token_error ec begin cur

/-- Modelled from the spec: `value_c<C>` (value.hpp is not part of the sources), a rule that
consumes nothing and produces the value `C`, here `v`. -/
def value_c (v : Value) : Rule where
  parse := fun _ st => .succeeded st [v]

/-- Modelled from the spec: `error<Tag>` (error.hpp is not part of the sources), tried as a
branch: it is taken unconditionally, reports the error and fails, so the result is
`canceled`. -/
def error (tag : Error) : Branch where
  try_ := fun _ st => .canceled (context_error st tag)

/-- Modelled from the spec: `cond >> then` (section 4.1; branch.hpp is not part of the
sources). If `cond` backtracks the branch backtracks; if `cond` commits, `then` must
succeed or the branch is `canceled`. -/
def _br (cond : Branch) (then_ : Rule) : Branch where
  try_ := fun inp st =>
    match cond.try_ inp st with
    | .backtracked s => .backtracked s
    | .canceled s => .canceled s
    | .matched s v1 =>
      match then_.parse inp s with
      | .failed s2 => .canceled s2
      | .succeeded s2 v2 => .matched s2 (v1 ++ v2)

/-- Alternatives tried in order: on `backtracked` the next one is tried, on a match or a
cancel that outcome is the choice's. -/
def _chc_try : List Branch → List Code → State → TryOutcome
  | [], _, st => .backtracked st
  | b :: bs, inp, st =>
    match b.try_ inp st with
    | .backtracked s => _chc_try bs inp s
    | .canceled s => .canceled s
    | .matched s vals => .matched s vals

/-- Modelled from the spec: `A | B | ... | Z` (section 4.1; choice.hpp is not part of the
sources), parsed as a rule: the outcome of the first alternative that does not backtrack;
when every alternative backtracks the parse fails after reporting `exhausted_choice`. -/
def _chc (alts : List Branch) : Rule where
  parse := fun inp st =>
    match _chc_try alts inp st with
    | .backtracked s => .failed (context_error s Error.exhausted_choice)
    | .canceled s => .failed s
    | .matched s vals => .succeeded s vals

/-! ## The `escape` builder (delimited.hpp, lines 244-338) -/

/-- `_escape_rule<Escape>(branches...)` (lines 246-253): the escape token alone when no
branch was added, else `Escape{} >> (branches | ... | error<invalid_escape_sequence>)`. -/
def _escape_rule (Escape : Token) (branches : List Branch) : Branch :=
  if branches.length = 0 then
    Escape.rule.toBranch
  else
    _br Escape.rule.toBranch (_chc (branches ++ [error Error.invalid_escape_sequence]))

/-- `_escape_cap<Engine>::parser<NextParser>::try_parse(context, reader, args...)`
(lines 264-274). -/
def _escape_cap_try_parse (engine : List Code → Nat → Nat × Nat) (next : NextParser)
    (inp : List Code) (st : State) (args : List Value) : rule_try_parse_result × State :=
  let begin_ := st.cur
  match engine_try_match engine inp st.cur with
  | none => (.backtracked, st)
  | some e =>
    let r := next { st with cur := e } (args ++ [Value.lexeme begin_ e])
    (rule_try_parse_result.of_bool r.1, r.2)

/-- `_escape_cap<Engine>` as a branch: the part of `try_parse` that runs before the
continuation. -/
def _escape_cap (engine : List Code → Nat → Nat × Nat) : Branch where
  try_ := fun inp st =>
    let begin_ := st.cur
    match engine_try_match engine inp st.cur with
    | none => .backtracked st
    | some e => .matched { st with cur := e } [Value.lexeme begin_ e]

/-- `_escape<Escape, Branches...>`. -/
structure _escape where
  Escape : Token
  Branches : List Branch

/-- The rule an `_escape` value is: its base class `decltype(_escape_rule<Escape>(Branches{}...))`. -/
def _escape.rule_ (e : _escape) : Branch := _escape_rule e.Escape e.Branches

/-- `_escape::rule(Branch)`. -/
def _escape.rule (e : _escape) (b : Branch) : _escape := ⟨e.Escape, e.Branches ++ [b]⟩

/-- `_escape::capture(Token)`. -/
def _escape.capture (e : _escape) (t : Token) : _escape := e.rule (_escape_cap t.engine)

/-- `_escape::lit_c<C>(value)`: `rule(lexyd::lit_c<C> >> value)`. -/
def _escape.lit_c (e : _escape) (c : Code) (value : Rule) : _escape :=
  e.rule (_br (lexy.lit_c c).rule.toBranch value)

/-- `_escape::lit_c<C>()`: `lit_c<C>(value_c<C>)`. -/
def _escape.lit_c_self (e : _escape) (c : Code) : _escape :=
  e.lit_c c (value_c (Value.code c))

/-- `escape(EscapeToken)`. -/
def escape (tok : Token) : _escape := ⟨tok, []⟩

/-- `backslash_escape = escape(lit_c<'\\'>)`. -/
def backslash_escape : _escape := escape (lexy.lit_c (Char.ofNat 92))

/-- `dollar_escape = escape(lit_c<'$'>)`. -/
def dollar_escape : _escape := escape (lexy.lit_c (Char.ofNat 36))

/-- `quoted = delimited(LEXY_LIT("\""))`. -/
def quoted : _delim_dsl := delimited_delim (LEXY_LIT [Char.ofNat 34]).rule

/-- `triple_quoted = delimited(LEXY_LIT("\"\"\""))`. -/
def triple_quoted : _delim_dsl :=
  delimited_delim (LEXY_LIT [Char.ofNat 34, Char.ofNat 34, Char.ofNat 34]).rule

/-- `single_quoted = delimited(LEXY_LIT("'"))`. -/
def single_quoted : _delim_dsl := delimited_delim (LEXY_LIT [Char.ofNat 39]).rule

/-- The predefined `backticked`: `delimited` of the one-backtick literal. -/
def backticked : _delim_dsl := delimited_delim (LEXY_LIT [Char.ofNat 96]).rule

/-- The predefined `double_backticked`. -/
def double_backticked : _delim_dsl :=
  delimited_delim (LEXY_LIT [Char.ofNat 96, Char.ofNat 96]).rule

/-- The predefined `triple_backticked`. -/
def triple_backticked : _delim_dsl :=
  delimited_delim (LEXY_LIT [Char.ofNat 96, Char.ofNat 96, Char.ofNat 96]).rule

/-! ## Vocabulary of the statements -/

/-- A token accepts at `p`: its engine reports no error there, or cannot fail. -/
def Token.accepts (T : Token) (inp : List Code) (p : Nat) : Prop :=
  T.can_fail = true → (T.engine inp p).1 = 0

/-- The double quote. -/
def dquote : Code := Char.ofNat 34

/-- The backslash. -/
def backslash : Code := Char.ofNat 92

/-- The content token "any character except the quote". -/
def not_quote : Token := char_if (fun c => c != dquote)

/-- The content token "any character". -/
def any_char : Token := char_if (fun _ => true)

/-- A final continuation that succeeds and leaves the state as it is. -/
def accept : NextParser := fun st _ => (true, st)

/-- A sink whose `finish` returns the number of calls it received. -/
def count_calls : Sink → Value := fun sink => Value.num sink.length

/-- The state at the start of a parse. -/
def start : State := ⟨0, [], []⟩

/-- `T.tiles inp p cuts e`: starting at `p`, the token matches from each position to the
next one of `cuts`, consuming input each time, and the last position is `e`. -/
def Token.tiles (T : Token) (inp : List Code) : Nat → List Nat → Nat → Prop
  | p, [], e => p = e
  | p, q :: rest, e =>
    T.accepts inp p ∧ (T.engine inp p).2 = q ∧ p < q ∧ Token.tiles T inp q rest e

/-- One sink call per pair of consecutive positions, with the lexeme between them. -/
def lexemes_between : Nat → List Nat → Sink
  | _, [] => []
  | p, q :: rest => [Value.lexeme p q] :: lexemes_between q rest

/-- One token event per pair of consecutive positions. -/
def tokens_between (kind : Nat) : Nat → List Nat → List TokenEvent
  | _, [] => []
  | p, q :: rest => ⟨kind, p, q⟩ :: tokens_between kind q rest

/-- The input text a value spans: the units of `[b, e)` for a lexeme, nothing otherwise. -/
def lexeme_text (inp : List Code) : Value → List Code
  | .lexeme b e => (inp.drop b).take (e - b)
  | _ => []

/-- The texts of all lexemes a sink received, concatenated in push order. -/
def sink_text (inp : List Code) (sink : Sink) : List Code :=
  (sink.map (fun call => (call.map (lexeme_text inp)).flatten)).flatten

/-- The loop heads the escape-free loop passes within `fuel` iterations, oldest first:
the state and the sink at each evaluation of the loop body. -/
def _del_void_heads (next : NextParser) (finish : Sink → Value) (Close : Branch) (Char : Token)
    (inp : List Code) (args : List Value) (del_begin : Nat) :
    Nat → State → Sink → List (State × Sink)
  | 0, _, _ => []
  | fuel + 1, st, sink =>
    (st, sink) ::
      match _del_void_body next finish Close Char inp args del_begin st sink with
      | .done _ => []
      | .again st1 sink1 =>
        _del_void_heads next finish Close Char inp args del_begin fuel st1 sink1

/-- The positions after each of `n` one-unit matches that start at `b`. -/
def unit_cuts (b : Nat) : Nat → List Nat
  | 0 => []
  | n + 1 => (b + 1) :: unit_cuts (b + 1) n

/-- The state the loop body goes on with after trying `Close` at the loop head `st`. -/
def after_close (Close : Branch) (inp : List Code) (st : State) : State :=
  match Close.try_ inp st with
  | .backtracked s => s
  | .canceled s => s
  | .matched s _ => s

/-- The sink call of the content branch at the loop head `st`: one lexeme from the reader
position after the attempt of `Close` to where the engine of `Char` leaves the reader. -/
def head_lexeme (Close : Branch) (Char : Token) (inp : List Code) (st : State) : List Value :=
  [Value.lexeme (after_close Close inp st).cur
    (Char.engine inp (after_close Close inp st).cur).2]

/-- The content token of the examples below: the two units a, quote. -/
def a_quote : Token := LEXY_LIT ['a', dquote]

/-- The loop heads the loop with escapes passes within `fuel` iterations, oldest first:
the state and the sink at each evaluation of the loop body. -/
def _del_heads (next : NextParser) (finish : Sink → Value) (Close : Branch) (Char : Token)
    (Escape : Branch) (inp : List Code) (args : List Value) (del_begin : Nat) :
    Nat → State → Sink → List (State × Sink)
  | 0, _, _ => []
  | fuel + 1, st, sink =>
    (st, sink) ::
      match _del_body next finish Close Char Escape inp args del_begin st sink with
      | .done _ => []
      | .again st1 sink1 =>
        _del_heads next finish Close Char Escape inp args del_begin fuel st1 sink1

/-- One iteration of the loop with escapes, from the loop head `h1` to the loop head `h2`:
`Close` backtracked, the reader was not at the end of input, and either `Escape` matched
and the sink received its values in one call (no call when it produced none), or
`Escape` backtracked, `Char` matched and the sink received the lexeme of that match. -/
def del_step (Close : Branch) (Char : Token) (Escape : Branch) (inp : List Code)
    (h1 h2 : State × Sink) : Prop :=
  ∃ s : State, Close.try_ inp h1.1 = .backtracked s ∧ reader_eof inp s = false ∧
    ((∃ vals : List Value, Escape.try_ inp s = .matched h2.1 vals ∧
        h2.2 = h1.2 ++ (if vals.isEmpty then [] else [vals])) ∨
      (∃ s3 : State, Escape.try_ inp s = .backtracked s3 ∧ Char.accepts inp s3.cur ∧
        h2.1 = context_token { s3 with cur := (Char.engine inp s3.cur).2 } Char.kind s3.cur
          (Char.engine inp s3.cur).2 ∧
        h2.2 = h1.2 ++ [[Value.lexeme s3.cur (Char.engine inp s3.cur).2]]))

/-- The newline. -/
def newline : Code := Char.ofNat 10

/-- The escape of the scenarios: `backslash_escape.lit_c<'n'>('\n')`. -/
def backslash_n : Branch := (backslash_escape.lit_c 'n' (value_c (Value.code newline))).rule_

/-- The input of the scenario: quote, a, backslash, n, b, quote. -/
def a_escape_b : List Code := [dquote, 'a', backslash, 'n', 'b', dquote]

/-- The state after a token matched from `st.cur` to `pos`. -/
def Token.matched_state (T : Token) (st : State) (pos : Nat) : State :=
  context_token { st with cur := pos } T.kind st.cur pos

/-- A sink whose `finish` returns 42, as in the tests. -/
def forty_two : Sink → Value := fun _ => Value.num 42

/-- A final continuation that succeeds exactly when it is handed the arguments `vs`. -/
def expects (vs : List Value) : NextParser := fun st args => (decide (args = vs), st)

/-- The closing branch `LEXY_LIT(";") >> value_c<0>` of the tests. -/
def semicolon_zero : Branch := _br (LEXY_LIT [';']).rule.toBranch (value_c (Value.num 0))

/-- An unterminated input: quote, a, backslash, n, b. -/
def a_escape_open : List Code := [dquote, 'a', backslash, 'n', 'b']

/-! ## `_while<Branch>` (while.hpp) -/

/-- A matcher: `matcher::match(reader)` gives the `bool` result and the position at which
it leaves the reader. -/
abbrev Matcher := List Code → Nat → Bool × Nat

/-- What `_while<Branch>` uses of its branch: the matcher of the condition, whether there
is a `then`, the matcher of `then()`, and the parser of `then`. -/
structure PatternBranch where
  condition_matcher : Matcher
  has_then : Bool
  then_matcher : Matcher
  then_ : Rule

/-- A pattern: a rule that can also be matched. -/
structure Pattern where
  rule : Rule
  matcher : Matcher

/-- The loop of `_while<Branch>::matcher::match` (while.hpp, lines 24-33); `save` is the
copy of the reader taken at entry. -/
def _while_matcher_loop (B : PatternBranch) (inp : List Code) (save : Nat) :
    Nat → Nat → Option (Bool × Nat)
  | 0, _ => none
  | fuel + 1, reader =>
    let c := B.condition_matcher inp reader
    if c.1 then
      let t := B.then_matcher inp c.2
      if !t.1 then
        some (false, save)
      else
        _while_matcher_loop B inp save fuel t.2
    else
      some (true, c.2)

/-- `_while<Branch>::matcher::match(reader)` (while.hpp, lines 21-34). -/
def _while_matcher_match (fuel : Nat) (B : PatternBranch) (inp : List Code) (reader : Nat) :
    Option (Bool × Nat) :=
  let save := reader
  _while_matcher_loop B inp save fuel reader

/-- The loop `while (Branch::condition_matcher::match(reader)) {}` (while.hpp, lines 70-72):
the position at which the first failing match leaves the reader. -/
def _while_condition_loop (B : PatternBranch) (inp : List Code) : Nat → Nat → Option Nat
  | 0, _ => none
  | fuel + 1, reader =>
    let c := B.condition_matcher inp reader
    if c.1 then _while_condition_loop B inp fuel c.2 else some c.2

/-- `_while<Branch>::parser<NextParser>::parse(handler, reader, args...)` (while.hpp,
lines 52-76). With a `then`, a matching condition is followed by the parser of `then` whose
continuation `_continuation` (lines 40-50) is this parser again, with the arguments it
was handed. -/
def _while_parse (B : PatternBranch) (next : NextParser) (inp : List Code) :
    Nat → State → List Value → Option (Bool × State)
  | 0, _, _ => none
  | fuel + 1, st, args =>
    if B.has_then then
      let c := B.condition_matcher inp st.cur
      if c.1 then
        match B.then_.parse inp { st with cur := c.2 } with
        | .failed s => some (false, s)
        | .succeeded s vals => _while_parse B next inp fuel s (args ++ vals)
      else
        some (next { st with cur := c.2 } args)
    else
      match _while_condition_loop B inp (fuel + 1) st.cur with
      | none => none
      | some r => some (next { st with cur := r } args)

/-- Modelled from the spec: `branch(pattern)` for a pattern without a `then` (branch.hpp is
not part of the sources): the condition is the pattern, and the empty `then` matches and
parses without consuming or producing anything. -/
def branch (pattern : Pattern) : PatternBranch where
  condition_matcher := pattern.matcher
  has_then := false
  then_matcher := fun _ r => (true, r)
  then_ := ⟨fun _ st => .succeeded st []⟩

/-- Modelled from the spec: `condition >> then` of two patterns, as the branch `_while`
sees it (section 4.1; branch.hpp is not part of the sources): the condition is matched,
`then` is matched or parsed after it. -/
def branch_then (condition then_ : Pattern) : PatternBranch where
  condition_matcher := condition.matcher
  has_then := true
  then_matcher := then_.matcher
  then_ := then_.rule

/-- Modelled from the spec: `A + B` parsed (section 4.1; sequence.hpp is not part of the
sources): parse `A`, then go on with the parser of `B` on the arguments extended by the
values of `A`; a failure of `A` is the failure of the whole. -/
def _seq_parse (A : Rule) (k : State → List Value → Option (Bool × State)) (inp : List Code)
    (st : State) (args : List Value) : Option (Bool × State) :=
  match A.parse inp st with
  | .failed s => some (false, s)
  | .succeeded s vals => k s (args ++ vals)

/-- `while_(pattern)` (while.hpp, lines 81-86), parsed: `_while<decltype(branch(pattern))>`. -/
def while_ (pattern : Pattern) (fuel : Nat) (next : NextParser) (inp : List Code) (st : State)
    (args : List Value) : Option (Bool × State) :=
  _while_parse (branch pattern) next inp fuel st args

/-- `do_while(then, condition)` (while.hpp, lines 96-100), parsed:
`then + while_(condition >> then)`. -/
def do_while (then_ condition : Pattern) (fuel : Nat) (next : NextParser) (inp : List Code)
    (st : State) (args : List Value) : Option (Bool × State) :=
  _seq_parse then_.rule
    (fun s a => _while_parse (branch_then condition then_) next inp fuel s a) inp st args

/-- Modelled from the spec: a token as a pattern (token.hpp is not part of the sources): its
rule is the token adapter, its matcher tries the engine and leaves the reader alone when
it does not match. -/
def Token.pattern (T : Token) : Pattern where
  rule := ⟨T.parse⟩
  matcher := fun inp r =>
    match engine_try_match T.engine inp r with
    | some e => (true, e)
    | none => (false, r)

/-- Modelled from the spec: the parser of a token as a continuation-passing parser. -/
def Token.parse_then (T : Token) (next : NextParser) (inp : List Code) : NextParser :=
  fun st args =>
    match T.parse inp st with
    | .failed s => (false, s)
    | .succeeded s vals => next s (args ++ vals)

/-- Modelled from the spec: `terminator(term).while_(rule)` (terminator.hpp is not part of
the sources), parsed: `while_(rule)` followed by the terminator. -/
def terminator_while (term : Token) (rule : Pattern) (fuel : Nat) (next : NextParser)
    (inp : List Code) (st : State) (args : List Value) : Option (Bool × State) :=
  while_ rule fuel (term.parse_then next inp) inp st args

/-- One complete iteration of the matcher loop from the reader position `r`: the condition
matches and `then` matches after it; the position reached. -/
def matcher_iteration (B : PatternBranch) (inp : List Code) (r : Nat) : Option Nat :=
  let c := B.condition_matcher inp r
  if c.1 then
    let t := B.then_matcher inp c.2
    if t.1 then some t.2 else none
  else none

/-- The reader position after `k` complete iterations of the matcher loop. -/
def matcher_iterations (B : PatternBranch) (inp : List Code) : Nat → Nat → Option Nat
  | 0, r => some r
  | k + 1, r =>
    match matcher_iteration B inp r with
    | some r1 => matcher_iterations B inp k r1
    | none => none

/-- One complete iteration of the parser loop from a loop head: the condition matches and
`then` parses after it; the state and the arguments of the next loop head. -/
def parser_iteration (B : PatternBranch) (inp : List Code) (h : State × List Value) :
    Option (State × List Value) :=
  let c := B.condition_matcher inp h.1.cur
  if c.1 then
    match B.then_.parse inp { h.1 with cur := c.2 } with
    | .failed _ => none
    | .succeeded s vals => some (s, h.2 ++ vals)
  else none

/-- The loop head after `k` complete iterations of the parser loop. -/
def parser_iterations (B : PatternBranch) (inp : List Code) :
    Nat → State × List Value → Option (State × List Value)
  | 0, h => some h
  | k + 1, h =>
    match parser_iteration B inp h with
    | some h1 => parser_iterations B inp k h1
    | none => none

/-- The reader position after `k` matches of the condition in a row. -/
def condition_matches (B : PatternBranch) (inp : List Code) : Nat → Nat → Option Nat
  | 0, r => some r
  | k + 1, r =>
    let c := B.condition_matcher inp r
    if c.1 then condition_matches B inp k c.2 else none

/-- The pattern of the tests: the literal a, b, c. -/
def abc : Pattern := (LEXY_LIT ['a', 'b', 'c']).pattern

/-- The terminator of the tests: the literal semicolon. -/
def semicolon : Token := LEXY_LIT [';']

/-- The pattern `a >> b` of one-unit literals, as a branch. -/
def a_then_b : PatternBranch := branch_then (lexy.lit_c 'a').pattern (lexy.lit_c 'b').pattern

/-! ## Productions (production.hpp) -/

/-- An entered production and the reader position it was entered with. -/
structure Frame where
  production : Nat
  start : Nat
  deriving DecidableEq, Repr

/-- The context a rule is parsed in: the chain of entered productions, innermost first.
Errors and tokens go to the state, which all contexts of a parse share. -/
structure Context where
  stack : List Frame
  deriving DecidableEq, Repr

/-- Modelled from the spec: `context.production_context(Production{}, pos)` (the context
class is not part of the sources): a child context scoped to the production, the caller's
chain with one frame more. The caller's context is not changed. -/
def Context.production_context (context : Context) (production : Nat) (pos : Nat) : Context :=
  ⟨⟨production, pos⟩ :: context.stack⟩

/-- `Context::result_type`: a failure, a success without a value, or a success with one. -/
inductive Result where
  | failure
  | void
  | value (v : Value)
  deriving DecidableEq, Repr

/-- `NextParser::parse(context, reader, args...)` of production.hpp. -/
abbrev ContextParser := Context → State → List Value → Result × State

/-- `lexy::branch_matcher<Rule, Reader>`: whether the branch is unconditional, `match`
(its result, the state it leaves and what the matcher object remembers), and `parse`
with the value parser as continuation, given what was remembered. -/
structure branch_matcher where
  is_unconditional : Bool
  match_ : List Code → Context → State → Bool × State × Nat
  parse : Nat → List Code → Context → State → Result × State

/-- What production.hpp uses of `lexy::production_rule<Production>`: its parse with the
value parser as continuation, and its branch matcher when the rule is a branch. -/
structure ProductionRule where
  parse : List Code → Context → State → Result × State
  branch : Option branch_matcher

/-- `lexy::is_branch<Rule>`. -/
def ProductionRule.is_branch (Rule : ProductionRule) : Bool := Rule.branch.isSome

/-- A production: its tag and `lexy::production_rule<Production>`. -/
structure Production where
  tag : Nat
  rule : ProductionRule

/-- `_parse<Rule>(context, reader)` (production.hpp, lines 15-19). -/
def _parse (Rule : ProductionRule) (inp : List Code) (context : Context) (st : State) :
    Result × State :=
  Rule.parse inp context st

/-- `_prd_parser<Production, Rule, NextParser>::parse(context, reader, args...)`
(production.hpp, lines 24-39). -/
def _prd_parser_parse (Production : Nat) (Rule : ProductionRule) (next : ContextParser)
    (inp : List Code) (context : Context) (st : State) (args : List Value) : Result × State :=
  let prod_ctx := context.production_context Production st.cur
  let result := _parse Rule inp prod_ctx st
  match result.1 with
  | .void => next context result.2 args
  | .value v => next context result.2 (args ++ [v])
  | .failure => (Result.failure, result.2)

/-- `_prd<Production>::branch_matcher<Reader>` (production.hpp, lines 49-77): the matcher
`_impl` of the production's rule, and the production. -/
structure _prd_branch_matcher where
  Production : Nat
  _impl : branch_matcher

/-- `_prd::branch_matcher::is_unconditional` (line 54). -/
def _prd_branch_matcher.is_unconditional (m : _prd_branch_matcher) : Bool :=
  m._impl.is_unconditional

/-- `_prd::branch_matcher::match(context, reader)` (lines 56-60). -/
def _prd_branch_matcher.match_ (m : _prd_branch_matcher) (inp : List Code) (context : Context)
    (st : State) : Bool × State × Nat :=
  m._impl.match_ inp context st

/-- `_prd::branch_matcher::parse<NextParser>(context, reader, args...)` (lines 62-76);
`mem` is what `_impl` remembers from `match`. -/
def _prd_branch_matcher.parse (m : _prd_branch_matcher) (mem : Nat) (next : ContextParser)
    (inp : List Code) (context : Context) (st : State) (args : List Value) : Result × State :=
  let prod_ctx := context.production_context m.Production st.cur
  let result := m._impl.parse mem inp prod_ctx st
  match result.1 with
  | .void => next context result.2 args
  | .value v => next context result.2 (args ++ [v])
  | .failure => (Result.failure, result.2)

/-- `_prd<Production>` (production.hpp, lines 42-87): `p<Production>`. -/
structure _prd where
  Production : Production

/-- `_prd::_rule` (line 45). -/
def _prd._rule (r : _prd) : ProductionRule := r.Production.rule

/-- `_prd::is_branch` (line 47). -/
def _prd.is_branch (r : _prd) : Bool := r._rule.is_branch

/-- The branch matcher of `_prd`, which exists when the rule has one. -/
def _prd.branch_matcher (r : _prd) : Option _prd_branch_matcher :=
  r._rule.branch.map (fun impl => ⟨r.Production.tag, impl⟩)

/-- `_prd::parser<NextParser>` (lines 79-80). -/
def _prd.parser (r : _prd) (next : ContextParser) (inp : List Code) (context : Context)
    (st : State) (args : List Value) : Result × State :=
  _prd_parser_parse r.Production.tag r._rule next inp context st args

/-- `p<Production>` (line 91). -/
def p (Production : Production) : _prd := ⟨Production⟩

/-- `_rec<Production>` (production.hpp, lines 93-105): `recurse<Production>`. -/
structure _rec where
  Production : Production

/-- Modelled from the spec: `_rec` takes `is_branch` from `rule_base` (base.hpp is not part
of the sources) and declares no branch matcher: "it never inherits branch semantics". -/
def _rec.is_branch (_ : _rec) : Bool := false

/-- `_rec::parser<NextParser>` (lines 96-98). -/
def _rec.parser (r : _rec) (next : ContextParser) (inp : List Code) (context : Context)
    (st : State) (args : List Value) : Result × State :=
  _prd_parser_parse r.Production.tag r.Production.rule next inp context st args

/-- `recurse<Production>` (line 111). -/
def recurse (Production : Production) : _rec := ⟨Production⟩

/-- A final continuation that records the depth of the context it is called in, as an
observed token of kind 9, and returns the number of arguments it was handed. -/
def record_depth : ContextParser :=
  fun context st args =>
    (Result.value (Value.num args.length), context_token st 9 context.stack.length 0)

/-- A rule that consumes one unit, records the depth of the context it is parsed in and
the start position of the innermost frame, as an observed token of kind 8, and succeeds
with the value 5. -/
def depth_rule : ProductionRule where
  parse := fun _ context st =>
    (Result.value (Value.num 5),
      context_token { st with cur := st.cur + 1 } 8 context.stack.length
        (match context.stack with
        | [] => 0
        | f :: _ => f.start))
  branch := none

/-- A branch rule: its condition matches one a in the caller's context, recording the depth
of that context as a token of kind 7; the rest records like `depth_rule` and produces
no value. -/
def a_branch_rule : ProductionRule where
  parse := fun inp context st =>
    if inp.get? st.cur = some 'a' then
      (Result.void, context_token { st with cur := st.cur + 1 } 8 context.stack.length
        (match context.stack with
        | [] => 0
        | f :: _ => f.start))
    else (Result.failure, context_error st (Error.expected_literal st.cur 0))
  branch := some
    { is_unconditional := false
      match_ := fun inp context st =>
        if inp.get? st.cur = some 'a' then
          (true, context_token { st with cur := st.cur + 1 } 7 context.stack.length 0, st.cur)
        else (false, st, st.cur)
      parse := fun _ _ context st =>
        (Result.void, context_token st 8 context.stack.length
          (match context.stack with
          | [] => 0
          | f :: _ => f.start)) }

/-- A rule that fails after reporting an error. -/
def failing_rule : ProductionRule where
  parse := fun _ _ st => (Result.failure, context_error st (Error.expected_literal st.cur 0))
  branch := none

/-! ## Token difference (the tests of `operator-`) -/

/-- Modelled from the spec: `A - B` (minus.hpp is not part of the sources; the tests in
tests/lexy/dsl/minus.cpp and scenario 6 describe it). The engine matches `A`; when `A`
fails the error is `A`'s own (its code shifted by one); when `A` matches, `B` is tried on
the span `A` consumed and no further, and if `B` matches that whole span the error code is
`1`, reported as `minus_failure` from the begin of the token to the end of `A`'s match;
otherwise the token matches what `A` matched. -/
def minus (A B : Token) : Token where
  engine := fun inp cur =>
    let a := A.engine inp cur
    if a.1 ≠ 0 then (a.1 + 1, a.2)
    else
      let b := B.engine (inp.take a.2) cur
      if b.1 = 0 ∧ (inp.take a.2).length ≤ b.2 then (1, a.2) else (0, a.2)
  can_fail := true
  kind := A.kind
  token_error := fun cur ec begin =>
    if ec = 1 then Error.minus_failure begin cur else A.token_error cur (ec - 1) begin

/-- `B` matches the whole span `A` consumed from `cur`. -/
def matches_whole_span (A B : Token) (inp : List Code) (cur : Nat) : Prop :=
  (B.engine (inp.take (A.engine inp cur).2) cur).1 = 0 ∧
    (inp.take (A.engine inp cur).2).length ≤ (B.engine (inp.take (A.engine inp cur).2) cur).2

/-- The engine of `until(T)`: try `T`; at the end of input the error is the one `T` gives
there; otherwise skip one unit and go on. -/
def until_match (T : Token) (inp : List Code) : Nat → Nat → Nat × Nat
  | 0, cur => T.engine inp cur
  | fuel + 1, cur =>
    match engine_try_match T.engine inp cur with
    | some e => (0, e)
    | none => if inp.length ≤ cur then T.engine inp cur else until_match T inp fuel (cur + 1)

/-- Modelled from the spec: `until(T)` (until.hpp is not part of the sources): everything up
to and including the first match of `T`; when the input ends first, the error of `T` at
the end of input. -/
def until_ (T : Token) : Token where
  engine := fun inp cur => until_match T inp (inp.length - cur) cur
  can_fail := true
  kind := 3
  token_error := fun cur ec _ => T.token_error cur ec cur

/-- Modelled from the spec: `any` (any.hpp is not part of the sources): all the input that
is left; it cannot fail. -/
def any : Token where
  engine := fun inp cur => (0, max cur inp.length)
  can_fail := false
  kind := 4
  token_error := fun cur ec begin => Error.token_error ec begin cur

/-- The literal of the tests: the exclamation mark. -/
def bang : Token := LEXY_LIT ['!']

/-- The rule of the first test: `until(LIT("!")) - LIT("aa!")`. -/
def until_bang_minus_aa : Token := minus (until_ bang) (LEXY_LIT ['a', 'a', '!'])

/-- The rule of the second test: `until(LIT("!")) - LIT("a!") - LIT("aa!")`. -/
def until_bang_minus_a_minus_aa : Token :=
  minus (minus (until_ bang) (LEXY_LIT ['a', '!'])) (LEXY_LIT ['a', 'a', '!'])

/-- The rule of the third test: `until(LIT("!")) - any`. -/
def until_bang_minus_any : Token := minus (until_ bang) any

/-! ## Vocabulary of the later statements -/

/-- The empty literal, a content token whose engine succeeds without consuming input. -/
def empty_literal : Token := LEXY_LIT []

/-- `ascending b cuts e`: the positions `b`, then those of `cuts`, never decrease, and the
last one is `e`. -/
def ascending : Nat → List Nat → Nat → Prop
  | b, [], e => b = e
  | b, q :: rest, e => b ≤ q ∧ ascending q rest e

/-- The escape of an escaped quote: `backslash_escape.lit_c<'"'>()`. -/
def backslash_quote : Branch := (backslash_escape.lit_c_self dquote).rule_

/-- An unterminated input with an escaped quote: quote, a, backslash, quote, b. -/
def a_escaped_quote_b : List Code := [dquote, 'a', backslash, dquote, 'b']

/-! ## Lemmas on the loop bodies -/

theorem of_bool_ne_backtracked (b : Bool) :
    rule_try_parse_result.of_bool b ≠ rule_try_parse_result.backtracked := by
  cases b <;> simp [rule_try_parse_result.of_bool]

theorem to_bool_of_bool (b : Bool) : (rule_try_parse_result.of_bool b).to_bool = b := by
  cases b <;> rfl

theorem _del_char_accepts (Char : Token) (inp : List Code) (st : State) (sink : Sink)
    (h : Char.accepts inp st.cur) :
    _del_char Char inp st sink =
      .again (context_token { st with cur := (Char.engine inp st.cur).2 } Char.kind st.cur
        (Char.engine inp st.cur).2) (sink ++ [[Value.lexeme st.cur (Char.engine inp st.cur).2]]) := by
  unfold _del_char
  by_cases hc : Char.can_fail = true
  · simp [hc, h hc]
  · simp [hc]

theorem _del_void_body_backtracked (next : NextParser) (finish : Sink → Value) (Close : Branch)
    (Char : Token) (inp : List Code) (args : List Value) (del_begin : Nat) (st s : State)
    (sink : Sink) (h : Close.try_ inp st = .backtracked s) :
    _del_void_body next finish Close Char inp args del_begin st sink =
      if reader_eof inp s then
        .done (false, context_error s (.missing_delimiter del_begin s.cur))
      else _del_char Char inp s sink := by
  simp [_del_void_body, try_parse, h]

theorem _del_void_body_canceled (next : NextParser) (finish : Sink → Value) (Close : Branch)
    (Char : Token) (inp : List Code) (args : List Value) (del_begin : Nat) (st s : State)
    (sink : Sink) (h : Close.try_ inp st = .canceled s) :
    _del_void_body next finish Close Char inp args del_begin st sink = .done (false, s) := by
  simp [_del_void_body, try_parse, h, rule_try_parse_result.to_bool]

theorem _del_void_body_matched (next : NextParser) (finish : Sink → Value) (Close : Branch)
    (Char : Token) (inp : List Code) (args : List Value) (del_begin : Nat) (st s : State)
    (cv : List Value) (sink : Sink) (h : Close.try_ inp st = .matched s cv) :
    _del_void_body next finish Close Char inp args del_begin st sink =
      .done (next s (args ++ [finish sink] ++ cv)) := by
  simp [_del_void_body, try_parse, h, _list_finish, of_bool_ne_backtracked, to_bool_of_bool]

theorem _del_body_backtracked (next : NextParser) (finish : Sink → Value) (Close : Branch)
    (Char : Token) (Escape : Branch) (inp : List Code) (args : List Value) (del_begin : Nat)
    (st s : State) (sink : Sink) (h : Close.try_ inp st = .backtracked s) :
    _del_body next finish Close Char Escape inp args del_begin st sink =
      if reader_eof inp s then
        .done (false, context_error s (.missing_delimiter del_begin s.cur))
      else
        match Escape.try_ inp s with
        | .backtracked s2 => _del_char Char inp s2 sink
        | .canceled s2 => .done (false, s2)
        | .matched s2 vals => .again s2 (if vals.isEmpty then sink else sink ++ [vals]) := by
  simp only [_del_body, try_parse, h]
  by_cases he : reader_eof inp s = true
  · simp [he]
  · cases hE : Escape.try_ inp s <;> simp [he, _list_sink, rule_try_parse_result.of_bool]

theorem _del_body_canceled (next : NextParser) (finish : Sink → Value) (Close : Branch)
    (Char : Token) (Escape : Branch) (inp : List Code) (args : List Value) (del_begin : Nat)
    (st s : State) (sink : Sink) (h : Close.try_ inp st = .canceled s) :
    _del_body next finish Close Char Escape inp args del_begin st sink = .done (false, s) := by
  simp [_del_body, try_parse, h, rule_try_parse_result.to_bool]

theorem _del_body_matched (next : NextParser) (finish : Sink → Value) (Close : Branch)
    (Char : Token) (Escape : Branch) (inp : List Code) (args : List Value) (del_begin : Nat)
    (st s : State) (cv : List Value) (sink : Sink) (h : Close.try_ inp st = .matched s cv) :
    _del_body next finish Close Char Escape inp args del_begin st sink =
      .done (next s (args ++ [finish sink] ++ cv)) := by
  simp [_del_body, try_parse, h, _list_finish, of_bool_ne_backtracked, to_bool_of_bool]

/-- More fuel does not change a result the escape-free loop already gave. -/
theorem _del_void_loop_mono (next : NextParser) (finish : Sink → Value) (Close : Branch)
    (Char : Token) (inp : List Code) (args : List Value) (b : Nat) (r : Bool × State) :
    ∀ (n m : Nat) (st : State) (sink : Sink), n ≤ m →
      _del_void_loop next finish Close Char inp args b n st sink = some r →
      _del_void_loop next finish Close Char inp args b m st sink = some r := by
  intro n
  induction n with
  | zero => intro m st sink _ h; simp [_del_void_loop] at h
  | succ n ih =>
    intro m st sink hm h
    obtain ⟨k, rfl⟩ : ∃ k, m = k + 1 := ⟨m - 1, by omega⟩
    simp only [_del_void_loop] at h ⊢
    cases hb : _del_void_body next finish Close Char inp args b st sink with
    | done r1 => simpa [hb] using h
    | again s1 k1 =>
      rw [hb] at h
      exact ih k s1 k1 (by omega) h

/-- More fuel does not change a result the loop with escapes already gave. -/
theorem _del_loop_mono (next : NextParser) (finish : Sink → Value) (Close : Branch)
    (Char : Token) (Escape : Branch) (inp : List Code) (args : List Value) (b : Nat)
    (r : Bool × State) :
    ∀ (n m : Nat) (st : State) (sink : Sink), n ≤ m →
      _del_loop next finish Close Char Escape inp args b n st sink = some r →
      _del_loop next finish Close Char Escape inp args b m st sink = some r := by
  intro n
  induction n with
  | zero => intro m st sink _ h; simp [_del_loop] at h
  | succ n ih =>
    intro m st sink hm h
    obtain ⟨k, rfl⟩ : ∃ k, m = k + 1 := ⟨m - 1, by omega⟩
    simp only [_del_loop] at h ⊢
    cases hb : _del_body next finish Close Char Escape inp args b st sink with
    | done r1 => simpa [hb] using h
    | again s1 k1 =>
      rw [hb] at h
      exact ih k s1 k1 (by omega) h

/-! ## Successful runs of the escape-free loop -/

theorem tiles_le (T : Token) (inp : List Code) (e : Nat) :
    ∀ (cuts : List Nat) (p : Nat), T.tiles inp p cuts e → p ≤ e := by
  intro cuts
  induction cuts with
  | nil => intro p h; simp only [Token.tiles] at h; omega
  | cons q rest ih =>
    intro p h
    obtain ⟨_, _, hpq, hrest⟩ := h
    have := ih q hrest
    omega

theorem tiles_mem_lt (T : Token) (inp : List Code) (e : Nat) :
    ∀ (cuts : List Nat) (p : Nat), T.tiles inp p cuts e → ∀ q ∈ cuts, p < q := by
  intro cuts
  induction cuts with
  | nil => intro p _ q hq; simp at hq
  | cons r rest ih =>
    intro p h q hq
    obtain ⟨_, _, hpr, hrest⟩ := h
    rcases List.mem_cons.mp hq with rfl | hq
    · exact hpr
    · have := ih r hrest q hq
      omega

theorem void_loop_success (next : NextParser) (finish : Sink → Value) (Close : Branch)
    (Char : Token) (inp : List Code) (args : List Value) (b e : Nat) (errs : List Error)
    (s2 : State) (cv : List Value) (he : e ≤ inp.length) :
    ∀ (cuts : List Nat) (p : Nat) (toks : List TokenEvent) (sink : Sink),
      Char.tiles inp p cuts e →
      (∀ s : State, s.cur = p ∨ s.cur ∈ cuts → s.cur < e →
        Close.try_ inp s = .backtracked s) →
      Close.try_ inp ⟨e, errs, toks ++ tokens_between Char.kind p cuts⟩ = .matched s2 cv →
      _del_void_loop next finish Close Char inp args b (cuts.length + 1) ⟨p, errs, toks⟩ sink =
        some (next s2 (args ++ [finish (sink ++ lexemes_between p cuts)] ++ cv)) := by
  intro cuts
  induction cuts with
  | nil =>
    intro p toks sink ht _ hend
    simp only [Token.tiles] at ht
    subst ht
    simp only [tokens_between, List.append_nil] at hend
    simp [_del_void_loop, _del_void_body_matched _ _ _ _ _ _ _ _ _ _ _ hend, lexemes_between]
  | cons q rest ih =>
    intro p toks sink ht hclose hend
    obtain ⟨hacc, hq, hpq, hrest⟩ := ht
    have hqe : q ≤ e := tiles_le Char inp e rest q hrest
    have hhead := hclose ⟨p, errs, toks⟩ (Or.inl rfl) (by simp; omega)
    have hne : reader_eof inp ⟨p, errs, toks⟩ = false := by
      simp [reader_eof]; omega
    have := ih q (toks ++ [⟨Char.kind, p, q⟩]) (sink ++ [[Value.lexeme p q]]) hrest
      (fun s h1 h2 => hclose s (Or.inr (by
        rcases h1 with h1 | h1
        · exact h1 ▸ List.mem_cons_self _ _
        · exact List.mem_cons_of_mem _ h1)) h2)
      (by simpa [tokens_between] using hend)
    simp only [List.length_cons, _del_void_loop]
    rw [_del_void_body_backtracked _ _ _ _ _ _ _ _ _ _ hhead, hne]
    simp only [Bool.false_eq_true, if_false]
    rw [_del_char_accepts _ _ _ _ hacc]
    simp only [hq, context_token]
    simpa [lexemes_between] using this

theorem sink_text_lexemes_between (T : Token) (inp : List Code) (e : Nat) :
    ∀ (cuts : List Nat) (p : Nat), T.tiles inp p cuts e →
      sink_text inp (lexemes_between p cuts) = (inp.drop p).take (e - p) := by
  intro cuts
  induction cuts with
  | nil => intro p h; simp only [Token.tiles] at h; subst h; simp [sink_text, lexemes_between]
  | cons q rest ih =>
    intro p h
    obtain ⟨_, _, hpq, hrest⟩ := h
    have hqe := tiles_le T inp e rest q hrest
    have h1 := ih q hrest
    simp only [sink_text] at h1 ⊢
    simp only [lexemes_between, List.map_cons, List.flatten_cons, h1, lexeme_text, List.map_nil,
      List.flatten_nil, List.append_nil]
    have hq : q = p + (q - p) := by omega
    have : List.drop q inp = List.drop (q - p) (List.drop p inp) := by
      rw [List.drop_drop]; congr 1
    rw [this]
    have he : e - p = (q - p) + (e - q) := by omega
    rw [he, List.take_add]

/-! ## Unterminated input -/

/-- The loop heads of the escape-free loop after a body that goes round again. -/
theorem _del_void_heads_again (next : NextParser) (finish : Sink → Value) (Close : Branch)
    (Char : Token) (inp : List Code) (args : List Value) (b n : Nat) (st st1 : State)
    (sink sink1 : Sink)
    (h : _del_void_body next finish Close Char inp args b st sink = .again st1 sink1) :
    _del_void_heads next finish Close Char inp args b (n + 1) st sink =
      (st, sink) :: _del_void_heads next finish Close Char inp args b n st1 sink1 := by
  simp only [_del_void_heads, h]

/-- The loop heads of the loop with escapes after a body that goes round again. -/
theorem _del_heads_again (next : NextParser) (finish : Sink → Value) (Close : Branch)
    (Char : Token) (Escape : Branch) (inp : List Code) (args : List Value) (b n : Nat)
    (st st1 : State) (sink sink1 : Sink)
    (h : _del_body next finish Close Char Escape inp args b st sink = .again st1 sink1) :
    _del_heads next finish Close Char Escape inp args b (n + 1) st sink =
      (st, sink) :: _del_heads next finish Close Char Escape inp args b n st1 sink1 := by
  simp only [_del_heads, h]

/-- When `Close` backtracks at every loop head and `Char` consumes input at every loop head
before the end of input, the escape-free loop fails at its last loop head, which is at the
end of input, with `missing_delimiter`, for every continuation and sink. -/
theorem void_loop_unterminated (next : NextParser) (finish : Sink → Value) (Close : Branch)
    (Char : Token) (inp : List Code) (args : List Value) (b : Nat) :
    ∀ (fuel : Nat) (st : State) (sink : Sink), inp.length - st.cur < fuel →
      (∀ h ∈ _del_void_heads next finish Close Char inp args b fuel st sink,
        Close.try_ inp h.1 = .backtracked h.1 ∧
        (h.1.cur < inp.length →
          Char.accepts inp h.1.cur ∧ h.1.cur < (Char.engine inp h.1.cur).2)) →
      ∃ last : State × Sink,
        last ∈ _del_void_heads next finish Close Char inp args b fuel st sink ∧
        reader_eof inp last.1 = true ∧ last.1.errors = st.errors ∧
        ∀ (next1 : NextParser) (finish1 : Sink → Value) (sink1 : Sink),
          _del_void_loop next1 finish1 Close Char inp args b fuel st sink1 =
            some (false, context_error last.1 (Error.missing_delimiter b last.1.cur)) := by
  intro fuel
  induction fuel with
  | zero => intro st _ h; omega
  | succ n ih =>
    intro st sink hf hP
    obtain ⟨hclose, hchar⟩ := hP (st, sink) (by simp [_del_void_heads])
    simp only at hclose hchar
    by_cases he : reader_eof inp st = true
    · refine ⟨(st, sink), by simp [_del_void_heads], he, rfl, ?_⟩
      intro next1 finish1 sink1
      simp [_del_void_loop, _del_void_body_backtracked _ _ _ _ _ _ _ _ _ _ hclose, he]
    · have hlt : st.cur < inp.length := by simpa [reader_eof] using he
      obtain ⟨hacc, hadv⟩ := hchar hlt
      have hbody : ∀ (next1 : NextParser) (finish1 : Sink → Value) (sink1 : Sink),
          _del_void_body next1 finish1 Close Char inp args b st sink1 =
            .again (context_token { st with cur := (Char.engine inp st.cur).2 } Char.kind st.cur
              (Char.engine inp st.cur).2)
              (sink1 ++ [[Value.lexeme st.cur (Char.engine inp st.cur).2]]) := by
        intro next1 finish1 sink1
        rw [_del_void_body_backtracked _ _ _ _ _ _ _ _ _ _ hclose]
        simp only [he, Bool.false_eq_true, if_false]
        exact _del_char_accepts _ _ _ _ hacc
      have hheads := _del_void_heads_again next finish Close Char inp args b n st _ sink _
        (hbody next finish sink)
      have hfuel : inp.length - (Char.engine inp st.cur).2 < n := by omega
      obtain ⟨last, hmem, heof, herr, hrun⟩ := ih
        (context_token { st with cur := (Char.engine inp st.cur).2 } Char.kind st.cur
          (Char.engine inp st.cur).2)
        (sink ++ [[Value.lexeme st.cur (Char.engine inp st.cur).2]]) hfuel
        (fun h hm => hP h (by rw [hheads]; exact List.mem_cons_of_mem _ hm))
      refine ⟨last, by rw [hheads]; exact List.mem_cons_of_mem _ hmem, heof, herr, ?_⟩
      intro next1 finish1 sink1
      simp only [_del_void_loop, hbody next1 finish1 sink1]
      exact hrun next1 finish1 _

/-- The same for the loop with escapes, where a loop head before the end of input is left
by a match of `Escape` or, when `Escape` backtracks, by a match of `Char`. -/
theorem loop_unterminated (next : NextParser) (finish : Sink → Value) (Close : Branch)
    (Char : Token) (Escape : Branch) (inp : List Code) (args : List Value) (b : Nat) :
    ∀ (fuel : Nat) (st : State) (sink : Sink), inp.length - st.cur < fuel →
      (∀ h ∈ _del_heads next finish Close Char Escape inp args b fuel st sink,
        Close.try_ inp h.1 = .backtracked h.1 ∧
        (h.1.cur < inp.length →
          (Escape.try_ inp h.1 = .backtracked h.1 ∧ Char.accepts inp h.1.cur ∧
            h.1.cur < (Char.engine inp h.1.cur).2) ∨
          (∃ s2 vals, Escape.try_ inp h.1 = .matched s2 vals ∧ h.1.cur < s2.cur))) →
      ∃ last : State × Sink,
        last ∈ _del_heads next finish Close Char Escape inp args b fuel st sink ∧
        reader_eof inp last.1 = true ∧
        ((∀ h ∈ _del_heads next finish Close Char Escape inp args b fuel st sink,
            ∀ s2 vals, Escape.try_ inp h.1 = .matched s2 vals → s2.errors = h.1.errors) →
          last.1.errors = st.errors) ∧
        ∀ (next1 : NextParser) (finish1 : Sink → Value) (sink1 : Sink),
          _del_loop next1 finish1 Close Char Escape inp args b fuel st sink1 =
            some (false, context_error last.1 (Error.missing_delimiter b last.1.cur)) := by
  intro fuel
  induction fuel with
  | zero => intro st _ h; omega
  | succ n ih =>
    intro st sink hf hP
    obtain ⟨hclose, hstep⟩ := hP (st, sink) (by simp [_del_heads])
    simp only at hclose hstep
    by_cases he : reader_eof inp st = true
    · refine ⟨(st, sink), by simp [_del_heads], he, fun _ => rfl, ?_⟩
      intro next1 finish1 sink1
      simp [_del_loop, _del_body_backtracked _ _ _ _ _ _ _ _ _ _ _ hclose, he]
    · have hlt : st.cur < inp.length := by simpa [reader_eof] using he
      rcases hstep hlt with ⟨hE, hacc, hadv⟩ | ⟨s2, vals, hE, hadv⟩
      · have hbody : ∀ (next1 : NextParser) (finish1 : Sink → Value) (sink1 : Sink),
            _del_body next1 finish1 Close Char Escape inp args b st sink1 =
              .again (context_token { st with cur := (Char.engine inp st.cur).2 } Char.kind
                st.cur (Char.engine inp st.cur).2)
                (sink1 ++ [[Value.lexeme st.cur (Char.engine inp st.cur).2]]) := by
          intro next1 finish1 sink1
          rw [_del_body_backtracked _ _ _ _ _ _ _ _ _ _ _ hclose]
          simp only [he, Bool.false_eq_true, if_false, hE]
          exact _del_char_accepts _ _ _ _ hacc
        have hheads := _del_heads_again next finish Close Char Escape inp args b n st _ sink _
          (hbody next finish sink)
        have hfuel : inp.length - (Char.engine inp st.cur).2 < n := by clear hstep hP; omega
        obtain ⟨last, hmem, heof, herr, hrun⟩ := ih
          (context_token { st with cur := (Char.engine inp st.cur).2 } Char.kind st.cur
            (Char.engine inp st.cur).2)
          (sink ++ [[Value.lexeme st.cur (Char.engine inp st.cur).2]]) hfuel
          (fun h hm => hP h (by rw [hheads]; exact List.mem_cons_of_mem _ hm))
        refine ⟨last, by rw [hheads]; exact List.mem_cons_of_mem _ hmem, heof, ?_, ?_⟩
        · intro hne
          exact herr (fun h hm => hne h (by rw [hheads]; exact List.mem_cons_of_mem _ hm))
        · intro next1 finish1 sink1
          simp only [_del_loop, hbody next1 finish1 sink1]
          exact hrun next1 finish1 _
      · have hbody : ∀ (next1 : NextParser) (finish1 : Sink → Value) (sink1 : Sink),
            _del_body next1 finish1 Close Char Escape inp args b st sink1 =
              .again s2 (if vals.isEmpty then sink1 else sink1 ++ [vals]) := by
          intro next1 finish1 sink1
          rw [_del_body_backtracked _ _ _ _ _ _ _ _ _ _ _ hclose]
          simp only [he, Bool.false_eq_true, if_false, hE]
        have hheads := _del_heads_again next finish Close Char Escape inp args b n st _ sink _
          (hbody next finish sink)
        have hfuel : inp.length - s2.cur < n := by clear hstep hP; omega
        obtain ⟨last, hmem, heof, herr, hrun⟩ := ih s2
          (if vals.isEmpty then sink else sink ++ [vals]) hfuel
          (fun h hm => hP h (by rw [hheads]; exact List.mem_cons_of_mem _ hm))
        refine ⟨last, by rw [hheads]; exact List.mem_cons_of_mem _ hmem, heof, ?_, ?_⟩
        · intro hne
          have h1 := herr (fun h hm => hne h (by rw [hheads]; exact List.mem_cons_of_mem _ hm))
          have h2 := hne (st, sink) (by simp [_del_heads]) s2 vals hE
          rw [h1, h2]
        · intro next1 finish1 sink1
          simp only [_del_loop, hbody next1 finish1 sink1]
          exact hrun next1 finish1 _


/-- C1, as amended (unterminated input). Take the loop heads the content loop passes from
the position after `Open`. If `Close` backtracks at every loop head, and at every loop
head before the end of input `Char` accepts with a match that consumes input, then the
escape-free content parser returns failure for every continuation and sink, with one
and the same final state (the continuation is never reached), in which exactly one
error was added, `missing_delimiter` from the position after `Open` to the reader
position at which the end of input was seen. With an escape, the same holds when at every
loop head before the end of input either `Escape` backtracks and `Char` accepts with a
match that consumes input, or `Escape` matches and consumes input: the final state is
that of the last loop head, which is at the end of input, plus the one error
`missing_delimiter`; and when no matching escape reported an error, that error is the
only one added since the loop was entered. -/
theorem delimited_unterminated_missing_delimiter (next : NextParser) (finish : Sink → Value)
    (Close : Branch) (Char : Token) (inp : List Code) (args : List Value) (st : State) :
    ((∀ h ∈ _del_void_heads next finish Close Char inp args st.cur (inp.length - st.cur + 1)
          st [],
        Close.try_ inp h.1 = .backtracked h.1 ∧
        (h.1.cur < inp.length →
          Char.accepts inp h.1.cur ∧ h.1.cur < (Char.engine inp h.1.cur).2)) →
      ∃ s : State,
        (∀ (fuel : Nat) (next1 : NextParser) (finish1 : Sink → Value),
          inp.length - st.cur < fuel →
          _del_void_parse fuel next1 finish1 Close Char inp st args = some (false, s)) ∧
        s.errors = st.errors ++ [Error.missing_delimiter st.cur s.cur] ∧
        reader_eof inp s = true) ∧
    (∀ Escape : Branch,
      (∀ h ∈ _del_heads next finish Close Char Escape inp args st.cur
          (inp.length - st.cur + 1) st [],
        Close.try_ inp h.1 = .backtracked h.1 ∧
        (h.1.cur < inp.length →
          (Escape.try_ inp h.1 = .backtracked h.1 ∧ Char.accepts inp h.1.cur ∧
            h.1.cur < (Char.engine inp h.1.cur).2) ∨
          (∃ s2 vals, Escape.try_ inp h.1 = .matched s2 vals ∧ h.1.cur < s2.cur))) →
      ∃ (s : State) (last : State × Sink),
        last ∈ _del_heads next finish Close Char Escape inp args st.cur
          (inp.length - st.cur + 1) st [] ∧
        reader_eof inp last.1 = true ∧
        s = context_error last.1 (Error.missing_delimiter st.cur last.1.cur) ∧
        (∀ (fuel : Nat) (next1 : NextParser) (finish1 : Sink → Value),
          inp.length - st.cur < fuel →
          _del_parse fuel next1 finish1 Close Char Escape inp st args = some (false, s)) ∧
        s.errors = last.1.errors ++ [Error.missing_delimiter st.cur s.cur] ∧
        reader_eof inp s = true ∧
        ((∀ h ∈ _del_heads next finish Close Char Escape inp args st.cur
              (inp.length - st.cur + 1) st [],
            ∀ s2 vals, Escape.try_ inp h.1 = .matched s2 vals → s2.errors = h.1.errors) →
          s.errors = st.errors ++ [Error.missing_delimiter st.cur s.cur])) := by
  constructor
  · intro hP
    obtain ⟨last, _, heof, herr, hrun⟩ := void_loop_unterminated next finish Close Char inp args
      st.cur (inp.length - st.cur + 1) st [] (by omega) hP
    refine ⟨context_error last.1 (Error.missing_delimiter st.cur last.1.cur), ?_, ?_, ?_⟩
    · intro fuel next1 finish1 hf
      exact _del_void_loop_mono next1 finish1 Close Char inp args st.cur _ _ fuel st []
        (by omega) (hrun next1 finish1 [])
    · simp only [context_error, herr]
    · simpa [reader_eof, context_error] using heof
  · intro Escape hP
    obtain ⟨last, hmem, heof, herr, hrun⟩ := loop_unterminated next finish Close Char Escape inp
      args st.cur (inp.length - st.cur + 1) st [] (by omega) hP
    refine ⟨context_error last.1 (Error.missing_delimiter st.cur last.1.cur), last, hmem, heof,
      rfl, ?_, rfl, ?_, ?_⟩
    · intro fuel next1 finish1 hf
      exact _del_loop_mono next1 finish1 Close Char Escape inp args st.cur _ _ fuel st []
        (by omega) (hrun next1 finish1 [])
    · simpa [reader_eof, context_error] using heof
    · intro hne
      simp only [context_error, herr hne]

/-- The loop heads of `quoted` on the unterminated quote, a, b meet the conditions of C1. -/
theorem quoted_heads_unterminated_ab :
    ∀ h ∈ _del_void_heads accept count_calls quoted.Close.toBranch not_quote [dquote, 'a', 'b']
        [] (⟨1, [], [⟨1, 0, 1⟩]⟩ : State).cur
        ([dquote, 'a', 'b'].length - (⟨1, [], [⟨1, 0, 1⟩]⟩ : State).cur + 1)
        ⟨1, [], [⟨1, 0, 1⟩]⟩ [],
      quoted.Close.toBranch.try_ [dquote, 'a', 'b'] h.1 = .backtracked h.1 ∧
      (h.1.cur < [dquote, 'a', 'b'].length →
        not_quote.accepts [dquote, 'a', 'b'] h.1.cur ∧
          h.1.cur < (not_quote.engine [dquote, 'a', 'b'] h.1.cur).2) := by
  have hh : _del_void_heads accept count_calls quoted.Close.toBranch not_quote
      [dquote, 'a', 'b'] [] (⟨1, [], [⟨1, 0, 1⟩]⟩ : State).cur
      ([dquote, 'a', 'b'].length - (⟨1, [], [⟨1, 0, 1⟩]⟩ : State).cur + 1)
      ⟨1, [], [⟨1, 0, 1⟩]⟩ [] =
      [(⟨1, [], [⟨1, 0, 1⟩]⟩, []),
        (⟨2, [], [⟨1, 0, 1⟩, ⟨2, 1, 2⟩]⟩, [[Value.lexeme 1 2]]),
        (⟨3, [], [⟨1, 0, 1⟩, ⟨2, 1, 2⟩, ⟨2, 2, 3⟩]⟩,
          [[Value.lexeme 1 2], [Value.lexeme 2 3]])] := by decide
  intro h hm
  rw [hh] at hm
  simp only [List.mem_cons, List.mem_singleton, List.not_mem_nil, or_false] at hm
  rcases hm with rfl | rfl | rfl
  · exact ⟨rfl, fun _ => ⟨fun _ => rfl, by decide⟩⟩
  · exact ⟨rfl, fun _ => ⟨fun _ => rfl, by decide⟩⟩
  · exact ⟨rfl, fun h => absurd h (by decide)⟩

/-- The loop heads of `quoted` with the escaped quote on the unterminated quote, a,
backslash, quote, b meet the conditions of C1: they are at 1, 2, 4 and 5, not at 3, the
escaped quote, where `Close` would match. -/
theorem quoted_heads_escaped_quote :
    ∀ h ∈ _del_heads accept count_calls quoted.Close.toBranch not_quote backslash_quote
        a_escaped_quote_b [] (⟨1, [], [⟨1, 0, 1⟩]⟩ : State).cur
        (a_escaped_quote_b.length - (⟨1, [], [⟨1, 0, 1⟩]⟩ : State).cur + 1)
        ⟨1, [], [⟨1, 0, 1⟩]⟩ [],
      quoted.Close.toBranch.try_ a_escaped_quote_b h.1 = .backtracked h.1 ∧
      (h.1.cur < a_escaped_quote_b.length →
        (backslash_quote.try_ a_escaped_quote_b h.1 = .backtracked h.1 ∧
          not_quote.accepts a_escaped_quote_b h.1.cur ∧
          h.1.cur < (not_quote.engine a_escaped_quote_b h.1.cur).2) ∨
        (∃ s2 vals, backslash_quote.try_ a_escaped_quote_b h.1 = .matched s2 vals ∧
          h.1.cur < s2.cur)) := by
  have hh : _del_heads accept count_calls quoted.Close.toBranch not_quote backslash_quote
      a_escaped_quote_b [] (⟨1, [], [⟨1, 0, 1⟩]⟩ : State).cur
      (a_escaped_quote_b.length - (⟨1, [], [⟨1, 0, 1⟩]⟩ : State).cur + 1)
      ⟨1, [], [⟨1, 0, 1⟩]⟩ [] =
      [(⟨1, [], [⟨1, 0, 1⟩]⟩, []),
        (⟨2, [], [⟨1, 0, 1⟩, ⟨2, 1, 2⟩]⟩, [[Value.lexeme 1 2]]),
        (⟨4, [], [⟨1, 0, 1⟩, ⟨2, 1, 2⟩, ⟨1, 2, 3⟩, ⟨1, 3, 4⟩]⟩,
          [[Value.lexeme 1 2], [Value.code dquote]]),
        (⟨5, [], [⟨1, 0, 1⟩, ⟨2, 1, 2⟩, ⟨1, 2, 3⟩, ⟨1, 3, 4⟩, ⟨2, 4, 5⟩]⟩,
          [[Value.lexeme 1 2], [Value.code dquote], [Value.lexeme 4 5]])] := by decide
  intro h hm
  rw [hh] at hm
  simp only [List.mem_cons, List.mem_singleton, List.not_mem_nil, or_false] at hm
  rcases hm with rfl | rfl | rfl | rfl
  · exact ⟨rfl, fun _ => Or.inl ⟨rfl, fun _ => rfl, by decide⟩⟩
  · exact ⟨rfl, fun _ => Or.inr ⟨_, _, rfl, by decide⟩⟩
  · exact ⟨rfl, fun _ => Or.inl ⟨rfl, fun _ => rfl, by decide⟩⟩
  · exact ⟨rfl, fun h => absurd h (by decide)⟩

/-- Witness of C1 as amended: `quoted` on the unterminated quote, a, b gives
`missing_delimiter` from 1 to 3; with the escaped quote as escape, the unterminated quote,
a, backslash, quote, b gives `missing_delimiter` from 1 to 5, though `Close` matches at
3, which is not a loop head; so does quote, a, backslash, n, b with the escape of the
scenarios. -/
theorem delimited_unterminated_witness :
    (∃ s : State,
      (∀ (fuel : Nat) (next1 : NextParser) (finish1 : Sink → Value),
        [dquote, 'a', 'b'].length - (⟨1, [], [⟨1, 0, 1⟩]⟩ : State).cur < fuel →
        _del_void_parse fuel next1 finish1 quoted.Close.toBranch not_quote [dquote, 'a', 'b']
          ⟨1, [], [⟨1, 0, 1⟩]⟩ [] = some (false, s)) ∧
      s.errors = (⟨1, [], [⟨1, 0, 1⟩]⟩ : State).errors ++
        [Error.missing_delimiter (⟨1, [], [⟨1, 0, 1⟩]⟩ : State).cur s.cur] ∧
      reader_eof [dquote, 'a', 'b'] s = true) ∧
    (∃ (s : State) (last : State × Sink),
      last ∈ _del_heads accept count_calls quoted.Close.toBranch not_quote backslash_quote
        a_escaped_quote_b [] (⟨1, [], [⟨1, 0, 1⟩]⟩ : State).cur
        (a_escaped_quote_b.length - (⟨1, [], [⟨1, 0, 1⟩]⟩ : State).cur + 1)
        ⟨1, [], [⟨1, 0, 1⟩]⟩ [] ∧
      reader_eof a_escaped_quote_b last.1 = true ∧
      s = context_error last.1
        (Error.missing_delimiter (⟨1, [], [⟨1, 0, 1⟩]⟩ : State).cur last.1.cur) ∧
      (∀ (fuel : Nat) (next1 : NextParser) (finish1 : Sink → Value),
        a_escaped_quote_b.length - (⟨1, [], [⟨1, 0, 1⟩]⟩ : State).cur < fuel →
        _del_parse fuel next1 finish1 quoted.Close.toBranch not_quote backslash_quote
          a_escaped_quote_b ⟨1, [], [⟨1, 0, 1⟩]⟩ [] = some (false, s)) ∧
      s.errors = last.1.errors ++
        [Error.missing_delimiter (⟨1, [], [⟨1, 0, 1⟩]⟩ : State).cur s.cur] ∧
      reader_eof a_escaped_quote_b s = true ∧
      ((∀ h ∈ _del_heads accept count_calls quoted.Close.toBranch not_quote backslash_quote
            a_escaped_quote_b [] (⟨1, [], [⟨1, 0, 1⟩]⟩ : State).cur
            (a_escaped_quote_b.length - (⟨1, [], [⟨1, 0, 1⟩]⟩ : State).cur + 1)
            ⟨1, [], [⟨1, 0, 1⟩]⟩ [],
          ∀ s2 vals, backslash_quote.try_ a_escaped_quote_b h.1 = .matched s2 vals →
            s2.errors = h.1.errors) →
        s.errors = (⟨1, [], [⟨1, 0, 1⟩]⟩ : State).errors ++
          [Error.missing_delimiter (⟨1, [], [⟨1, 0, 1⟩]⟩ : State).cur s.cur])) ∧
    quoted.parse not_quote 3 accept count_calls [dquote, 'a', 'b'] start [] =
      some (false, ⟨3, [Error.missing_delimiter 1 3], [⟨1, 0, 1⟩, ⟨2, 1, 2⟩, ⟨2, 2, 3⟩]⟩) ∧
    quoted.parse_escape not_quote backslash_quote 4 accept count_calls a_escaped_quote_b
        start [] =
      some (false, ⟨5, [Error.missing_delimiter 1 5],
        [⟨1, 0, 1⟩, ⟨2, 1, 2⟩, ⟨1, 2, 3⟩, ⟨1, 3, 4⟩, ⟨2, 4, 5⟩]⟩) ∧
    quoted.Close.try_ a_escaped_quote_b ⟨3, [], []⟩ = .matched ⟨4, [], [⟨1, 3, 4⟩]⟩ [] ∧
    quoted.parse_escape any_char backslash_n 4 accept count_calls a_escape_open start [] =
      some (false, ⟨5, [Error.missing_delimiter 1 5],
        [⟨1, 0, 1⟩, ⟨2, 1, 2⟩, ⟨1, 2, 3⟩, ⟨1, 3, 4⟩, ⟨2, 4, 5⟩]⟩) :=
  ⟨(delimited_unterminated_missing_delimiter accept count_calls quoted.Close.toBranch
      not_quote [dquote, 'a', 'b'] [] ⟨1, [], [⟨1, 0, 1⟩]⟩).1 quoted_heads_unterminated_ab,
    (delimited_unterminated_missing_delimiter accept count_calls quoted.Close.toBranch
      not_quote a_escaped_quote_b [] ⟨1, [], [⟨1, 0, 1⟩]⟩).2 backslash_quote
      quoted_heads_escaped_quote,
    by decide, by decide, by decide, by decide⟩

/-! ## Round trip -/

theorem tiles_nil_of_eq (T : Token) (inp : List Code) (p : Nat) :
    ∀ cuts : List Nat, T.tiles inp p cuts p → cuts = [] := by
  intro cuts h
  cases cuts with
  | nil => rfl
  | cons q rest =>
    obtain ⟨_, _, hpq, hrest⟩ := h
    have := tiles_le T inp p rest q hrest
    omega

/-- The whole `delimited` rule on an input whose content `Char` tiles up to a position
where `Close` matches. -/
theorem _delim_dsl_parse_success (d : _delim_dsl) (Char : Token) (inp : List Code)
    (cuts : List Nat) (e : Nat) (st s1 s2 : State) (ov cv args : List Value)
    (hopen : d.Open.parse inp st = .succeeded s1 ov) (he : e ≤ inp.length)
    (hclose : ∀ s : State, s.cur = s1.cur ∨ s.cur ∈ cuts → s.cur < e →
      d.Close.try_ inp s = .backtracked s)
    (htiles : Char.tiles inp s1.cur cuts e)
    (hend : d.Close.try_ inp ⟨e, s1.errors, s1.tokens ++ tokens_between Char.kind s1.cur cuts⟩ =
      .matched s2 cv)
    (fuel : Nat) (next : NextParser) (finish : Sink → Value) (hf : cuts.length < fuel) :
    d.parse Char fuel next finish inp st args =
      some (next s2 (args ++ ov ++ [finish (lexemes_between s1.cur cuts)] ++ cv)) := by
  have h := void_loop_success next finish d.Close.toBranch Char inp (args ++ ov)
    s1.cur e s1.errors s2 cv he cuts s1.cur s1.tokens [] htiles hclose hend
  simp only [_delim_dsl.parse, _delim_dsl.open_, hopen, _del_void_parse]
  simp only [List.nil_append] at h
  exact _del_void_loop_mono next finish d.Close.toBranch Char inp (args ++ ov)
    s1.cur _ _ fuel _ [] (by omega) h

/-- C2 (round trip). On the input `o ++ S ++ c`, where the opening rule consumes `o`,
`Close` backtracks at every position inside `S`, `Char` matches consume `S` piece by piece
(at the positions `cuts`) and `Close` matches right after `S`: the parse of
`delimited(open, close)(char)` reaches the continuation with `finish` applied to the sink;
the texts of the lexemes pushed to that sink, concatenated in push order, are exactly `S`;
and when `S` is empty nothing was pushed. -/
theorem delimited_round_trip (d : _delim_dsl) (Char : Token) (o S c : List Code)
    (cuts : List Nat) (st s1 s2 : State) (ov cv args : List Value)
    (hopen : d.Open.parse (o ++ S ++ c) st = .succeeded s1 ov) (hcur : s1.cur = o.length)
    (hclose : ∀ s : State, o.length ≤ s.cur → s.cur < o.length + S.length →
      d.Close.try_ (o ++ S ++ c) s = .backtracked s)
    (htiles : Char.tiles (o ++ S ++ c) o.length cuts (o.length + S.length))
    (hend : d.Close.try_ (o ++ S ++ c)
      ⟨o.length + S.length, s1.errors, s1.tokens ++ tokens_between Char.kind o.length cuts⟩ =
        .matched s2 cv) :
    (∀ (fuel : Nat) (next : NextParser) (finish : Sink → Value), cuts.length < fuel →
      d.parse Char fuel next finish (o ++ S ++ c) st args =
        some (next s2 (args ++ ov ++ [finish (lexemes_between o.length cuts)] ++ cv))) ∧
    sink_text (o ++ S ++ c) (lexemes_between o.length cuts) = S ∧
    (S = [] → lexemes_between o.length cuts = []) := by
  refine ⟨?_, ?_, ?_⟩
  · intro fuel next finish hf
    have h := _delim_dsl_parse_success d Char (o ++ S ++ c) cuts (o.length + S.length) st s1 s2
      ov cv args hopen (by simp)
      (fun s h1 h2 => hclose s (by
        rcases h1 with h1 | h1
        · omega
        · have := tiles_mem_lt Char _ _ cuts o.length htiles s.cur h1
          omega) h2)
      (by rw [hcur]; exact htiles)
      (by rw [hcur]; exact hend) fuel next finish hf
    rw [hcur] at h
    exact h
  · rw [sink_text_lexemes_between Char _ _ cuts o.length htiles]
    simp
  · intro hS
    subst hS
    have := tiles_nil_of_eq Char _ _ cuts (by simpa using htiles)
    subst this
    rfl

theorem quoted_close_backtracks_abc (s : State) (h1 : 1 ≤ s.cur) (h2 : s.cur < 4) :
    quoted.Close.try_ [dquote, 'a', 'b', 'c', dquote] s = .backtracked s := by
  obtain ⟨c, e, t⟩ := s
  match c, h1, h2 with
  | 1, _, _ => rfl
  | 2, _, _ => rfl
  | 3, _, _ => rfl

theorem not_quote_tiles_abc :
    not_quote.tiles [dquote, 'a', 'b', 'c', dquote] 1 [2, 3, 4] 4 := by
  simp only [Token.tiles, Token.accepts]
  decide

/-- Witness of C2: `quoted` on quote, a, b, c, quote; and on the empty body, where the
sink received no call. -/
theorem delimited_round_trip_witness :
    ((∀ (fuel : Nat) (next : NextParser) (finish : Sink → Value), [2, 3, 4].length < fuel →
      quoted.parse not_quote fuel next finish ([dquote] ++ ['a', 'b', 'c'] ++ [dquote]) start [] =
        some (next ⟨5, [], [⟨1, 0, 1⟩, ⟨2, 1, 2⟩, ⟨2, 2, 3⟩, ⟨2, 3, 4⟩, ⟨1, 4, 5⟩]⟩
          ([] ++ [] ++ [finish (lexemes_between [dquote].length [2, 3, 4])] ++ []))) ∧
      sink_text ([dquote] ++ ['a', 'b', 'c'] ++ [dquote])
        (lexemes_between [dquote].length [2, 3, 4]) = ['a', 'b', 'c'] ∧
      (['a', 'b', 'c'] = [] → lexemes_between [dquote].length [2, 3, 4] = [])) ∧
    lexemes_between [dquote].length [2, 3, 4] =
      [[Value.lexeme 1 2], [Value.lexeme 2 3], [Value.lexeme 3 4]] ∧
    quoted.parse not_quote 1 accept count_calls [dquote, dquote] start [] =
      some (true, ⟨2, [], [⟨1, 0, 1⟩, ⟨1, 1, 2⟩]⟩) :=
  ⟨delimited_round_trip quoted not_quote [dquote] ['a', 'b', 'c'] [dquote] [2, 3, 4] start
      ⟨1, [], [⟨1, 0, 1⟩]⟩ ⟨5, [], [⟨1, 0, 1⟩, ⟨2, 1, 2⟩, ⟨2, 2, 3⟩, ⟨2, 3, 4⟩, ⟨1, 4, 5⟩]⟩
      [] [] [] rfl rfl (fun s h1 h2 => quoted_close_backtracks_abc s h1 h2)
      not_quote_tiles_abc rfl,
    rfl, by decide⟩

/-! ## One lexeme per content match -/

theorem unit_cuts_length (n : Nat) : ∀ b : Nat, (unit_cuts b n).length = n := by
  induction n with
  | zero => intro b; rfl
  | succ n ih => intro b; simp [unit_cuts, ih]

theorem tiles_unit_cuts (T : Token) (inp : List Code) (n : Nat) :
    ∀ b : Nat, (∀ p, b ≤ p → p < b + n → T.accepts inp p ∧ (T.engine inp p).2 = p + 1) →
      T.tiles inp b (unit_cuts b n) (b + n) := by
  induction n with
  | zero => intro b _; simp [unit_cuts, Token.tiles]
  | succ n ih =>
    intro b h
    obtain ⟨hacc, he⟩ := h b (le_refl _) (by omega)
    refine ⟨hacc, he, by omega, ?_⟩
    have := ih (b + 1) (fun p h1 h2 => h p (by omega) (by omega))
    have hb : b + 1 + n = b + (n + 1) := by omega
    rw [hb] at this
    exact this

theorem lexemes_between_unit_cuts (n : Nat) : ∀ b : Nat,
    lexemes_between b (unit_cuts b n) =
      (List.range n).map (fun i => [Value.lexeme (b + i) (b + i + 1)]) := by
  induction n with
  | zero => intro b; rfl
  | succ n ih =>
    intro b
    simp only [unit_cuts, lexemes_between, ih, List.range_succ_eq_map, List.map_cons,
      List.map_map]
    simp only [Nat.add_zero, List.cons.injEq, true_and]
    apply List.map_congr_left
    intro i _
    simp only [Function.comp, Nat.succ_eq_add_one]
    have h1 : b + 1 + i = b + (i + 1) := by omega
    rw [h1]

theorem tokens_between_unit_cuts (k n : Nat) : ∀ b : Nat,
    tokens_between k b (unit_cuts b n) =
      (List.range n).map (fun i => (⟨k, b + i, b + i + 1⟩ : TokenEvent)) := by
  induction n with
  | zero => intro b; rfl
  | succ n ih =>
    intro b
    simp only [unit_cuts, tokens_between, ih, List.range_succ_eq_map, List.map_cons,
      List.map_map]
    simp only [Nat.add_zero, List.cons.injEq, true_and]
    apply List.map_congr_left
    intro i _
    simp only [Function.comp, Nat.succ_eq_add_one]
    have h1 : b + 1 + i = b + (i + 1) := by omega
    rw [h1]

/-- C3, as amended: the sink receives one lexeme per match of `Char`. When `Char` matches
one unit at a time at each of the `n` positions from `b` on, `Close` backtracks at these
positions and matches at `b + n`, the continuation is reached with `finish` applied to a
sink of exactly `n` calls, the `i`-th being the one-unit lexeme from `b + i` to `b + i + 1`. -/
theorem one_lexeme_per_char_match (Close : Branch) (Char : Token) (inp : List Code)
    (args : List Value) (b n : Nat) (errs : List Error) (toks : List TokenEvent) (s2 : State)
    (cv : List Value) (hn : b + n ≤ inp.length)
    (hchar : ∀ p, b ≤ p → p < b + n → Char.accepts inp p ∧ (Char.engine inp p).2 = p + 1)
    (hclose : ∀ s : State, b ≤ s.cur → s.cur < b + n → Close.try_ inp s = .backtracked s)
    (hend : Close.try_ inp ⟨b + n, errs,
      toks ++ (List.range n).map (fun i => (⟨Char.kind, b + i, b + i + 1⟩ : TokenEvent))⟩ =
        .matched s2 cv) :
    (∀ (fuel : Nat) (next : NextParser) (finish : Sink → Value), n < fuel →
      _del_void_parse fuel next finish Close Char inp ⟨b, errs, toks⟩ args =
        some (next s2 (args ++
          [finish ((List.range n).map (fun i => [Value.lexeme (b + i) (b + i + 1)]))] ++ cv))) ∧
    ((List.range n).map (fun i => [Value.lexeme (b + i) (b + i + 1)])).length = n := by
  refine ⟨?_, by simp⟩
  intro fuel next finish hf
  have h := void_loop_success next finish Close Char inp args b (b + n) errs s2 cv hn
    (unit_cuts b n) b toks [] (tiles_unit_cuts Char inp n b hchar)
    (fun s h1 h2 => hclose s (by
      rcases h1 with h1 | h1
      · omega
      · have := tiles_mem_lt Char inp _ _ b (tiles_unit_cuts Char inp n b hchar) s.cur h1
        omega) h2)
    (by rw [tokens_between_unit_cuts]; exact hend)
  rw [lexemes_between_unit_cuts, unit_cuts_length] at h
  simp only [List.nil_append] at h
  exact _del_void_loop_mono next finish Close Char inp args b _ _ fuel _ [] (by omega) h

theorem not_quote_unit_abc (p : Nat) (h1 : 1 ≤ p) (h2 : p < 1 + 3) :
    not_quote.accepts [dquote, 'a', 'b', 'c', dquote] p ∧
      (not_quote.engine [dquote, 'a', 'b', 'c', dquote] p).2 = p + 1 := by
  match p, h1, h2 with
  | 1, _, _ => exact ⟨fun _ => rfl, rfl⟩
  | 2, _, _ => exact ⟨fun _ => rfl, rfl⟩
  | 3, _, _ => exact ⟨fun _ => rfl, rfl⟩

/-- Witness of C3 as amended: `quoted` on quote, a, b, c, quote succeeds with the reader at
the end of input, and the sink received the three lexemes a, b and c. -/
theorem one_lexeme_per_char_match_witness :
    ((∀ (fuel : Nat) (next : NextParser) (finish : Sink → Value), 3 < fuel →
      _del_void_parse fuel next finish quoted.Close.toBranch not_quote
          [dquote, 'a', 'b', 'c', dquote] ⟨1, [], [⟨1, 0, 1⟩]⟩ [] =
        some (next ⟨5, [], [⟨1, 0, 1⟩, ⟨2, 1, 2⟩, ⟨2, 2, 3⟩, ⟨2, 3, 4⟩, ⟨1, 4, 5⟩]⟩
          ([] ++ [finish ((List.range 3).map (fun i => [Value.lexeme (1 + i) (1 + i + 1)]))]
            ++ []))) ∧
      ((List.range 3).map (fun i => [Value.lexeme (1 + i) (1 + i + 1)])).length = 3) ∧
    (List.range 3).map (fun i => [Value.lexeme (1 + i) (1 + i + 1)]) =
      [[Value.lexeme 1 2], [Value.lexeme 2 3], [Value.lexeme 3 4]] ∧
    quoted.parse not_quote 4 accept count_calls [dquote, 'a', 'b', 'c', dquote] start [] =
      some (true, ⟨5, [], [⟨1, 0, 1⟩, ⟨2, 1, 2⟩, ⟨2, 2, 3⟩, ⟨2, 3, 4⟩, ⟨1, 4, 5⟩]⟩) :=
  ⟨one_lexeme_per_char_match quoted.Close.toBranch not_quote [dquote, 'a', 'b', 'c', dquote] []
      1 3 [] [⟨1, 0, 1⟩] ⟨5, [], [⟨1, 0, 1⟩, ⟨2, 1, 2⟩, ⟨2, 2, 3⟩, ⟨2, 3, 4⟩, ⟨1, 4, 5⟩]⟩ []
      (by decide) (fun p h1 h2 => not_quote_unit_abc p h1 h2)
      (fun s h1 h2 => quoted_close_backtracks_abc s h1 (by omega)) rfl,
    rfl, by decide⟩

/-- Counterexample to C3 as stated: on quote, a, b, c, quote with `quoted` and a content
token matching one character other than the quote, the sink handed to `finish` holds
three lexemes, one per character, and not the single lexeme from 1 to 4. -/
theorem one_lexeme_per_run_counterexample :
    (∀ (next : NextParser) (finish : Sink → Value),
      quoted.parse not_quote 4 next finish [dquote, 'a', 'b', 'c', dquote] start [] =
        some (next ⟨5, [], [⟨1, 0, 1⟩, ⟨2, 1, 2⟩, ⟨2, 2, 3⟩, ⟨2, 3, 4⟩, ⟨1, 4, 5⟩]⟩
          [finish [[Value.lexeme 1 2], [Value.lexeme 2 3], [Value.lexeme 3 4]]])) ∧
    ¬ (∀ (next : NextParser) (finish : Sink → Value),
      quoted.parse not_quote 4 next finish [dquote, 'a', 'b', 'c', dquote] start [] =
        some (next ⟨5, [], [⟨1, 0, 1⟩, ⟨2, 1, 2⟩, ⟨2, 2, 3⟩, ⟨2, 3, 4⟩, ⟨1, 4, 5⟩]⟩
          [finish [[Value.lexeme 1 4]]])) := by
  constructor
  · intro next finish
    exact _delim_dsl_parse_success quoted not_quote [dquote, 'a', 'b', 'c', dquote] [2, 3, 4] 4
      start ⟨1, [], [⟨1, 0, 1⟩]⟩ _ [] [] [] rfl (by decide)
      (fun s h1 h2 => quoted_close_backtracks_abc s (by
        rcases h1 with h1 | h1
        · exact h1 ▸ le_refl _
        · have := tiles_mem_lt not_quote _ _ _ _ not_quote_tiles_abc s.cur h1
          omega) h2) not_quote_tiles_abc rfl 4 next finish
      (by decide)
  · intro h
    have h1 := h (fun st args => (decide (args = [Value.num 1]), st)) count_calls
    revert h1
    decide

/-! ## Successful runs, read backwards -/

/-- What the content branch can do: fail with one token error, or go round again with the
token observed and one lexeme pushed. -/
theorem _del_char_cases (Char : Token) (inp : List Code) (st : State) (sink : Sink) :
    (¬ Char.accepts inp st.cur ∧
      _del_char Char inp st sink = .done (false,
        context_error { st with cur := (Char.engine inp st.cur).2 }
          (Char.token_error (Char.engine inp st.cur).2 (Char.engine inp st.cur).1 st.cur))) ∨
    (Char.accepts inp st.cur ∧
      _del_char Char inp st sink =
        .again (context_token { st with cur := (Char.engine inp st.cur).2 } Char.kind st.cur
          (Char.engine inp st.cur).2)
          (sink ++ [[Value.lexeme st.cur (Char.engine inp st.cur).2]])) := by
  by_cases h : Char.accepts inp st.cur
  · exact Or.inr ⟨h, _del_char_accepts Char inp st sink h⟩
  · refine Or.inl ⟨h, ?_⟩
    simp only [Token.accepts, Classical.not_imp] at h
    simp [_del_char, h.1, h.2]

/-- When the body of the escape-free loop goes round again, `Close` backtracked, the
reader was not at the end of input, and `Char` matched. -/
theorem _del_void_body_again (next : NextParser) (finish : Sink → Value) (Close : Branch)
    (Char : Token) (inp : List Code) (args : List Value) (b : Nat) (st st1 : State)
    (sink sink1 : Sink)
    (h : _del_void_body next finish Close Char inp args b st sink = .again st1 sink1) :
    ∃ s : State, Close.try_ inp st = .backtracked s ∧ reader_eof inp s = false ∧
      Char.accepts inp s.cur ∧
      st1 = context_token { s with cur := (Char.engine inp s.cur).2 } Char.kind s.cur
        (Char.engine inp s.cur).2 ∧
      sink1 = sink ++ [[Value.lexeme s.cur (Char.engine inp s.cur).2]] := by
  cases hC : Close.try_ inp st with
  | matched s cv => rw [_del_void_body_matched _ _ _ _ _ _ _ _ _ _ _ hC] at h; cases h
  | canceled s => rw [_del_void_body_canceled _ _ _ _ _ _ _ _ _ _ hC] at h; cases h
  | backtracked s =>
    rw [_del_void_body_backtracked _ _ _ _ _ _ _ _ _ _ hC] at h
    by_cases he : reader_eof inp s = true
    · simp [he] at h
    · simp only [he, Bool.false_eq_true, if_false] at h
      rcases _del_char_cases Char inp s sink with ⟨_, hd⟩ | ⟨hacc, ha⟩
      · rw [hd] at h; cases h
      · rw [ha] at h
        injection h with h1 h2
        exact ⟨s, rfl, by simpa using he, hacc, h1.symm, h2.symm⟩

/-- A successful run of the escape-free loop, read backwards: the loop heads are a list of
heads at which `Close` backtracked and `Char` matched, followed by one head at which
`Close` matched; the sink then holds one lexeme per earlier head, in order. -/
theorem void_loop_success_inv (next : NextParser) (finish : Sink → Value) (Close : Branch)
    (Char : Token) (inp : List Code) (args : List Value) (b : Nat) (s' : State) :
    ∀ (fuel : Nat) (st : State) (sink : Sink),
      _del_void_loop next finish Close Char inp args b fuel st sink = some (true, s') →
      ∃ (pre : List (State × Sink)) (last : State × Sink) (s2 : State) (cv : List Value),
        _del_void_heads next finish Close Char inp args b fuel st sink = pre ++ [last] ∧
        Close.try_ inp last.1 = .matched s2 cv ∧
        next s2 (args ++ [finish last.2] ++ cv) = (true, s') ∧
        (∀ h ∈ pre, ∃ s : State, Close.try_ inp h.1 = .backtracked s ∧
          reader_eof inp s = false ∧ Char.accepts inp s.cur) ∧
        last.2 = sink ++ pre.map (fun h => head_lexeme Close Char inp h.1) := by
  intro fuel
  induction fuel with
  | zero => intro st sink h; simp [_del_void_loop] at h
  | succ n ih =>
    intro st sink h
    simp only [_del_void_loop] at h
    cases hb : _del_void_body next finish Close Char inp args b st sink with
    | done r =>
      rw [hb] at h
      simp only [Option.some.injEq] at h
      subst h
      cases hC : Close.try_ inp st with
      | matched s cv =>
        rw [_del_void_body_matched _ _ _ _ _ _ _ _ _ _ _ hC] at hb
        injection hb with hb
        exact ⟨[], (st, sink), s, cv, by simp [_del_void_heads, _del_void_body_matched _ _ _ _ _ _ _ _ _ _ _ hC], hC, hb, by simp, by simp⟩
      | canceled s =>
        rw [_del_void_body_canceled _ _ _ _ _ _ _ _ _ _ hC] at hb
        injection hb with hb
        simp at hb
      | backtracked s =>
        rw [_del_void_body_backtracked _ _ _ _ _ _ _ _ _ _ hC] at hb
        by_cases he : reader_eof inp s = true
        · simp [he] at hb
        · simp only [he, Bool.false_eq_true, if_false] at hb
          rcases _del_char_cases Char inp s sink with ⟨_, hd⟩ | ⟨_, ha⟩
          · rw [hd] at hb; injection hb with hb; simp at hb
          · rw [ha] at hb; cases hb
    | again st1 sink1 =>
      rw [hb] at h
      obtain ⟨pre, last, s2, cv, hh, hm, hn, hpre, hsink⟩ := ih st1 sink1 h
      obtain ⟨s, hC, he, hacc, hst1, hsink1⟩ := _del_void_body_again _ _ _ _ _ _ _ _ _ _ _ hb
      refine ⟨(st, sink) :: pre, last, s2, cv, ?_, hm, hn, ?_, ?_⟩
      · simp [_del_void_heads, hb, hh]
      · intro h hmem
        rcases List.mem_cons.mp hmem with rfl | hmem
        · exact ⟨s, hC, he, hacc⟩
        · exact hpre h hmem
      · rw [hsink, hsink1]
        simp [head_lexeme, after_close, hC]

/-- When the reader never moves backwards, every call the sink has received at a loop head
is either one it held at the start or a lexeme that lies between the reader position at
the start and the reader position of that head. -/
theorem void_heads_lexemes_before (next : NextParser) (finish : Sink → Value) (Close : Branch)
    (Char : Token) (inp : List Code) (args : List Value) (b : Nat)
    (hC : ∀ s s1 : State, Close.try_ inp s = .backtracked s1 → s.cur ≤ s1.cur)
    (hE : ∀ p : Nat, p ≤ (Char.engine inp p).2) :
    ∀ (fuel : Nat) (st : State) (sink : Sink) (pre : List (State × Sink))
      (last : State × Sink),
      _del_void_heads next finish Close Char inp args b fuel st sink = pre ++ [last] →
      st.cur ≤ last.1.cur ∧
      ∀ call ∈ last.2, call ∈ sink ∨
        ∃ p e : Nat, call = [Value.lexeme p e] ∧ st.cur ≤ p ∧ p ≤ e ∧ e ≤ last.1.cur := by
  intro fuel
  induction fuel with
  | zero => intro st sink pre last h; simp [_del_void_heads] at h
  | succ n ih =>
    intro st sink pre last h
    simp only [_del_void_heads] at h
    cases pre with
    | nil =>
      simp only [List.nil_append, List.cons.injEq] at h
      obtain ⟨h1, _⟩ := h
      subst h1
      exact ⟨le_refl _, fun call hc => Or.inl hc⟩
    | cons h0 pre1 =>
      simp only [List.cons_append, List.cons.injEq] at h
      obtain ⟨_, h2⟩ := h
      cases hb : _del_void_body next finish Close Char inp args b st sink with
      | done r => rw [hb] at h2; simp at h2
      | again st1 sink1 =>
        rw [hb] at h2
        obtain ⟨s, hCs, _, _, hst1, hsink1⟩ := _del_void_body_again _ _ _ _ _ _ _ _ _ _ _ hb
        obtain ⟨hle, hcalls⟩ := ih st1 sink1 pre1 last h2
        have h1 : st.cur ≤ s.cur := hC st s hCs
        have h3 : s.cur ≤ (Char.engine inp s.cur).2 := hE s.cur
        have h4 : st1.cur = (Char.engine inp s.cur).2 := by rw [hst1]; rfl
        refine ⟨by omega, ?_⟩
        intro call hc
        rcases hcalls call hc with hin | ⟨p, e, hpe, hp1, hp2, hp3⟩
        · rw [hsink1] at hin
          rcases List.mem_append.mp hin with hin | hin
          · exact Or.inl hin
          · simp only [List.mem_singleton] at hin
            exact Or.inr ⟨s.cur, (Char.engine inp s.cur).2, hin, h1, h3, by omega⟩
        · exact Or.inr ⟨p, e, hpe, by omega, hp2, hp3⟩

/-! ## The closing delimiter is tried first -/

/-- C4, as amended: `Close` is tried first at every loop head. In every successful parse of
`delimited(open, close)(char)` the loop heads are a list `pre` at each of which `Close`
backtracked, followed by exactly one head at which `Close` matched, and there the
continuation ran; the sink holds one lexeme per head of `pre`, each beginning at the
position where `Close` had just been tried and had declined. When the reader never moves
backwards, every lexeme ends at or before the position where the successful `Close` match
begins, so the delimiter that `Close` consumes is in no content lexeme. -/
theorem close_tried_first_not_swallowed (d : _delim_dsl) (Char : Token) (fuel : Nat)
    (next : NextParser) (finish : Sink → Value) (inp : List Code) (st s' : State)
    (args : List Value)
    (hsucc : d.parse Char fuel next finish inp st args = some (true, s')) :
    ∃ (s1 : State) (ov : List Value) (pre : List (State × Sink)) (last : State × Sink)
      (s2 : State) (cv : List Value),
      d.Open.parse inp st = .succeeded s1 ov ∧
      _del_void_heads next finish d.Close.toBranch Char inp (args ++ ov) s1.cur fuel s1 [] =
        pre ++ [last] ∧
      d.Close.try_ inp last.1 = .matched s2 cv ∧
      next s2 (args ++ ov ++ [finish last.2] ++ cv) = (true, s') ∧
      (∀ h ∈ pre, ∃ s : State, d.Close.try_ inp h.1 = .backtracked s) ∧
      last.2 = pre.map (fun h => head_lexeme d.Close.toBranch Char inp h.1) ∧
      ((∀ s t : State, d.Close.try_ inp s = .backtracked t → s.cur ≤ t.cur) →
        (∀ p : Nat, p ≤ (Char.engine inp p).2) →
        ∀ call ∈ last.2, ∃ p e : Nat,
          call = [Value.lexeme p e] ∧ s1.cur ≤ p ∧ p ≤ e ∧ e ≤ last.1.cur) := by
  simp only [_delim_dsl.parse, _delim_dsl.open_] at hsucc
  cases hO : d.Open.parse inp st with
  | failed s => rw [hO] at hsucc; simp at hsucc
  | succeeded s1 ov =>
    rw [hO] at hsucc
    simp only [_del_void_parse] at hsucc
    obtain ⟨pre, last, s2, cv, hh, hm, hn, hpre, hsink⟩ :=
      void_loop_success_inv next finish d.Close.toBranch Char inp (args ++ ov) s1.cur s' fuel s1
        [] hsucc
    refine ⟨s1, ov, pre, last, s2, cv, rfl, hh, hm, hn, ?_, by simpa using hsink, ?_⟩
    · intro h hmem
      obtain ⟨s, hs, _⟩ := hpre h hmem
      exact ⟨s, hs⟩
    · intro hC hE call hc
      obtain ⟨_, hcalls⟩ := void_heads_lexemes_before next finish d.Close.toBranch Char inp
        (args ++ ov) s1.cur hC hE fuel s1 [] pre last hh
      rcases hcalls call hc with hin | hex
      · simp at hin
      · exact hex

/-- Witness of C4 as amended: the successful parse of quote, a, b, c, quote with `quoted`. -/
theorem close_tried_first_witness :
    ∃ (s1 : State) (ov : List Value) (pre : List (State × Sink)) (last : State × Sink)
      (s2 : State) (cv : List Value),
      quoted.Open.parse [dquote, 'a', 'b', 'c', dquote] start = .succeeded s1 ov ∧
      _del_void_heads accept count_calls quoted.Close.toBranch not_quote
        [dquote, 'a', 'b', 'c', dquote] ([] ++ ov) s1.cur 4 s1 [] = pre ++ [last] ∧
      quoted.Close.try_ [dquote, 'a', 'b', 'c', dquote] last.1 = .matched s2 cv ∧
      accept s2 ([] ++ ov ++ [count_calls last.2] ++ cv) =
        (true, ⟨5, [], [⟨1, 0, 1⟩, ⟨2, 1, 2⟩, ⟨2, 2, 3⟩, ⟨2, 3, 4⟩, ⟨1, 4, 5⟩]⟩) ∧
      (∀ h ∈ pre, ∃ s : State,
        quoted.Close.try_ [dquote, 'a', 'b', 'c', dquote] h.1 = .backtracked s) ∧
      last.2 = pre.map (fun h =>
        head_lexeme quoted.Close.toBranch not_quote [dquote, 'a', 'b', 'c', dquote] h.1) ∧
      ((∀ s t : State, quoted.Close.try_ [dquote, 'a', 'b', 'c', dquote] s = .backtracked t →
          s.cur ≤ t.cur) →
        (∀ p : Nat, p ≤ (not_quote.engine [dquote, 'a', 'b', 'c', dquote] p).2) →
        ∀ call ∈ last.2, ∃ p e : Nat,
          call = [Value.lexeme p e] ∧ s1.cur ≤ p ∧ p ≤ e ∧ e ≤ last.1.cur) :=
  close_tried_first_not_swallowed quoted not_quote 4 accept count_calls
    [dquote, 'a', 'b', 'c', dquote] start
    ⟨5, [], [⟨1, 0, 1⟩, ⟨2, 1, 2⟩, ⟨2, 2, 3⟩, ⟨2, 3, 4⟩, ⟨1, 4, 5⟩]⟩ [] (by decide)

theorem quoted_close_backtracks_1 (s : State) (h : s.cur = 1) :
    quoted.Close.try_ [dquote, 'a', dquote, dquote] s = .backtracked s := by
  obtain ⟨c, e, t⟩ := s
  simp only at h
  subst h
  rfl

/-- Counterexample to C4 as stated: with the two-unit content token a, quote, the input
quote, a, quote, quote parses successfully with `quoted`, the sink holds the lexeme from 1
to 3, and position 2, inside that lexeme, is a position at which `Close` matches. -/
theorem close_swallowed_counterexample :
    (∀ (next : NextParser) (finish : Sink → Value),
      quoted.parse a_quote 2 next finish [dquote, 'a', dquote, dquote] start [] =
        some (next ⟨4, [], [⟨1, 0, 1⟩, ⟨1, 1, 3⟩, ⟨1, 3, 4⟩]⟩ [finish [[Value.lexeme 1 3]]])) ∧
    quoted.parse a_quote 2 accept count_calls [dquote, 'a', dquote, dquote] start [] =
      some (true, ⟨4, [], [⟨1, 0, 1⟩, ⟨1, 1, 3⟩, ⟨1, 3, 4⟩]⟩) ∧
    quoted.Close.try_ [dquote, 'a', dquote, dquote] ⟨2, [], [⟨1, 0, 1⟩]⟩ =
      .matched ⟨3, [], [⟨1, 0, 1⟩, ⟨1, 2, 3⟩]⟩ [] ∧
    (1 ≤ 2 ∧ 2 < 3) := by
  refine ⟨?_, by decide, by decide, by decide⟩
  intro next finish
  exact _delim_dsl_parse_success quoted a_quote [dquote, 'a', dquote, dquote] [3] 3
    start ⟨1, [], [⟨1, 0, 1⟩]⟩ _ [] [] [] rfl (by decide)
    (fun s h1 h2 => quoted_close_backtracks_1 s (by
      rcases h1 with h1 | h1
      · exact h1
      · simp at h1; omega))
    (by simp only [Token.tiles, Token.accepts]; decide) rfl 2 next finish (by decide)

/-! ## Result delivery on close -/

/-- C5 (result delivery on close), for both loops, at any loop head with any fuel left.
When trying `Close` gives `ok`, `Close` matched with some values `cv`, the continuation
returned `true` on the caller's arguments followed by `finish sink` followed by `cv`, and
the parse returns success with the state the continuation left. When it gives `canceled`
the parse returns failure. When it gives `backtracked` the body is the end-of-input guard
followed by the rest of the body. The attempt leaves the sink as it was. -/
theorem close_result_delivery (next : NextParser) (finish : Sink → Value) (Close : Branch)
    (Char : Token) (Escape : Branch) (inp : List Code) (args : List Value) (del_begin : Nat)
    (fuel : Nat) (st : State) (sink : Sink) :
    (∀ s1 : State,
      try_parse Close (_list_finish next finish args) inp st sink = (.ok, s1, sink) →
      (∃ (s : State) (cv : List Value), Close.try_ inp st = .matched s cv ∧
        next s (args ++ [finish sink] ++ cv) = (true, s1)) ∧
      _del_void_loop next finish Close Char inp args del_begin (fuel + 1) st sink =
        some (true, s1) ∧
      _del_loop next finish Close Char Escape inp args del_begin (fuel + 1) st sink =
        some (true, s1)) ∧
    (∀ s1 : State,
      try_parse Close (_list_finish next finish args) inp st sink = (.canceled, s1, sink) →
      _del_void_loop next finish Close Char inp args del_begin (fuel + 1) st sink =
        some (false, s1) ∧
      _del_loop next finish Close Char Escape inp args del_begin (fuel + 1) st sink =
        some (false, s1)) ∧
    (∀ s1 : State,
      try_parse Close (_list_finish next finish args) inp st sink = (.backtracked, s1, sink) →
      _del_void_body next finish Close Char inp args del_begin st sink =
        (if reader_eof inp s1 then
          .done (false, context_error s1 (.missing_delimiter del_begin s1.cur))
        else _del_char Char inp s1 sink) ∧
      _del_body next finish Close Char Escape inp args del_begin st sink =
        (if reader_eof inp s1 then
          .done (false, context_error s1 (.missing_delimiter del_begin s1.cur))
        else
          match Escape.try_ inp s1 with
          | .backtracked s2 => _del_char Char inp s2 sink
          | .canceled s2 => .done (false, s2)
          | .matched s2 vals => .again s2 (if vals.isEmpty then sink else sink ++ [vals]))) ∧
    (try_parse Close (_list_finish next finish args) inp st sink).2.2 = sink := by
  refine ⟨?_, ?_, ?_, ?_⟩
  · intro s1 h
    cases hC : Close.try_ inp st with
    | backtracked s => simp [try_parse, hC] at h
    | canceled s => simp [try_parse, hC] at h
    | matched s cv =>
      simp only [try_parse, hC, _list_finish, Prod.mk.injEq, and_true] at h
      obtain ⟨h1, h2⟩ := h
      have hb : (next s (args ++ [finish sink] ++ cv)).1 = true := by
        cases hn : (next s (args ++ [finish sink] ++ cv)).1
        · rw [hn] at h1; simp [rule_try_parse_result.of_bool] at h1
        · rfl
      have hn : next s (args ++ [finish sink] ++ cv) = (true, s1) := by
        rw [← hb, ← h2]
      refine ⟨⟨s, cv, rfl, hn⟩, ?_, ?_⟩
      · simp only [_del_void_loop, _del_void_body_matched _ _ _ _ _ _ _ _ _ _ _ hC, hn]
      · simp only [_del_loop, _del_body_matched _ _ _ _ _ _ _ _ _ _ _ _ hC, hn]
  · intro s1 h
    cases hC : Close.try_ inp st with
    | backtracked s => simp [try_parse, hC] at h
    | canceled s =>
      simp only [try_parse, hC, Prod.mk.injEq, and_true, true_and] at h
      subst h
      constructor
      · simp [_del_void_loop, _del_void_body_canceled _ _ _ _ _ _ _ _ _ _ hC]
      · simp [_del_loop, _del_body_canceled _ _ _ _ _ _ _ _ _ _ _ hC]
    | matched s cv =>
      simp only [try_parse, hC, _list_finish, Prod.mk.injEq, and_true] at h
      obtain ⟨h1, h2⟩ := h
      have hb : (next s (args ++ [finish sink] ++ cv)).1 = false := by
        cases hn : (next s (args ++ [finish sink] ++ cv)).1
        · rfl
        · rw [hn] at h1; simp [rule_try_parse_result.of_bool] at h1
      have hn : next s (args ++ [finish sink] ++ cv) = (false, s1) := by
        rw [← hb, ← h2]
      constructor
      · simp only [_del_void_loop, _del_void_body_matched _ _ _ _ _ _ _ _ _ _ _ hC, hn]
      · simp only [_del_loop, _del_body_matched _ _ _ _ _ _ _ _ _ _ _ _ hC, hn]
  · intro s1 h
    cases hC : Close.try_ inp st with
    | backtracked s =>
      simp only [try_parse, hC, Prod.mk.injEq, and_true, true_and] at h
      subst h
      exact ⟨_del_void_body_backtracked _ _ _ _ _ _ _ _ _ _ hC,
        _del_body_backtracked _ _ _ _ _ _ _ _ _ _ _ hC⟩
    | canceled s => simp [try_parse, hC] at h
    | matched s cv =>
      simp only [try_parse, hC, _list_finish, Prod.mk.injEq] at h
      exact absurd h.1 (of_bool_ne_backtracked _)
  · cases hC : Close.try_ inp st <;> simp [try_parse, hC, _list_finish]

/-! ## Runs of the loop with escapes -/

/-- When the body of the loop with escapes goes round again, it made one step. -/
theorem _del_body_again (next : NextParser) (finish : Sink → Value) (Close : Branch)
    (Char : Token) (Escape : Branch) (inp : List Code) (args : List Value) (b : Nat)
    (st st1 : State) (sink sink1 : Sink)
    (h : _del_body next finish Close Char Escape inp args b st sink = .again st1 sink1) :
    del_step Close Char Escape inp (st, sink) (st1, sink1) := by
  cases hC : Close.try_ inp st with
  | matched s cv => rw [_del_body_matched _ _ _ _ _ _ _ _ _ _ _ _ hC] at h; cases h
  | canceled s => rw [_del_body_canceled _ _ _ _ _ _ _ _ _ _ _ hC] at h; cases h
  | backtracked s =>
    rw [_del_body_backtracked _ _ _ _ _ _ _ _ _ _ _ hC] at h
    by_cases he : reader_eof inp s = true
    · simp [he] at h
    · simp only [he, Bool.false_eq_true, if_false] at h
      refine ⟨s, hC, by simpa using he, ?_⟩
      cases hE : Escape.try_ inp s with
      | matched s2 vals =>
        rw [hE] at h
        simp only at h
        injection h with h1 h2
        subst h1
        exact Or.inl ⟨vals, rfl, by rw [← h2]; split <;> simp⟩
      | canceled s2 => rw [hE] at h; cases h
      | backtracked s3 =>
        rw [hE] at h
        simp only at h
        rcases _del_char_cases Char inp s3 sink with ⟨_, hd⟩ | ⟨hacc, ha⟩
        · rw [hd] at h; cases h
        · rw [ha] at h
          injection h with h1 h2
          exact Or.inr ⟨s3, rfl, hacc, h1.symm, h2.symm⟩

/-- When every alternative of a prefix declines and leaves the state alone, the choice goes
on with the remaining alternatives. -/
theorem _chc_try_skip (inp : List Code) (st : State) (rest : List Branch) :
    ∀ bs : List Branch, (∀ b ∈ bs, b.try_ inp st = .backtracked st) →
      _chc_try (bs ++ rest) inp st = _chc_try rest inp st := by
  intro bs
  induction bs with
  | nil => intro _; rfl
  | cons b bs ih =>
    intro h
    have hb := h b (List.mem_cons_self _ _)
    simp only [List.cons_append, _chc_try, hb]
    exact ih (fun b1 h1 => h b1 (List.mem_cons_of_mem _ h1))

/-- C7 (invalid escape). For an escape with at least one added case, at a state where the
escape token matches up to `pos` and every added case declines there, trying the escape
rule gives `canceled` (not `backtracked`), and exactly one error was added,
`invalid_escape_sequence`. Inside `delimited`, at a loop head where `Close` backtracked
before the end of input, the loop then returns failure with that state, whatever the
continuation, the sink and the content token are: the continuation is not reached and
`Char` is not tried on the escape marker. -/
theorem invalid_escape_cancels (e : _escape) (inp : List Code) (st : State) (pos : Nat)
    (hne : e.Branches.length ≠ 0)
    (htok : engine_try_match e.Escape.engine inp st.cur = some pos)
    (hnone : ∀ b ∈ e.Branches,
      b.try_ inp (e.Escape.matched_state st pos) = .backtracked (e.Escape.matched_state st pos)) :
    e.rule_.try_ inp st =
      .canceled (context_error (e.Escape.matched_state st pos) Error.invalid_escape_sequence) ∧
    (context_error (e.Escape.matched_state st pos) Error.invalid_escape_sequence).errors =
      st.errors ++ [Error.invalid_escape_sequence] ∧
    (∀ (next : NextParser) (finish : Sink → Value) (Close : Branch) (Char : Token)
      (args : List Value) (del_begin fuel : Nat) (st0 : State) (sink : Sink),
      Close.try_ inp st0 = .backtracked st → reader_eof inp st = false →
      _del_loop next finish Close Char e.rule_ inp args del_begin (fuel + 1) st0 sink =
        some (false,
          context_error (e.Escape.matched_state st pos) Error.invalid_escape_sequence)) := by
  have hlen : e.Branches.length ≠ 0 := hne
  have htry : e.rule_.try_ inp st =
      .canceled (context_error (e.Escape.matched_state st pos) Error.invalid_escape_sequence) := by
    simp only [_escape.rule_, _escape_rule, hlen, if_false, _br, Token.rule, Token.try_, htok,
      _chc]
    have hskip := _chc_try_skip inp (e.Escape.matched_state st pos)
      [error Error.invalid_escape_sequence] e.Branches hnone
    simp only [Token.matched_state] at hskip
    rw [hskip]
    simp [_chc_try, error, Token.matched_state]
  refine ⟨htry, rfl, ?_⟩
  intro next finish Close Char args del_begin fuel st0 sink hC he
  simp only [_del_loop, _del_body_backtracked _ _ _ _ _ _ _ _ _ _ _ hC, he, htry]
  simp

theorem backslash_n_declines_q :
    ∀ b ∈ (backslash_escape.lit_c 'n' (value_c (Value.code newline))).Branches,
      b.try_ [dquote, backslash, 'q', dquote]
          ((backslash_escape.lit_c 'n' (value_c (Value.code newline))).Escape.matched_state
            ⟨1, [], [⟨1, 0, 1⟩]⟩ 2) =
        .backtracked
          ((backslash_escape.lit_c 'n' (value_c (Value.code newline))).Escape.matched_state
            ⟨1, [], [⟨1, 0, 1⟩]⟩ 2) := by
  intro b hb
  simp only [_escape.lit_c, _escape.rule, backslash_escape, escape, List.nil_append,
    List.mem_singleton] at hb
  subst hb
  rfl

/-- Witness of C7: quote, backslash, q, quote with
`quoted(any_char, backslash_escape.lit_c<'n'>('\n'))` fails with `invalid_escape_sequence`. -/
theorem invalid_escape_witness :
    (backslash_n.try_ [dquote, backslash, 'q', dquote] ⟨1, [], [⟨1, 0, 1⟩]⟩ =
        .canceled (context_error
          ((backslash_escape.lit_c 'n' (value_c (Value.code newline))).Escape.matched_state
            ⟨1, [], [⟨1, 0, 1⟩]⟩ 2) Error.invalid_escape_sequence) ∧
      (context_error
          ((backslash_escape.lit_c 'n' (value_c (Value.code newline))).Escape.matched_state
            ⟨1, [], [⟨1, 0, 1⟩]⟩ 2) Error.invalid_escape_sequence).errors =
        [] ++ [Error.invalid_escape_sequence] ∧
      (∀ (next : NextParser) (finish : Sink → Value) (Close : Branch) (Char : Token)
        (args : List Value) (del_begin fuel : Nat) (st0 : State) (sink : Sink),
        Close.try_ [dquote, backslash, 'q', dquote] st0 = .backtracked ⟨1, [], [⟨1, 0, 1⟩]⟩ →
        reader_eof [dquote, backslash, 'q', dquote] ⟨1, [], [⟨1, 0, 1⟩]⟩ = false →
        _del_loop next finish Close Char backslash_n [dquote, backslash, 'q', dquote] args
            del_begin (fuel + 1) st0 sink =
          some (false, context_error
            ((backslash_escape.lit_c 'n' (value_c (Value.code newline))).Escape.matched_state
              ⟨1, [], [⟨1, 0, 1⟩]⟩ 2) Error.invalid_escape_sequence))) ∧
    quoted.parse_escape any_char backslash_n 4 accept count_calls
        [dquote, backslash, 'q', dquote] start [] =
      some (false, ⟨2, [Error.invalid_escape_sequence], [⟨1, 0, 1⟩, ⟨1, 1, 2⟩]⟩) :=
  ⟨invalid_escape_cancels (backslash_escape.lit_c 'n' (value_c (Value.code newline)))
      [dquote, backslash, 'q', dquote] ⟨1, [], [⟨1, 0, 1⟩]⟩ 2 (by decide) rfl
      backslash_n_declines_q,
    by decide⟩

/-! ## The escape builder -/

/-- C8, as amended: the rule built by `escape(tok)` alone is the token `tok` itself. Where
`tok` matches, the branch matches: it consumes the token, produces no value, reports no
error, and tried inside `delimited` its result is `ok` with the sink left as it was. -/
theorem escape_alone_is_its_token (tok : Token) (inp : List Code) (st : State) (pos : Nat)
    (htok : engine_try_match tok.engine inp st.cur = some pos) :
    (escape tok).rule_ = tok.rule.toBranch ∧
    (escape tok).rule_.try_ inp st = .matched (tok.matched_state st pos) [] ∧
    (tok.matched_state st pos).errors = st.errors ∧
    (∀ sink : Sink,
      try_parse (escape tok).rule_ _list_sink inp st sink =
        (.ok, tok.matched_state st pos, sink)) := by
  have h1 : (escape tok).rule_ = tok.rule.toBranch := by
    simp [_escape.rule_, _escape_rule, escape]
  have h2 : (escape tok).rule_.try_ inp st = .matched (tok.matched_state st pos) [] := by
    rw [h1]
    simp [Token.rule, Token.try_, htok, Token.matched_state]
  refine ⟨h1, h2, rfl, ?_⟩
  intro sink
  simp [try_parse, h2, _list_sink, rule_try_parse_result.of_bool]

/-- Witness of C8 as amended: `escape` of the backslash literal alone, tried at the backslash
of quote, backslash, q, quote. -/
theorem escape_alone_witness :
    (escape (lexy.lit_c backslash)).rule_ = (lexy.lit_c backslash).rule.toBranch ∧
    (escape (lexy.lit_c backslash)).rule_.try_ [dquote, backslash, 'q', dquote]
        ⟨1, [], [⟨1, 0, 1⟩]⟩ =
      .matched ((lexy.lit_c backslash).matched_state ⟨1, [], [⟨1, 0, 1⟩]⟩ 2) [] ∧
    ((lexy.lit_c backslash).matched_state ⟨1, [], [⟨1, 0, 1⟩]⟩ 2).errors = [] ∧
    (∀ sink : Sink,
      try_parse (escape (lexy.lit_c backslash)).rule_ _list_sink
          [dquote, backslash, 'q', dquote] ⟨1, [], [⟨1, 0, 1⟩]⟩ sink =
        (.ok, (lexy.lit_c backslash).matched_state ⟨1, [], [⟨1, 0, 1⟩]⟩ 2, sink)) :=
  escape_alone_is_its_token (lexy.lit_c backslash) [dquote, backslash, 'q', dquote]
    ⟨1, [], [⟨1, 0, 1⟩]⟩ 2 rfl

/-- Counterexample to C8 as stated: `backslash_escape` used as is, at a position where the
backslash matches, gives a match and `ok` with no error reported, not `canceled` with
`invalid_escape_sequence`; and quote, backslash, q, quote parses successfully with it. -/
theorem escape_alone_counterexample :
    engine_try_match backslash_escape.Escape.engine [dquote, backslash, 'q', dquote] 1 = some 2 ∧
    backslash_escape.rule_.try_ [dquote, backslash, 'q', dquote] ⟨1, [], [⟨1, 0, 1⟩]⟩ =
      .matched ⟨2, [], [⟨1, 0, 1⟩, ⟨1, 1, 2⟩]⟩ [] ∧
    try_parse backslash_escape.rule_ _list_sink [dquote, backslash, 'q', dquote]
        ⟨1, [], [⟨1, 0, 1⟩]⟩ [] =
      (.ok, ⟨2, [], [⟨1, 0, 1⟩, ⟨1, 1, 2⟩]⟩, []) ∧
    quoted.parse_escape any_char backslash_escape.rule_ 3 accept count_calls
        [dquote, backslash, 'q', dquote] start [] =
      some (true, ⟨4, [], [⟨1, 0, 1⟩, ⟨1, 1, 2⟩, ⟨2, 2, 3⟩, ⟨1, 3, 4⟩]⟩) := by
  decide

/-- C9 (escape declines cleanly). For every escape rule, with or without added cases, at a
state where the escape token does not match: trying the rule gives `backtracked` with the
very same state, so no error is reported and the reader stays where it was; the sink is
left as it was; and inside `delimited`, at a loop head where `Close` backtracked before the
end of input, the body is then exactly the content branch with `Char` at that position. -/
theorem escape_declines_cleanly (e : _escape) (inp : List Code) (st : State)
    (htok : engine_try_match e.Escape.engine inp st.cur = none) :
    e.rule_.try_ inp st = .backtracked st ∧
    (∀ sink : Sink, try_parse e.rule_ _list_sink inp st sink = (.backtracked, st, sink)) ∧
    (∀ (next : NextParser) (finish : Sink → Value) (Close : Branch) (Char : Token)
      (args : List Value) (del_begin : Nat) (st0 : State) (sink : Sink),
      Close.try_ inp st0 = .backtracked st → reader_eof inp st = false →
      _del_body next finish Close Char e.rule_ inp args del_begin st0 sink =
        _del_char Char inp st sink) := by
  have h1 : e.rule_.try_ inp st = .backtracked st := by
    by_cases hlen : e.Branches.length = 0
    · simp [_escape.rule_, _escape_rule, hlen, Token.rule, Token.try_, htok]
    · simp [_escape.rule_, _escape_rule, hlen, _br, Token.rule, Token.try_, htok]
  refine ⟨h1, ?_, ?_⟩
  · intro sink
    simp [try_parse, h1]
  · intro next finish Close Char args del_begin st0 sink hC he
    simp [_del_body_backtracked _ _ _ _ _ _ _ _ _ _ _ hC, he, h1]

/-- Witness of C9: the escape of the scenario declines at the a of quote, a, backslash, n, b,
quote, and the loop pushes the lexeme a. -/
theorem escape_declines_witness :
    (backslash_n.try_ a_escape_b ⟨1, [], [⟨1, 0, 1⟩]⟩ = .backtracked ⟨1, [], [⟨1, 0, 1⟩]⟩ ∧
      (∀ sink : Sink,
        try_parse backslash_n _list_sink a_escape_b ⟨1, [], [⟨1, 0, 1⟩]⟩ sink =
          (.backtracked, ⟨1, [], [⟨1, 0, 1⟩]⟩, sink)) ∧
      (∀ (next : NextParser) (finish : Sink → Value) (Close : Branch) (Char : Token)
        (args : List Value) (del_begin : Nat) (st0 : State) (sink : Sink),
        Close.try_ a_escape_b st0 = .backtracked ⟨1, [], [⟨1, 0, 1⟩]⟩ →
        reader_eof a_escape_b ⟨1, [], [⟨1, 0, 1⟩]⟩ = false →
        _del_body next finish Close Char backslash_n a_escape_b args del_begin st0 sink =
          _del_char Char a_escape_b ⟨1, [], [⟨1, 0, 1⟩]⟩ sink)) ∧
    _del_body accept count_calls quoted.Close.toBranch any_char backslash_n a_escape_b [] 1
        ⟨1, [], [⟨1, 0, 1⟩]⟩ [] =
      .again ⟨2, [], [⟨1, 0, 1⟩, ⟨2, 1, 2⟩]⟩ [[Value.lexeme 1 2]] :=
  ⟨escape_declines_cleanly (backslash_escape.lit_c 'n' (value_c (Value.code newline)))
      a_escape_b ⟨1, [], [⟨1, 0, 1⟩]⟩ rfl,
    by decide⟩

/-- C10 (`escape(...).capture(token)`). The branch `capture` adds is `_escape_cap` of the
token's engine. Tried at reader position `st.cur`: when the engine does not match, the
result is `backtracked` with the state unchanged; when it matches up to `e`, the
continuation is called with the incoming arguments followed by the one lexeme from
`st.cur` to `e`, and the result is `ok` if it returned `true`, `canceled` if it returned
`false`, never `backtracked`. The branch form and `try_parse` agree. -/
theorem escape_capture_branch (token : Token) (next : NextParser) (inp : List Code)
    (st : State) (args : List Value) :
    (engine_try_match token.engine inp st.cur = none →
      _escape_cap_try_parse token.engine next inp st args = (.backtracked, st)) ∧
    (∀ e : Nat, engine_try_match token.engine inp st.cur = some e →
      _escape_cap_try_parse token.engine next inp st args =
        (rule_try_parse_result.of_bool
            (next { st with cur := e } (args ++ [Value.lexeme st.cur e])).1,
          (next { st with cur := e } (args ++ [Value.lexeme st.cur e])).2) ∧
      (_escape_cap_try_parse token.engine next inp st args).1 ≠ .backtracked ∧
      ((next { st with cur := e } (args ++ [Value.lexeme st.cur e])).1 = true →
        (_escape_cap_try_parse token.engine next inp st args).1 = .ok) ∧
      ((next { st with cur := e } (args ++ [Value.lexeme st.cur e])).1 = false →
        (_escape_cap_try_parse token.engine next inp st args).1 = .canceled)) ∧
    (∀ e0 : _escape, (e0.capture token).Branches = e0.Branches ++ [_escape_cap token.engine]) ∧
    _escape_cap_try_parse token.engine next inp st args =
      (match (_escape_cap token.engine).try_ inp st with
      | .backtracked s => (.backtracked, s)
      | .canceled s => (.canceled, s)
      | .matched s vals =>
        (rule_try_parse_result.of_bool (next s (args ++ vals)).1, (next s (args ++ vals)).2)) := by
  refine ⟨?_, ?_, ?_, ?_⟩
  · intro h
    simp [_escape_cap_try_parse, h]
  · intro e h
    have h1 : _escape_cap_try_parse token.engine next inp st args =
        (rule_try_parse_result.of_bool
            (next { st with cur := e } (args ++ [Value.lexeme st.cur e])).1,
          (next { st with cur := e } (args ++ [Value.lexeme st.cur e])).2) := by
      simp [_escape_cap_try_parse, h]
    refine ⟨h1, ?_, ?_, ?_⟩
    · rw [h1]; exact of_bool_ne_backtracked _
    · intro hn; rw [h1, hn]; rfl
    · intro hn; rw [h1, hn]; rfl
  · intro e0; rfl
  · cases h : engine_try_match token.engine inp st.cur <;>
      simp [_escape_cap_try_parse, _escape_cap, h]

/-- Witness of C10: capturing one character of x, y after the argument 7. -/
theorem escape_capture_witness :
    ((engine_try_match any_char.engine ['x', 'y'] 0 = none →
        _escape_cap_try_parse any_char.engine accept ['x', 'y'] start [Value.num 7] =
          (.backtracked, start)) ∧
      (∀ e : Nat, engine_try_match any_char.engine ['x', 'y'] start.cur = some e →
        _escape_cap_try_parse any_char.engine accept ['x', 'y'] start [Value.num 7] =
          (rule_try_parse_result.of_bool
              (accept { start with cur := e } ([Value.num 7] ++ [Value.lexeme start.cur e])).1,
            (accept { start with cur := e } ([Value.num 7] ++ [Value.lexeme start.cur e])).2) ∧
        (_escape_cap_try_parse any_char.engine accept ['x', 'y'] start [Value.num 7]).1 ≠
          .backtracked ∧
        ((accept { start with cur := e } ([Value.num 7] ++ [Value.lexeme start.cur e])).1 = true →
          (_escape_cap_try_parse any_char.engine accept ['x', 'y'] start [Value.num 7]).1 = .ok) ∧
        ((accept { start with cur := e } ([Value.num 7] ++ [Value.lexeme start.cur e])).1 = false →
          (_escape_cap_try_parse any_char.engine accept ['x', 'y'] start [Value.num 7]).1 =
            .canceled)) ∧
      (∀ e0 : _escape,
        (e0.capture any_char).Branches = e0.Branches ++ [_escape_cap any_char.engine]) ∧
      _escape_cap_try_parse any_char.engine accept ['x', 'y'] start [Value.num 7] =
        (match (_escape_cap any_char.engine).try_ ['x', 'y'] start with
        | .backtracked s => (.backtracked, s)
        | .canceled s => (.canceled, s)
        | .matched s vals =>
          (rule_try_parse_result.of_bool (accept s ([Value.num 7] ++ vals)).1,
            (accept s ([Value.num 7] ++ vals)).2))) ∧
    _escape_cap_try_parse any_char.engine
        (fun s a => (decide (a = [Value.num 7, Value.lexeme 0 1]), s)) ['x', 'y'] start
        [Value.num 7] = (.ok, ⟨1, [], []⟩) ∧
    _escape_cap_try_parse any_char.engine (fun s _ => (false, s)) ['x', 'y'] start
        [Value.num 7] = (.canceled, ⟨1, [], []⟩) ∧
    _escape_cap_try_parse any_char.engine accept ['x', 'y'] ⟨2, [], []⟩ [Value.num 7] =
      (.backtracked, ⟨2, [], []⟩) :=
  ⟨escape_capture_branch any_char accept ['x', 'y'] start [Value.num 7], by decide, by decide,
    by decide⟩

/-- Witness of C5: with `Close` the literal semicolon followed by the value 0, a sink whose
`finish` is 42 and the caller's argument 7, the continuation receives 7, 42, 0. -/
theorem close_result_delivery_witness :
    (∃ (s : State) (cv : List Value),
      semicolon_zero.try_ [';'] start = .matched s cv ∧
      expects [Value.num 7, Value.num 42, Value.num 0] s
        ([Value.num 7] ++ [forty_two []] ++ cv) = (true, ⟨1, [], [⟨1, 0, 1⟩]⟩)) ∧
    _del_void_loop (expects [Value.num 7, Value.num 42, Value.num 0]) forty_two semicolon_zero
        any_char [';'] [Value.num 7] 0 (0 + 1) start [] =
      some (true, ⟨1, [], [⟨1, 0, 1⟩]⟩) ∧
    _del_loop (expects [Value.num 7, Value.num 42, Value.num 0]) forty_two semicolon_zero
        any_char backslash_n [';'] [Value.num 7] 0 (0 + 1) start [] =
      some (true, ⟨1, [], [⟨1, 0, 1⟩]⟩) :=
  (close_result_delivery (expects [Value.num 7, Value.num 42, Value.num 0]) forty_two
    semicolon_zero any_char backslash_n [';'] [Value.num 7] 0 0 start []).1
    ⟨1, [], [⟨1, 0, 1⟩]⟩ (by decide)

/-! ## The matcher of `while_` -/

/-- More fuel does not change a result the matcher loop already gave. -/
theorem _while_matcher_loop_mono (B : PatternBranch) (inp : List Code) (save : Nat)
    (res : Bool × Nat) :
    ∀ (n m reader : Nat), n ≤ m → _while_matcher_loop B inp save n reader = some res →
      _while_matcher_loop B inp save m reader = some res := by
  intro n
  induction n with
  | zero => intro m reader _ h; simp [_while_matcher_loop] at h
  | succ n ih =>
    intro m reader hm h
    obtain ⟨k, rfl⟩ : ∃ k, m = k + 1 := ⟨m - 1, by omega⟩
    simp only [_while_matcher_loop] at h ⊢
    by_cases hc : (B.condition_matcher inp reader).1 = true
    · by_cases ht : (B.then_matcher inp (B.condition_matcher inp reader).2).1 = true
      · simp only [hc, ht, if_true, Bool.not_true, Bool.false_eq_true, if_false] at h ⊢
        exact ih k _ (by omega) h
      · simpa [hc, ht] using h
    · simpa [hc] using h

/-- After `k` complete iterations, a condition that does not match ends the matcher loop
with `true`. -/
theorem _while_matcher_loop_stops (B : PatternBranch) (inp : List Code) (save : Nat) :
    ∀ (k reader r : Nat), matcher_iterations B inp k reader = some r →
      (B.condition_matcher inp r).1 = false →
      _while_matcher_loop B inp save (k + 1) reader =
        some (true, (B.condition_matcher inp r).2) := by
  intro k
  induction k with
  | zero =>
    intro reader r h hc
    simp only [matcher_iterations, Option.some.injEq] at h
    subst h
    simp [_while_matcher_loop, hc]
  | succ k ih =>
    intro reader r h hc
    simp only [matcher_iterations] at h
    cases hi : matcher_iteration B inp reader with
    | none => rw [hi] at h; simp at h
    | some r1 =>
      rw [hi] at h
      simp only [matcher_iteration] at hi
      by_cases hc1 : (B.condition_matcher inp reader).1 = true
      · by_cases ht : (B.then_matcher inp (B.condition_matcher inp reader).2).1 = true
        · simp only [hc1, ht, if_true, Option.some.injEq] at hi
          subst hi
          have := ih _ r h hc
          rw [_while_matcher_loop]
          simp only [hc1, ht, if_true, Bool.not_true, Bool.false_eq_true, if_false]
          exact this
        · simp [hc1, ht] at hi
      · simp [hc1] at hi

/-- After `k` complete iterations, a condition that matches followed by a `then` that does
not match ends the matcher loop with `false` and the reader at `save`. -/
theorem _while_matcher_loop_fails (B : PatternBranch) (inp : List Code) (save : Nat) :
    ∀ (k reader r : Nat), matcher_iterations B inp k reader = some r →
      (B.condition_matcher inp r).1 = true →
      (B.then_matcher inp (B.condition_matcher inp r).2).1 = false →
      _while_matcher_loop B inp save (k + 1) reader = some (false, save) := by
  intro k
  induction k with
  | zero =>
    intro reader r h hc ht
    simp only [matcher_iterations, Option.some.injEq] at h
    subst h
    simp [_while_matcher_loop, hc, ht]
  | succ k ih =>
    intro reader r h hc ht
    simp only [matcher_iterations] at h
    cases hi : matcher_iteration B inp reader with
    | none => rw [hi] at h; simp at h
    | some r1 =>
      rw [hi] at h
      simp only [matcher_iteration] at hi
      by_cases hc1 : (B.condition_matcher inp reader).1 = true
      · by_cases ht1 : (B.then_matcher inp (B.condition_matcher inp reader).2).1 = true
        · simp only [hc1, ht1, if_true, Option.some.injEq] at hi
          subst hi
          have := ih _ r h hc ht
          rw [_while_matcher_loop]
          simp only [hc1, ht1, if_true, Bool.not_true, Bool.false_eq_true, if_false]
          exact this
        · simp [hc1, ht1] at hi
      · simp [hc1] at hi

/-- Every result of the matcher loop comes from one of the two exits, after some number of
complete iterations. -/
theorem _while_matcher_loop_inv (B : PatternBranch) (inp : List Code) (save : Nat)
    (res : Bool × Nat) :
    ∀ (fuel reader : Nat), _while_matcher_loop B inp save fuel reader = some res →
      ∃ k r : Nat, k < fuel ∧ matcher_iterations B inp k reader = some r ∧
        (((B.condition_matcher inp r).1 = false ∧ res = (true, (B.condition_matcher inp r).2)) ∨
          ((B.condition_matcher inp r).1 = true ∧
            (B.then_matcher inp (B.condition_matcher inp r).2).1 = false ∧
            res = (false, save))) := by
  intro fuel
  induction fuel with
  | zero => intro reader h; simp [_while_matcher_loop] at h
  | succ n ih =>
    intro reader h
    simp only [_while_matcher_loop] at h
    by_cases hc : (B.condition_matcher inp reader).1 = true
    · by_cases ht : (B.then_matcher inp (B.condition_matcher inp reader).2).1 = true
      · simp only [hc, ht, if_true, Bool.not_true, Bool.false_eq_true, if_false] at h
        obtain ⟨k, r, hk, hit, hor⟩ := ih _ h
        refine ⟨k + 1, r, by omega, ?_, hor⟩
        simp [matcher_iterations, matcher_iteration, hc, ht, hit]
      · simp only [hc, ht, if_true, Bool.not_false, Option.some.injEq] at h
        exact ⟨0, reader, by omega, rfl, Or.inr ⟨hc, by simpa using ht, h.symm⟩⟩
    · simp only [hc, Bool.false_eq_true, if_false, Option.some.injEq] at h
      exact ⟨0, reader, by omega, rfl, Or.inl ⟨by simpa using hc, h.symm⟩⟩

/-- A literal that matches ends right after its units; a literal with at least one unit
that matches lies inside the input. -/
theorem lit_match_ok (inp : List Code) :
    ∀ (str : List Code) (cur : Nat), (lit_match str inp cur).1 = 0 →
      (lit_match str inp cur).2 = cur + str.length ∧
      (str ≠ [] → cur + str.length ≤ inp.length) := by
  intro str
  induction str with
  | nil =>
    intro cur _
    exact ⟨rfl, fun h => absurd rfl h⟩
  | cons c cs ih =>
    intro cur h
    rw [lit_match] at h ⊢
    by_cases hg : inp.get? cur = some c
    · rw [if_pos hg] at h ⊢
      obtain ⟨h1, h2⟩ := ih (cur + 1) h
      have hlt : cur < inp.length := by
        by_contra hge
        rw [List.get?_eq_none.mpr (by omega)] at hg
        cases hg
      refine ⟨by rw [h1, List.length_cons]; omega, fun _ => ?_⟩
      rw [List.length_cons]
      by_cases hcs : cs = []
      · subst hcs; simp only [List.length_nil]; omega
      · have := h2 hcs; omega
    · rw [if_neg hg] at h
      cases h

/-- The matcher of a literal with at least one unit consumes input inside the input when
it matches, and leaves the reader alone when it does not. -/
theorem lit_pattern_matcher (str : List Code) (hne : str ≠ []) (inp : List Code) (r : Nat) :
    ((LEXY_LIT str).pattern.matcher inp r).1 = true →
      r < ((LEXY_LIT str).pattern.matcher inp r).2 ∧
      ((LEXY_LIT str).pattern.matcher inp r).2 ≤ inp.length := by
  intro h
  simp only [Token.pattern, LEXY_LIT, engine_try_match] at h ⊢
  by_cases h0 : (lit_match str inp r).1 = 0
  · obtain ⟨h1, h2⟩ := lit_match_ok inp str r h0
    have h3 := h2 hne
    have hlen : 0 < str.length := List.length_pos.mpr hne
    simp only [h0, if_true, h1]
    omega
  · simp [h0] at h

theorem token_pattern_matcher_restores (T : Token) (inp : List Code) (r : Nat) :
    (T.pattern.matcher inp r).1 = false → (T.pattern.matcher inp r).2 = r := by
  intro h
  simp only [Token.pattern] at h ⊢
  cases he : engine_try_match T.engine inp r with
  | none => rfl
  | some e => rw [he] at h; cases h

/-- One more complete iteration in front of `k` complete iterations. -/
theorem matcher_iterations_succ (B : PatternBranch) (inp : List Code) (k reader r : Nat)
    (hc : (B.condition_matcher inp reader).1 = true)
    (ht : (B.then_matcher inp (B.condition_matcher inp reader).2).1 = true)
    (h : matcher_iterations B inp k (B.then_matcher inp (B.condition_matcher inp reader).2).2 =
      some r) :
    matcher_iterations B inp (k + 1) reader = some r := by
  simp [matcher_iterations, matcher_iteration, hc, ht, h]

/-- When every complete iteration the loop reaches consumes input inside the input, the
matcher loop reaches, within as many iterations as units are left, a loop head at which it
stops: the condition does not match there, or it matches and `then` does not. -/
theorem matcher_iterations_reach_exit (B : PatternBranch) (inp : List Code) :
    ∀ (n reader : Nat), inp.length - reader ≤ n →
      (∀ k r : Nat, matcher_iterations B inp k reader = some r →
        (B.condition_matcher inp r).1 = true →
        (B.then_matcher inp (B.condition_matcher inp r).2).1 = true →
        r < (B.then_matcher inp (B.condition_matcher inp r).2).2 ∧
        (B.then_matcher inp (B.condition_matcher inp r).2).2 ≤ inp.length) →
      ∃ k r : Nat, k ≤ n ∧ matcher_iterations B inp k reader = some r ∧
        ((B.condition_matcher inp r).1 = false ∨
          ((B.condition_matcher inp r).1 = true ∧
            (B.then_matcher inp (B.condition_matcher inp r).2).1 = false)) := by
  intro n
  induction n with
  | zero =>
    intro reader hn hprog
    by_cases hc : (B.condition_matcher inp reader).1 = true
    · by_cases ht : (B.then_matcher inp (B.condition_matcher inp reader).2).1 = true
      · obtain ⟨h1, h2⟩ := hprog 0 reader rfl hc ht
        omega
      · exact ⟨0, reader, le_refl _, rfl, Or.inr ⟨hc, by simpa using ht⟩⟩
    · exact ⟨0, reader, le_refl _, rfl, Or.inl (by simpa using hc)⟩
  | succ n ih =>
    intro reader hn hprog
    by_cases hc : (B.condition_matcher inp reader).1 = true
    · by_cases ht : (B.then_matcher inp (B.condition_matcher inp reader).2).1 = true
      · obtain ⟨h1, h2⟩ := hprog 0 reader rfl hc ht
        have hn1 : inp.length - (B.then_matcher inp (B.condition_matcher inp reader).2).2 ≤ n := by
          clear hprog ih; omega
        obtain ⟨k, r, hk, hit, hstop⟩ := ih _ hn1
          (fun k r hit => hprog (k + 1) r (matcher_iterations_succ B inp k reader r hc ht hit))
        exact ⟨k + 1, r, by omega, matcher_iterations_succ B inp k reader r hc ht hit, hstop⟩
      · exact ⟨0, reader, by omega, rfl, Or.inr ⟨hc, by simpa using ht⟩⟩
    · exact ⟨0, reader, by omega, rfl, Or.inl (by simpa using hc)⟩

/-- The loop heads of the matcher are determined: `k` complete iterations lead to one
position. -/
theorem matcher_exit_unique (B : PatternBranch) (inp : List Code) (save : Nat)
    (res1 res2 : Bool × Nat) (n m reader : Nat)
    (h1 : _while_matcher_loop B inp save n reader = some res1)
    (h2 : _while_matcher_loop B inp save m reader = some res2) : res1 = res2 := by
  have a := _while_matcher_loop_mono B inp save res1 n (max n m) reader (Nat.le_max_left _ _) h1
  have b := _while_matcher_loop_mono B inp save res2 m (max n m) reader (Nat.le_max_right _ _) h2
  rw [a] at b
  exact Option.some.inj b

/-- C11, as amended: the matcher of `while_(p)` returns `true` unless a `then` fails. When
every complete iteration the loop reaches consumes input inside the input, the matcher
returns with enough fuel, and it returns one result whatever the fuel: `false`, with
the reader where it was at entry, exactly when after some number of complete iterations
the condition matches and `then` does not; `true` otherwise, with the reader where the
condition that did not match left it; so `true` in particular when `then` never fails,
as for a pattern without a `then`. Without any assumption: a result `false` only comes
from an iteration whose condition matched and whose `then` did not, and such an
iteration does make the matcher return `false`. -/
theorem while_matcher_succeeds_unless_then_fails (B : PatternBranch) (inp : List Code)
    (reader : Nat) :
    ((∀ k r : Nat, matcher_iterations B inp k reader = some r →
        (B.condition_matcher inp r).1 = true →
        (B.then_matcher inp (B.condition_matcher inp r).2).1 = true →
        r < (B.then_matcher inp (B.condition_matcher inp r).2).2 ∧
        (B.then_matcher inp (B.condition_matcher inp r).2).2 ≤ inp.length) →
      ∃ res : Bool × Nat,
        (∀ fuel : Nat, inp.length - reader < fuel →
          _while_matcher_match fuel B inp reader = some res) ∧
        (res.1 = false ↔
          ∃ k r : Nat, matcher_iterations B inp k reader = some r ∧
            (B.condition_matcher inp r).1 = true ∧
            (B.then_matcher inp (B.condition_matcher inp r).2).1 = false) ∧
        (res.1 = false → res.2 = reader) ∧
        (res.1 = true →
          ∃ k r : Nat, matcher_iterations B inp k reader = some r ∧
            (B.condition_matcher inp r).1 = false ∧
            res.2 = (B.condition_matcher inp r).2) ∧
        ((∀ q : Nat, (B.then_matcher inp q).1 = true) → res.1 = true)) ∧
    (∀ (fuel : Nat) (res : Bool × Nat), _while_matcher_match fuel B inp reader = some res →
      res.1 = false →
      ∃ k r : Nat, matcher_iterations B inp k reader = some r ∧
        (B.condition_matcher inp r).1 = true ∧
        (B.then_matcher inp (B.condition_matcher inp r).2).1 = false) ∧
    (∀ k r : Nat, matcher_iterations B inp k reader = some r →
      (B.condition_matcher inp r).1 = true →
      (B.then_matcher inp (B.condition_matcher inp r).2).1 = false →
      ∀ fuel : Nat, k < fuel →
        ∃ res : Bool × Nat, _while_matcher_match fuel B inp reader = some res ∧
          res.1 = false) := by
  have hfalse : ∀ (fuel : Nat) (res : Bool × Nat),
      _while_matcher_match fuel B inp reader = some res → res.1 = false →
      ∃ k r : Nat, matcher_iterations B inp k reader = some r ∧
        (B.condition_matcher inp r).1 = true ∧
        (B.then_matcher inp (B.condition_matcher inp r).2).1 = false := by
    intro fuel res h hres
    obtain ⟨k, r, _, hit, hor⟩ := _while_matcher_loop_inv B inp reader res fuel reader h
    rcases hor with ⟨_, hr⟩ | ⟨hc, ht, _⟩
    · rw [hr] at hres; cases hres
    · exact ⟨k, r, hit, hc, ht⟩
  refine ⟨?_, hfalse, ?_⟩
  · intro hprog
    obtain ⟨k, r, hk, hit, hexit⟩ :=
      matcher_iterations_reach_exit B inp (inp.length - reader) reader (le_refl _) hprog
    have hrun : ∃ res : Bool × Nat, _while_matcher_loop B inp reader (k + 1) reader = some res := by
      rcases hexit with hc | ⟨hc, ht⟩
      · exact ⟨_, _while_matcher_loop_stops B inp reader k reader r hit hc⟩
      · exact ⟨_, _while_matcher_loop_fails B inp reader k reader r hit hc ht⟩
    obtain ⟨res, hres⟩ := hrun
    have hall : ∀ fuel : Nat, inp.length - reader < fuel →
        _while_matcher_match fuel B inp reader = some res := by
      intro fuel hf
      exact _while_matcher_loop_mono B inp reader res (k + 1) fuel reader (by omega) hres
    obtain ⟨k1, r1, _, hit1, hor⟩ := _while_matcher_loop_inv B inp reader res (k + 1) reader hres
    refine ⟨res, hall, ⟨hfalse (k + 1) res hres, ?_⟩, ?_, ?_, ?_⟩
    · intro ⟨k2, r2, hit2, hc2, ht2⟩
      have h2 := _while_matcher_loop_fails B inp reader k2 reader r2 hit2 hc2 ht2
      have := matcher_exit_unique B inp reader _ _ _ _ reader hres h2
      rw [this]
    · intro hf
      rcases hor with ⟨_, hr⟩ | ⟨_, _, hr⟩
      · rw [hr] at hf; cases hf
      · rw [hr]
    · intro ht
      rcases hor with ⟨hc, hr⟩ | ⟨_, _, hr⟩
      · exact ⟨k1, r1, hit1, hc, by rw [hr]⟩
      · rw [hr] at ht; cases ht
    · intro hthen
      rcases hor with ⟨_, hr⟩ | ⟨_, ht, _⟩
      · rw [hr]
      · rw [hthen] at ht; cases ht
  · intro k r hit hc ht fuel hf
    exact ⟨(false, reader),
      _while_matcher_loop_mono B inp reader _ (k + 1) fuel reader (by omega)
        (_while_matcher_loop_fails B inp reader k reader r hit hc ht), rfl⟩

/-- Every complete iteration of `a >> b` consumes input inside the input. -/
theorem a_then_b_progress (inp : List Code) (r : Nat)
    (hc : (a_then_b.condition_matcher inp r).1 = true)
    (ht : (a_then_b.then_matcher inp (a_then_b.condition_matcher inp r).2).1 = true) :
    r < (a_then_b.then_matcher inp (a_then_b.condition_matcher inp r).2).2 ∧
      (a_then_b.then_matcher inp (a_then_b.condition_matcher inp r).2).2 ≤ inp.length := by
  have h1 := lit_pattern_matcher ['a'] (by simp) inp r hc
  have h2 := lit_pattern_matcher ['b'] (by simp) inp _ ht
  exact ⟨Nat.lt_trans h1.1 h2.1, h2.2⟩

/-- Witness of C11 as amended: the matcher of `while_(a >> b)` on a, b, a, b, semicolon, a
returns one result for every fuel above 6, and it is `true` with the reader at 4; the
matcher of `while_` of the literal a, b, c on a, b, c, a, b, c, semicolon returns `true`
with the reader at 6. -/
theorem while_matcher_succeeds_witness :
    (∃ res : Bool × Nat,
      (∀ fuel : Nat, ['a', 'b', 'a', 'b', ';', 'a'].length - 0 < fuel →
        _while_matcher_match fuel a_then_b ['a', 'b', 'a', 'b', ';', 'a'] 0 = some res) ∧
      (res.1 = false ↔
        ∃ k r : Nat, matcher_iterations a_then_b ['a', 'b', 'a', 'b', ';', 'a'] k 0 = some r ∧
          (a_then_b.condition_matcher ['a', 'b', 'a', 'b', ';', 'a'] r).1 = true ∧
          (a_then_b.then_matcher ['a', 'b', 'a', 'b', ';', 'a']
            (a_then_b.condition_matcher ['a', 'b', 'a', 'b', ';', 'a'] r).2).1 = false) ∧
      (res.1 = false → res.2 = 0) ∧
      (res.1 = true →
        ∃ k r : Nat, matcher_iterations a_then_b ['a', 'b', 'a', 'b', ';', 'a'] k 0 = some r ∧
          (a_then_b.condition_matcher ['a', 'b', 'a', 'b', ';', 'a'] r).1 = false ∧
          res.2 = (a_then_b.condition_matcher ['a', 'b', 'a', 'b', ';', 'a'] r).2) ∧
      ((∀ q : Nat, (a_then_b.then_matcher ['a', 'b', 'a', 'b', ';', 'a'] q).1 = true) →
        res.1 = true)) ∧
    _while_matcher_match 7 a_then_b ['a', 'b', 'a', 'b', ';', 'a'] 0 = some (true, 4) ∧
    _while_matcher_match 3 a_then_b ['a', 'b', 'a', 'b', ';', 'a'] 0 = some (true, 4) ∧
    _while_matcher_match 3 (branch abc) ['a', 'b', 'c', 'a', 'b', 'c', ';'] 0 =
      some (true, 6) :=
  ⟨(while_matcher_succeeds_unless_then_fails a_then_b ['a', 'b', 'a', 'b', ';', 'a'] 0).1
      (fun _ r _ hc ht => a_then_b_progress _ r hc ht),
    by decide, by decide, by decide⟩

/-- Counterexample to C11 as stated: for the pattern `a >> b` on a, b, a, c the condition
matches at 2, `then` does not match at 3, and the matcher of `while_` returns `false`. -/
theorem while_matcher_always_succeeds_counterexample :
    (a_then_b.condition_matcher ['a', 'b', 'a', 'c'] 2 = (true, 3) ∧
      a_then_b.then_matcher ['a', 'b', 'a', 'c'] 3 = (false, 3)) ∧
    (∀ fuel : Nat, 1 < fuel →
      _while_matcher_match fuel a_then_b ['a', 'b', 'a', 'c'] 0 = some (false, 0)) := by
  refine ⟨by decide, ?_⟩
  intro fuel hf
  exact _while_matcher_loop_mono a_then_b _ 0 _ 2 fuel 0 (by omega) (by decide)

/-- C12, as amended: when, after `k` complete iterations, the condition matches and `then`
does not, the matcher returns `false` with the reader at the position it had when the
matcher was entered (the copy `save` taken before the loop), so the input consumed by the
`k` earlier iterations is given back as well. -/
theorem while_matcher_restores_entry_position (B : PatternBranch) (inp : List Code)
    (reader k r : Nat) (hit : matcher_iterations B inp k reader = some r)
    (hc : (B.condition_matcher inp r).1 = true)
    (ht : (B.then_matcher inp (B.condition_matcher inp r).2).1 = false) :
    ∀ fuel : Nat, k < fuel → _while_matcher_match fuel B inp reader = some (false, reader) := by
  intro fuel hf
  exact _while_matcher_loop_mono B inp reader _ (k + 1) fuel reader (by omega)
    (_while_matcher_loop_fails B inp reader k reader r hit hc ht)

/-- Witness of C12 as amended: `a >> b` entered at 1 on x, a, b, a, b, a, c fails in its
third iteration, which starts at 5, and the reader is back at 1. -/
theorem while_matcher_restores_witness :
    (∀ fuel : Nat, 2 < fuel →
      _while_matcher_match fuel a_then_b ['x', 'a', 'b', 'a', 'b', 'a', 'c'] 1 =
        some (false, 1)) ∧
    matcher_iterations a_then_b ['x', 'a', 'b', 'a', 'b', 'a', 'c'] 2 1 = some 5 :=
  ⟨while_matcher_restores_entry_position a_then_b ['x', 'a', 'b', 'a', 'b', 'a', 'c'] 1 2 5
      (by decide) (by decide) (by decide),
    by decide⟩

/-- Counterexample to C12 as stated: for `a >> b` on a, b, a, c the failed iteration starts
at 2, after one complete iteration, and the matcher leaves the reader at 0, not at 2. -/
theorem while_matcher_restoration_counterexample :
    matcher_iterations a_then_b ['a', 'b', 'a', 'c'] 1 0 = some 2 ∧
    (a_then_b.condition_matcher ['a', 'b', 'a', 'c'] 2).1 = true ∧
    (a_then_b.then_matcher ['a', 'b', 'a', 'c']
      (a_then_b.condition_matcher ['a', 'b', 'a', 'c'] 2).2).1 = false ∧
    _while_matcher_match 2 a_then_b ['a', 'b', 'a', 'c'] 0 = some (false, 0) ∧
    _while_matcher_match 2 a_then_b ['a', 'b', 'a', 'c'] 0 ≠ some (false, 2) := by
  decide

/-! ## The parser of `while_` -/

/-- More fuel does not change a result the condition loop already gave. -/
theorem _while_condition_loop_mono (B : PatternBranch) (inp : List Code) (res : Nat) :
    ∀ (n m reader : Nat), n ≤ m → _while_condition_loop B inp n reader = some res →
      _while_condition_loop B inp m reader = some res := by
  intro n
  induction n with
  | zero => intro m reader _ h; simp [_while_condition_loop] at h
  | succ n ih =>
    intro m reader hm h
    obtain ⟨k, rfl⟩ : ∃ k, m = k + 1 := ⟨m - 1, by omega⟩
    simp only [_while_condition_loop] at h ⊢
    by_cases hc : (B.condition_matcher inp reader).1 = true
    · simp only [hc, if_true] at h ⊢
      exact ih k _ (by omega) h
    · simpa [hc] using h

/-- More fuel does not change a result the parser of `while_` already gave. -/
theorem _while_parse_mono (B : PatternBranch) (next : NextParser) (inp : List Code)
    (res : Bool × State) :
    ∀ (n m : Nat) (st : State) (args : List Value), n ≤ m →
      _while_parse B next inp n st args = some res →
      _while_parse B next inp m st args = some res := by
  intro n
  induction n with
  | zero => intro m st args _ h; simp [_while_parse] at h
  | succ n ih =>
    intro m st args hm h
    obtain ⟨k, rfl⟩ : ∃ k, m = k + 1 := ⟨m - 1, by omega⟩
    simp only [_while_parse] at h ⊢
    by_cases hthen : B.has_then = true
    · simp only [hthen, if_true] at h ⊢
      by_cases hc : (B.condition_matcher inp st.cur).1 = true
      · simp only [hc, if_true] at h ⊢
        cases hp : B.then_.parse inp { st with cur := (B.condition_matcher inp st.cur).2 } with
        | failed s => rw [hp] at h; simpa using h
        | succeeded s vals =>
          rw [hp] at h
          exact ih k s _ (by omega) h
      · simpa [hc] using h
    · simp only [hthen, Bool.false_eq_true, if_false] at h ⊢
      cases hl : _while_condition_loop B inp (n + 1) st.cur with
      | none => rw [hl] at h; simp at h
      | some r =>
        rw [hl] at h
        rw [_while_condition_loop_mono B inp r (n + 1) (k + 1) st.cur (by omega) hl]
        exact h

/-- After `k` complete iterations, a condition that does not match hands over to the
continuation. -/
theorem _while_parse_stops (B : PatternBranch) (next : NextParser) (inp : List Code)
    (hthen : B.has_then = true) :
    ∀ (k : Nat) (st : State) (args : List Value) (h : State × List Value),
      parser_iterations B inp k (st, args) = some h →
      (B.condition_matcher inp h.1.cur).1 = false →
      _while_parse B next inp (k + 1) st args =
        some (next { h.1 with cur := (B.condition_matcher inp h.1.cur).2 } h.2) := by
  intro k
  induction k with
  | zero =>
    intro st args h hit hc
    simp only [parser_iterations, Option.some.injEq] at hit
    subst hit
    simp only at hc
    simp [_while_parse, hthen, hc]
  | succ k ih =>
    intro st args h hit hc
    simp only [parser_iterations] at hit
    cases hi : parser_iteration B inp (st, args) with
    | none => rw [hi] at hit; simp at hit
    | some h1 =>
      rw [hi] at hit
      simp only [parser_iteration] at hi
      by_cases hc1 : (B.condition_matcher inp st.cur).1 = true
      · simp only [hc1, if_true] at hi
        cases hp : B.then_.parse inp { st with cur := (B.condition_matcher inp st.cur).2 } with
        | failed s => rw [hp] at hi; simp at hi
        | succeeded s vals =>
          rw [hp] at hi
          simp only [Option.some.injEq] at hi
          subst hi
          rw [_while_parse]
          simp only [hthen, if_true, hc1, hp]
          exact ih s _ h hit hc
      · simp [hc1] at hi

/-- After `k` complete iterations, a condition that matches followed by a `then` that fails
is the failure of the whole parse, whatever the continuation. -/
theorem _while_parse_fails (B : PatternBranch) (next : NextParser) (inp : List Code)
    (hthen : B.has_then = true) (s : State) :
    ∀ (k : Nat) (st : State) (args : List Value) (h : State × List Value),
      parser_iterations B inp k (st, args) = some h →
      (B.condition_matcher inp h.1.cur).1 = true →
      B.then_.parse inp { h.1 with cur := (B.condition_matcher inp h.1.cur).2 } = .failed s →
      _while_parse B next inp (k + 1) st args = some (false, s) := by
  intro k
  induction k with
  | zero =>
    intro st args h hit hc hf
    simp only [parser_iterations, Option.some.injEq] at hit
    subst hit
    simp only at hc hf
    simp [_while_parse, hthen, hc, hf]
  | succ k ih =>
    intro st args h hit hc hf
    simp only [parser_iterations] at hit
    cases hi : parser_iteration B inp (st, args) with
    | none => rw [hi] at hit; simp at hit
    | some h1 =>
      rw [hi] at hit
      simp only [parser_iteration] at hi
      by_cases hc1 : (B.condition_matcher inp st.cur).1 = true
      · simp only [hc1, if_true] at hi
        cases hp : B.then_.parse inp { st with cur := (B.condition_matcher inp st.cur).2 } with
        | failed s1 => rw [hp] at hi; simp at hi
        | succeeded s1 vals =>
          rw [hp] at hi
          simp only [Option.some.injEq] at hi
          subst hi
          rw [_while_parse]
          simp only [hthen, if_true, hc1, hp]
          exact ih s1 _ h hit hc hf
      · simp [hc1] at hi

/-- Every result of the parser of `while_` with a `then` comes from one of the two exits,
after some number of complete iterations. -/
theorem _while_parse_inv (B : PatternBranch) (next : NextParser) (inp : List Code)
    (hthen : B.has_then = true) (res : Bool × State) :
    ∀ (fuel : Nat) (st : State) (args : List Value),
      _while_parse B next inp fuel st args = some res →
      ∃ (k : Nat) (h : State × List Value), k < fuel ∧
        parser_iterations B inp k (st, args) = some h ∧
        (((B.condition_matcher inp h.1.cur).1 = false ∧
            res = next { h.1 with cur := (B.condition_matcher inp h.1.cur).2 } h.2) ∨
          ((B.condition_matcher inp h.1.cur).1 = true ∧
            B.then_.parse inp { h.1 with cur := (B.condition_matcher inp h.1.cur).2 } =
              .failed res.2 ∧
            res.1 = false)) := by
  intro fuel
  induction fuel with
  | zero => intro st args h; simp [_while_parse] at h
  | succ n ih =>
    intro st args h
    simp only [_while_parse, hthen, if_true] at h
    by_cases hc : (B.condition_matcher inp st.cur).1 = true
    · simp only [hc, if_true] at h
      cases hp : B.then_.parse inp { st with cur := (B.condition_matcher inp st.cur).2 } with
      | failed s =>
        rw [hp] at h
        simp only [Option.some.injEq] at h
        subst h
        exact ⟨0, (st, args), by omega, rfl, Or.inr ⟨hc, hp, rfl⟩⟩
      | succeeded s vals =>
        rw [hp] at h
        obtain ⟨k, h1, hk, hit, hor⟩ := ih s _ h
        refine ⟨k + 1, h1, by omega, ?_, hor⟩
        simp [parser_iterations, parser_iteration, hc, hp, hit]
    · simp only [hc, Bool.false_eq_true, if_false, Option.some.injEq] at h
      exact ⟨0, (st, args), by omega, rfl, Or.inl ⟨by simpa using hc, h.symm⟩⟩

/-- C13 (`while_` commits on the condition), for a branch with a `then`. When after `k`
complete iterations the condition matches and the parser of `then` fails, the whole parse
returns that failure, with the state `then` left, for every continuation: the continuation
is not reached and nothing further is tried. When the condition does not match at that
loop head, the result is the continuation's, on the arguments of that head. And every
result is one of these two: the continuation is only reached from a loop head at which the
condition does not match. -/
theorem while_commits_on_condition (B : PatternBranch) (inp : List Code) (st : State)
    (args : List Value) (hthen : B.has_then = true) :
    (∀ (k : Nat) (h : State × List Value) (s : State),
      parser_iterations B inp k (st, args) = some h →
      (B.condition_matcher inp h.1.cur).1 = true →
      B.then_.parse inp { h.1 with cur := (B.condition_matcher inp h.1.cur).2 } = .failed s →
      ∀ (fuel : Nat) (next : NextParser), k < fuel →
        _while_parse B next inp fuel st args = some (false, s)) ∧
    (∀ (k : Nat) (h : State × List Value),
      parser_iterations B inp k (st, args) = some h →
      (B.condition_matcher inp h.1.cur).1 = false →
      ∀ (fuel : Nat) (next : NextParser), k < fuel →
        _while_parse B next inp fuel st args =
          some (next { h.1 with cur := (B.condition_matcher inp h.1.cur).2 } h.2)) ∧
    (∀ (fuel : Nat) (next : NextParser) (res : Bool × State),
      _while_parse B next inp fuel st args = some res →
      ∃ (k : Nat) (h : State × List Value),
        parser_iterations B inp k (st, args) = some h ∧
        (((B.condition_matcher inp h.1.cur).1 = false ∧
            res = next { h.1 with cur := (B.condition_matcher inp h.1.cur).2 } h.2) ∨
          ((B.condition_matcher inp h.1.cur).1 = true ∧
            B.then_.parse inp { h.1 with cur := (B.condition_matcher inp h.1.cur).2 } =
              .failed res.2 ∧
            res.1 = false))) := by
  refine ⟨?_, ?_, ?_⟩
  · intro k h s hit hc hf fuel next hk
    exact _while_parse_mono B next inp _ (k + 1) fuel st args (by omega)
      (_while_parse_fails B next inp hthen s k st args h hit hc hf)
  · intro k h hit hc fuel next hk
    exact _while_parse_mono B next inp _ (k + 1) fuel st args (by omega)
      (_while_parse_stops B next inp hthen k st args h hit hc)
  · intro fuel next res h
    obtain ⟨k, h1, _, hit, hor⟩ := _while_parse_inv B next inp hthen res fuel st args h
    exact ⟨k, h1, hit, hor⟩

/-- Witness of C13: `while_(a >> b)` on a, b, a, c fails in its second iteration with the
error of b; on a, b, c it reaches the continuation at 2. -/
theorem while_commits_witness :
    ((∀ (k : Nat) (h : State × List Value) (s : State),
        parser_iterations a_then_b ['a', 'b', 'a', 'c'] k (start, []) = some h →
        (a_then_b.condition_matcher ['a', 'b', 'a', 'c'] h.1.cur).1 = true →
        a_then_b.then_.parse ['a', 'b', 'a', 'c']
          { h.1 with cur := (a_then_b.condition_matcher ['a', 'b', 'a', 'c'] h.1.cur).2 } =
            .failed s →
        ∀ (fuel : Nat) (next : NextParser), k < fuel →
          _while_parse a_then_b next ['a', 'b', 'a', 'c'] fuel start [] = some (false, s)) ∧
      (∀ (k : Nat) (h : State × List Value),
        parser_iterations a_then_b ['a', 'b', 'a', 'c'] k (start, []) = some h →
        (a_then_b.condition_matcher ['a', 'b', 'a', 'c'] h.1.cur).1 = false →
        ∀ (fuel : Nat) (next : NextParser), k < fuel →
          _while_parse a_then_b next ['a', 'b', 'a', 'c'] fuel start [] =
            some (next
              { h.1 with cur := (a_then_b.condition_matcher ['a', 'b', 'a', 'c'] h.1.cur).2 }
              h.2)) ∧
      (∀ (fuel : Nat) (next : NextParser) (res : Bool × State),
        _while_parse a_then_b next ['a', 'b', 'a', 'c'] fuel start [] = some res →
        ∃ (k : Nat) (h : State × List Value),
          parser_iterations a_then_b ['a', 'b', 'a', 'c'] k (start, []) = some h ∧
          (((a_then_b.condition_matcher ['a', 'b', 'a', 'c'] h.1.cur).1 = false ∧
              res = next
                { h.1 with
                  cur := (a_then_b.condition_matcher ['a', 'b', 'a', 'c'] h.1.cur).2 } h.2) ∨
            ((a_then_b.condition_matcher ['a', 'b', 'a', 'c'] h.1.cur).1 = true ∧
              a_then_b.then_.parse ['a', 'b', 'a', 'c']
                { h.1 with
                  cur := (a_then_b.condition_matcher ['a', 'b', 'a', 'c'] h.1.cur).2 } =
                .failed res.2 ∧
              res.1 = false)))) ∧
    parser_iterations a_then_b ['a', 'b', 'a', 'c'] 1 (start, []) =
      some (⟨2, [], [⟨1, 1, 2⟩]⟩, []) ∧
    _while_parse a_then_b accept ['a', 'b', 'a', 'c'] 2 start [] =
      some (false, ⟨3, [Error.expected_literal 3 0], [⟨1, 1, 2⟩]⟩) ∧
    _while_parse a_then_b accept ['a', 'b', 'c'] 2 start [] =
      some (true, ⟨2, [], [⟨1, 1, 2⟩]⟩) :=
  ⟨while_commits_on_condition a_then_b ['a', 'b', 'a', 'c'] start [] rfl,
    by decide, by decide, by decide⟩

/-! ## `while_`, `while_one` and `do_while` -/

/-- After `k` matches in a row, a condition that does not match ends the condition loop. -/
theorem _while_condition_loop_stops (B : PatternBranch) (inp : List Code) :
    ∀ (k reader r : Nat), condition_matches B inp k reader = some r →
      (B.condition_matcher inp r).1 = false →
      _while_condition_loop B inp (k + 1) reader = some (B.condition_matcher inp r).2 := by
  intro k
  induction k with
  | zero =>
    intro reader r h hc
    simp only [condition_matches, Option.some.injEq] at h
    subst h
    simp [_while_condition_loop, hc]
  | succ k ih =>
    intro reader r h hc
    simp only [condition_matches] at h
    by_cases hc1 : (B.condition_matcher inp reader).1 = true
    · simp only [hc1, if_true] at h
      rw [_while_condition_loop]
      simp only [hc1, if_true]
      exact ih _ r h hc
    · simp [hc1] at h

/-- When every match of the condition consumes input inside the input, the condition stops
matching after at most as many matches as there are units left. -/
theorem condition_matches_reach_stop (B : PatternBranch) (inp : List Code)
    (hprog : ∀ r : Nat, (B.condition_matcher inp r).1 = true →
      r < (B.condition_matcher inp r).2 ∧ (B.condition_matcher inp r).2 ≤ inp.length) :
    ∀ (n reader : Nat), inp.length - reader ≤ n →
      ∃ k r : Nat, k ≤ n ∧ condition_matches B inp k reader = some r ∧
        (B.condition_matcher inp r).1 = false := by
  intro n
  induction n with
  | zero =>
    intro reader hn
    by_cases hc : (B.condition_matcher inp reader).1 = true
    · obtain ⟨h1, h2⟩ := hprog reader hc
      omega
    · exact ⟨0, reader, le_refl _, rfl, by simpa using hc⟩
  | succ n ih =>
    intro reader hn
    by_cases hc : (B.condition_matcher inp reader).1 = true
    · obtain ⟨h1, h2⟩ := hprog reader hc
      obtain ⟨k, r, hk, hit, hstop⟩ := ih (B.condition_matcher inp reader).2 (by omega)
      refine ⟨k + 1, r, by omega, ?_, hstop⟩
      simp [condition_matches, hc, hit]
    · exact ⟨0, reader, by omega, rfl, by simpa using hc⟩

/-- The parser of `while_` for a pattern without a `then` whose matches consume input
inside the input and whose failed match leaves the reader alone: the continuation runs
once, on the arguments it was given, where the pattern stops matching. -/
theorem while_condition_only (p : Pattern) (inp : List Code) (st : State)
    (hprog : ∀ r : Nat, (p.matcher inp r).1 = true →
      r < (p.matcher inp r).2 ∧ (p.matcher inp r).2 ≤ inp.length)
    (hrestore : ∀ r : Nat, (p.matcher inp r).1 = false → (p.matcher inp r).2 = r) :
    ∃ k r : Nat, condition_matches (branch p) inp k st.cur = some r ∧
      (p.matcher inp r).1 = false ∧
      ∀ (fuel : Nat) (next : NextParser) (args : List Value), inp.length - st.cur < fuel →
        while_ p fuel next inp st args = some (next { st with cur := r } args) := by
  obtain ⟨k, r, hk, hit, hstop⟩ :=
    condition_matches_reach_stop (branch p) inp hprog (inp.length - st.cur) st.cur (le_refl _)
  refine ⟨k, r, hit, hstop, ?_⟩
  intro fuel next args hf
  obtain ⟨n, rfl⟩ : ∃ n, fuel = n + 1 := ⟨fuel - 1, by omega⟩
  have h1 := _while_condition_loop_stops (branch p) inp k st.cur r hit hstop
  have h2 := _while_condition_loop_mono (branch p) inp _ (k + 1) (n + 1) st.cur (by omega) h1
  have h3 : ((branch p).condition_matcher inp r).2 = r := hrestore r hstop
  rw [h3] at h2
  simp only [while_, _while_parse]
  rw [h2]
  simp [branch]

/-- C14 (`while_` matches as often as possible and adds no arguments). For a pattern
without a `then` whose matches consume at least one unit inside the input and whose failed
match leaves the reader alone: with enough fuel `while_(p)` returns the continuation's
result, the continuation being called on exactly the arguments `while_` was given, at the
reader position `r` reached after `k` matches in a row where `p` does not match again. -/
theorem while_matches_as_often_as_possible (p : Pattern) (inp : List Code) (st : State)
    (hprog : ∀ r : Nat, (p.matcher inp r).1 = true →
      r < (p.matcher inp r).2 ∧ (p.matcher inp r).2 ≤ inp.length)
    (hrestore : ∀ r : Nat, (p.matcher inp r).1 = false → (p.matcher inp r).2 = r) :
    ∃ k r : Nat, condition_matches (branch p) inp k st.cur = some r ∧
      (p.matcher inp r).1 = false ∧
      ∀ (fuel : Nat) (next : NextParser) (args : List Value), inp.length - st.cur < fuel →
        while_ p fuel next inp st args = some (next { st with cur := r } args) :=
  while_condition_only p inp st hprog hrestore

/-- Witness of C14: `terminator(LIT(";")).while_(LIT("abc"))` consumes 1, 4 and 7 units on
zero, one and two copies of a, b, c followed by the semicolon. -/
theorem while_matches_witness :
    (∃ k r : Nat,
      condition_matches (branch abc) ['a', 'b', 'c', 'a', 'b', 'c', ';'] k 0 = some r ∧
      (abc.matcher ['a', 'b', 'c', 'a', 'b', 'c', ';'] r).1 = false ∧
      ∀ (fuel : Nat) (next : NextParser) (args : List Value),
        ['a', 'b', 'c', 'a', 'b', 'c', ';'].length - 0 < fuel →
        while_ abc fuel next ['a', 'b', 'c', 'a', 'b', 'c', ';'] start args =
          some (next { start with cur := r } args)) ∧
    condition_matches (branch abc) ['a', 'b', 'c', 'a', 'b', 'c', ';'] 2 0 = some 6 ∧
    terminator_while semicolon abc 1 accept [';'] start [] =
      some (true, ⟨1, [], [⟨1, 0, 1⟩]⟩) ∧
    terminator_while semicolon abc 2 accept ['a', 'b', 'c', ';'] start [] =
      some (true, ⟨4, [], [⟨1, 3, 4⟩]⟩) ∧
    terminator_while semicolon abc 3 accept ['a', 'b', 'c', 'a', 'b', 'c', ';'] start [] =
      some (true, ⟨7, [], [⟨1, 6, 7⟩]⟩) :=
  ⟨while_matches_as_often_as_possible abc ['a', 'b', 'c', 'a', 'b', 'c', ';'] start
      (fun r h => lit_pattern_matcher ['a', 'b', 'c'] (by simp) _ r h)
      (fun r h => token_pattern_matcher_restores _ _ r h),
    by decide, by decide, by decide, by decide⟩

/-- C16 (`do_while(t, c)` is `t + while_(c >> t)`). The parser of `do_while(t, c)` is the
sequence of `t` and `while_(c >> t)`: same result and final state on every input. `t` is
parsed once, and its failure is the failure of the whole; after `k` further rounds of `c`
matching and `t` parsing, the continuation runs where `c` does not match, and a failure of
`t` after `c` matched is the failure of the whole. -/
theorem do_while_is_then_then_while (t c : Pattern) (fuel : Nat) (next : NextParser)
    (inp : List Code) (st : State) (args : List Value) :
    do_while t c fuel next inp st args =
      _seq_parse t.rule (fun s a => _while_parse (branch_then c t) next inp fuel s a)
        inp st args ∧
    (∀ s : State, t.rule.parse inp st = .failed s →
      do_while t c fuel next inp st args = some (false, s)) ∧
    (∀ (s : State) (vals : List Value), t.rule.parse inp st = .succeeded s vals →
      ∀ (k : Nat) (h : State × List Value),
        parser_iterations (branch_then c t) inp k (s, args ++ vals) = some h → k < fuel →
        ((c.matcher inp h.1.cur).1 = false →
          do_while t c fuel next inp st args =
            some (next { h.1 with cur := (c.matcher inp h.1.cur).2 } h.2)) ∧
        (∀ s2 : State, (c.matcher inp h.1.cur).1 = true →
          t.rule.parse inp { h.1 with cur := (c.matcher inp h.1.cur).2 } = .failed s2 →
          do_while t c fuel next inp st args = some (false, s2))) := by
  refine ⟨rfl, ?_, ?_⟩
  · intro s h
    simp [do_while, _seq_parse, h]
  · intro s vals h k hd hit hk
    constructor
    · intro hc
      simp only [do_while, _seq_parse, h]
      exact _while_parse_mono _ next inp _ (k + 1) fuel s _ (by omega)
        (_while_parse_stops (branch_then c t) next inp rfl k s _ hd hit hc)
    · intro s2 hc hf
      simp only [do_while, _seq_parse, h]
      exact _while_parse_mono _ next inp _ (k + 1) fuel s _ (by omega)
        (_while_parse_fails (branch_then c t) next inp rfl s2 k s _ hd hit hc hf)

/-- Witness of C16: `do_while(b, a)` on b, a, b, a, b, c consumes 5 units; on b, a, c it fails
with the error of b at 2; on a, b it fails at once. -/
theorem do_while_witness :
    do_while (lexy.lit_c 'b').pattern (lexy.lit_c 'a').pattern 3 accept
        ['b', 'a', 'b', 'a', 'b', 'c'] start [] =
      some (true, ⟨5, [], [⟨1, 0, 1⟩, ⟨1, 2, 3⟩, ⟨1, 4, 5⟩]⟩) ∧
    do_while (lexy.lit_c 'b').pattern (lexy.lit_c 'a').pattern 3 accept
        ['b', 'a', 'c'] start [] =
      some (false, ⟨2, [Error.expected_literal 2 0], [⟨1, 0, 1⟩]⟩) ∧
    do_while (lexy.lit_c 'b').pattern (lexy.lit_c 'a').pattern 3 accept ['a', 'b'] start [] =
      some (false, ⟨0, [Error.expected_literal 0 0], []⟩) ∧
    (∀ (fuel : Nat) (next : NextParser), 0 < fuel →
      do_while (lexy.lit_c 'b').pattern (lexy.lit_c 'a').pattern fuel next ['b', 'a', 'c']
          start [] =
        some (false, ⟨2, [Error.expected_literal 2 0], [⟨1, 0, 1⟩]⟩)) :=
  ⟨by decide, by decide, by decide,
    fun fuel next hf =>
      ((do_while_is_then_then_while (lexy.lit_c 'b').pattern (lexy.lit_c 'a').pattern fuel next
        ['b', 'a', 'c'] start []).2.2 ⟨1, [], [⟨1, 0, 1⟩]⟩ [] rfl 0
        (⟨1, [], [⟨1, 0, 1⟩]⟩, []) rfl hf).2 ⟨2, [Error.expected_literal 2 0], [⟨1, 0, 1⟩]⟩
        rfl rfl⟩

/-! ## Productions -/

/-- `_prd_parser_parse` in terms of the run of the production's rule in the child context. -/
theorem _prd_parser_parse_unfold (Production : Nat) (Rule : ProductionRule) (next : ContextParser)
    (inp : List Code) (context : Context) (st : State) (args : List Value) :
    _prd_parser_parse Production Rule next inp context st args =
      (match (Rule.parse inp (context.production_context Production st.cur) st).1 with
      | .void =>
        next context (Rule.parse inp (context.production_context Production st.cur) st).2 args
      | .value v =>
        next context (Rule.parse inp (context.production_context Production st.cur) st).2
          (args ++ [v])
      | .failure =>
        (Result.failure,
          (Rule.parse inp (context.production_context Production st.cur) st).2)) := by
  rfl

/-- The branch form in terms of the run of the rest of the rule in the child context. -/
theorem _prd_branch_matcher_parse_unfold (m : _prd_branch_matcher) (mem : Nat)
    (next : ContextParser) (inp : List Code) (context : Context) (st : State)
    (args : List Value) :
    m.parse mem next inp context st args =
      (match (m._impl.parse mem inp (context.production_context m.Production st.cur) st).1 with
      | .void =>
        next context
          (m._impl.parse mem inp (context.production_context m.Production st.cur) st).2 args
      | .value v =>
        next context
          (m._impl.parse mem inp (context.production_context m.Production st.cur) st).2
          (args ++ [v])
      | .failure =>
        (Result.failure,
          (m._impl.parse mem inp (context.production_context m.Production st.cur) st).2)) := by
  rfl

/-- The branch matcher of `p<P>` is for the production `P`. -/
theorem _prd_branch_matcher_tag (P : Production) (m : _prd_branch_matcher)
    (hm : (p P).branch_matcher = some m) : m.Production = P.tag := by
  simp only [_prd.branch_matcher, p, _prd._rule, Option.map_eq_some'] at hm
  obtain ⟨impl, _, rfl⟩ := hm
  rfl

/-- C17 (production value forwarding), for `p<P>`, `recurse<P>` and the branch form of
`p<P>`. When the rule of `P`, run in the child context, succeeds with a value `v`, the
result is the continuation's on the caller's arguments followed by `v`; when it succeeds
without a value, the continuation's on the arguments unchanged; when it fails, the result
is the failure with the state the rule left, whatever the continuation is. -/
theorem production_value_forwarding (P : Production) (next : ContextParser)
    (inp : List Code) (context : Context) (st : State) (args : List Value) :
    (∀ (v : Value) (s : State),
      P.rule.parse inp (context.production_context P.tag st.cur) st = (Result.value v, s) →
      (p P).parser next inp context st args = next context s (args ++ [v]) ∧
      (recurse P).parser next inp context st args = next context s (args ++ [v])) ∧
    (∀ s : State,
      P.rule.parse inp (context.production_context P.tag st.cur) st = (Result.void, s) →
      (p P).parser next inp context st args = next context s args ∧
      (recurse P).parser next inp context st args = next context s args) ∧
    (∀ s : State,
      P.rule.parse inp (context.production_context P.tag st.cur) st = (Result.failure, s) →
      ∀ next1 : ContextParser,
        (p P).parser next1 inp context st args = (Result.failure, s) ∧
        (recurse P).parser next1 inp context st args = (Result.failure, s)) ∧
    (∀ (m : _prd_branch_matcher) (mem : Nat), (p P).branch_matcher = some m →
      (∀ (v : Value) (s : State),
        m._impl.parse mem inp (context.production_context P.tag st.cur) st =
          (Result.value v, s) →
        m.parse mem next inp context st args = next context s (args ++ [v])) ∧
      (∀ s : State,
        m._impl.parse mem inp (context.production_context P.tag st.cur) st =
          (Result.void, s) →
        m.parse mem next inp context st args = next context s args) ∧
      (∀ s : State,
        m._impl.parse mem inp (context.production_context P.tag st.cur) st =
          (Result.failure, s) →
        ∀ next1 : ContextParser,
          m.parse mem next1 inp context st args = (Result.failure, s))) := by
  refine ⟨?_, ?_, ?_, ?_⟩
  · intro v s h
    have h1 : _prd_parser_parse P.tag P.rule next inp context st args = next context s (args ++ [v]) := by
      rw [_prd_parser_parse_unfold]; simp only [h]
    exact ⟨h1, h1⟩
  · intro s h
    have h1 : _prd_parser_parse P.tag P.rule next inp context st args = next context s args := by
      rw [_prd_parser_parse_unfold]; simp only [h]
    exact ⟨h1, h1⟩
  · intro s h next1
    have h1 : _prd_parser_parse P.tag P.rule next1 inp context st args = (Result.failure, s) := by
      rw [_prd_parser_parse_unfold]; simp only [h]
    exact ⟨h1, h1⟩
  · intro m mem hm
    have htag := _prd_branch_matcher_tag P m hm
    refine ⟨?_, ?_, ?_⟩
    · intro v s h
      rw [_prd_branch_matcher_parse_unfold, htag]; simp only [h]
    · intro s h
      rw [_prd_branch_matcher_parse_unfold, htag]; simp only [h]
    · intro s h next1
      rw [_prd_branch_matcher_parse_unfold, htag]; simp only [h]

/-- Witness of C17: a production whose rule yields 5, parsed after the argument 7, hands 7, 5
to the continuation; a rule without a value hands over 7 alone; a failing rule gives the
failure. -/
theorem production_value_forwarding_witness :
    (p ⟨3, depth_rule⟩).parser
        (fun _ s a => (Result.value (Value.num a.length), context_token s 9 0 0))
        ['x'] ⟨[]⟩ start [Value.num 7] =
      (fun (_ : Context) s a => (Result.value (Value.num (List.length a)), context_token s 9 0 0))
        ⟨[]⟩ ⟨1, [], [⟨8, 1, 0⟩]⟩ ([Value.num 7] ++ [Value.num 5]) ∧
    (p ⟨3, depth_rule⟩).parser record_depth ['x'] ⟨[]⟩ start [Value.num 7] =
      (Result.value (Value.num 2), ⟨1, [], [⟨8, 1, 0⟩, ⟨9, 0, 0⟩]⟩) ∧
    (p ⟨4, a_branch_rule⟩).parser record_depth ['a'] ⟨[]⟩ start [Value.num 7] =
      (Result.value (Value.num 1), ⟨1, [], [⟨8, 1, 0⟩, ⟨9, 0, 0⟩]⟩) ∧
    (recurse ⟨5, failing_rule⟩).parser record_depth ['a'] ⟨[]⟩ start [Value.num 7] =
      (Result.failure, ⟨0, [Error.expected_literal 0 0], []⟩) :=
  ⟨((production_value_forwarding ⟨3, depth_rule⟩
      (fun _ s a => (Result.value (Value.num a.length), context_token s 9 0 0))
      ['x'] ⟨[]⟩ start [Value.num 7]).1 (Value.num 5) ⟨1, [], [⟨8, 1, 0⟩]⟩ rfl).1,
    by decide, by decide, by decide⟩

/-- C18 (branch inheritance). `p<P>` is a branch exactly when the rule of `P` is, and it has a
branch matcher exactly then; that matcher has the unconditional flag of the rule's matcher,
and its `match` is the rule's `match` on the caller's own context and state: same result,
same state after it, no production context entered. `recurse<P>` is not a branch. -/
theorem production_branch_inheritance (P : Production) :
    (p P).is_branch = P.rule.is_branch ∧
    (p P).branch_matcher.isSome = P.rule.is_branch ∧
    (∀ impl : branch_matcher, P.rule.branch = some impl →
      ∃ m : _prd_branch_matcher, (p P).branch_matcher = some m ∧
        m.is_unconditional = impl.is_unconditional ∧
        ∀ (inp : List Code) (context : Context) (st : State),
          m.match_ inp context st = impl.match_ inp context st) ∧
    (recurse P).is_branch = false := by
  refine ⟨rfl, ?_, ?_, rfl⟩
  · simp [_prd.branch_matcher, p, _prd._rule, ProductionRule.is_branch]
  · intro impl h
    refine ⟨⟨P.tag, impl⟩, ?_, rfl, fun _ _ _ => rfl⟩
    simp [_prd.branch_matcher, p, _prd._rule, h]

/-- Witness of C18: a production with a branch rule and one without; the condition is
matched in the caller's context, of depth 1. -/
theorem production_branch_inheritance_witness :
    (p ⟨4, a_branch_rule⟩).is_branch = true ∧
    (recurse ⟨4, a_branch_rule⟩).is_branch = false ∧
    (p ⟨3, depth_rule⟩).is_branch = false ∧
    ((p ⟨4, a_branch_rule⟩).branch_matcher.map
        (fun m => (m.is_unconditional, m.match_ ['a'] ⟨[⟨1, 0⟩]⟩ start))) =
      some (false, true, ⟨1, [], [⟨7, 1, 0⟩]⟩, 0) ∧
    (a_branch_rule.branch.map
        (fun m => (m.is_unconditional, m.match_ ['a'] ⟨[⟨1, 0⟩]⟩ start))) =
      some (false, true, ⟨1, [], [⟨7, 1, 0⟩]⟩, 0) ∧
    (p ⟨4, a_branch_rule⟩).branch_matcher.isSome =
      (⟨4, a_branch_rule⟩ : Production).rule.is_branch :=
  ⟨by decide, by decide, by decide, by decide, by decide,
    (production_branch_inheritance ⟨4, a_branch_rule⟩).2.1⟩

/-- C19 (`recurse<P>` parses like `p<P>`). For every production, continuation, input,
context, state and argument list the two parsers give the same result and the same final
state; both are the same continuation call, or the same failure, after the run of the
rule of `P` in the child context. -/
theorem recurse_parses_like_p (P : Production) (next : ContextParser) (inp : List Code)
    (context : Context) (st : State) (args : List Value) :
    (recurse P).parser next inp context st args = (p P).parser next inp context st args ∧
    (recurse P).parser next inp context st args =
      (match (P.rule.parse inp (context.production_context P.tag st.cur) st).1 with
      | .void =>
        next context (P.rule.parse inp (context.production_context P.tag st.cur) st).2 args
      | .value v =>
        next context (P.rule.parse inp (context.production_context P.tag st.cur) st).2
          (args ++ [v])
      | .failure =>
        (Result.failure,
          (P.rule.parse inp (context.production_context P.tag st.cur) st).2)) := by
  constructor
  · rfl
  · exact _prd_parser_parse_unfold P.tag P.rule next inp context st args

/-- Witness of C19: a production whose rule is a branch, parsed both ways on a matching
and on a failing input. -/
theorem recurse_parses_like_p_witness :
    (recurse ⟨4, a_branch_rule⟩).parser record_depth ['a'] ⟨[⟨1, 0⟩]⟩ start [] =
      (Result.value (Value.num 0), ⟨1, [], [⟨8, 2, 0⟩, ⟨9, 1, 0⟩]⟩) ∧
    (p ⟨4, a_branch_rule⟩).parser record_depth ['a'] ⟨[⟨1, 0⟩]⟩ start [] =
      (Result.value (Value.num 0), ⟨1, [], [⟨8, 2, 0⟩, ⟨9, 1, 0⟩]⟩) ∧
    (recurse ⟨4, a_branch_rule⟩).parser record_depth ['b'] ⟨[⟨1, 0⟩]⟩ start [] =
      (p ⟨4, a_branch_rule⟩).parser record_depth ['b'] ⟨[⟨1, 0⟩]⟩ start [] :=
  ⟨by decide, by decide,
    (recurse_parses_like_p ⟨4, a_branch_rule⟩ record_depth ['b'] ⟨[⟨1, 0⟩]⟩ start []).1⟩

/-- C20 (production scoping). The child context is the caller's chain with exactly one frame
more, the frame of `P`. The parse consults the rule of `P` only through its run in that
child context. When that run fails the result is the failure; otherwise the result is the
continuation's, called on the caller's context itself, so the chain the continuation sees
is the chain before the call. The same holds for the branch form. -/
theorem production_scoping (P : Production) (next : ContextParser) (inp : List Code)
    (context : Context) (st : State) (args : List Value) :
    (context.production_context P.tag st.cur).stack = ⟨P.tag, st.cur⟩ :: context.stack ∧
    (∀ Q : Production, Q.tag = P.tag →
      Q.rule.parse inp (context.production_context P.tag st.cur) st =
        P.rule.parse inp (context.production_context P.tag st.cur) st →
      (p Q).parser next inp context st args = (p P).parser next inp context st args ∧
      (recurse Q).parser next inp context st args =
        (recurse P).parser next inp context st args) ∧
    ((P.rule.parse inp (context.production_context P.tag st.cur) st).1 = Result.failure →
      (p P).parser next inp context st args =
        (Result.failure, (P.rule.parse inp (context.production_context P.tag st.cur) st).2)) ∧
    ((P.rule.parse inp (context.production_context P.tag st.cur) st).1 ≠ Result.failure →
      ∃ a : List Value,
        (p P).parser next inp context st args =
          next context (P.rule.parse inp (context.production_context P.tag st.cur) st).2 a) ∧
    (∀ (m : _prd_branch_matcher) (mem : Nat), (p P).branch_matcher = some m →
      ((m._impl.parse mem inp (context.production_context P.tag st.cur) st).1 =
          Result.failure →
        m.parse mem next inp context st args =
          (Result.failure,
            (m._impl.parse mem inp (context.production_context P.tag st.cur) st).2)) ∧
      ((m._impl.parse mem inp (context.production_context P.tag st.cur) st).1 ≠
          Result.failure →
        ∃ a : List Value,
          m.parse mem next inp context st args =
            next context
              (m._impl.parse mem inp (context.production_context P.tag st.cur) st).2 a)) := by
  refine ⟨rfl, ?_, ?_, ?_, ?_⟩
  · intro Q htag hQ
    have h1 : _prd_parser_parse Q.tag Q.rule next inp context st args =
        _prd_parser_parse P.tag P.rule next inp context st args := by
      rw [_prd_parser_parse_unfold, _prd_parser_parse_unfold, htag, hQ]
    exact ⟨h1, h1⟩
  · intro h
    show _prd_parser_parse P.tag P.rule next inp context st args = _
    rw [_prd_parser_parse_unfold]
    simp only [h]
  · intro h
    show ∃ a, _prd_parser_parse P.tag P.rule next inp context st args = _
    rw [_prd_parser_parse_unfold]
    cases hr : (P.rule.parse inp (context.production_context P.tag st.cur) st).1 with
    | failure => exact absurd hr h
    | void => exact ⟨args, rfl⟩
    | value v => exact ⟨args ++ [v], rfl⟩
  · intro m mem hm
    have htag := _prd_branch_matcher_tag P m hm
    constructor
    · intro h
      rw [_prd_branch_matcher_parse_unfold, htag]
      simp only [h]
    · intro h
      rw [_prd_branch_matcher_parse_unfold, htag]
      cases hr : (m._impl.parse mem inp (context.production_context P.tag st.cur) st).1 with
      | failure => exact absurd hr h
      | void => exact ⟨args, rfl⟩
      | value v => exact ⟨args ++ [v], rfl⟩

/-- Witness of C20: in a context of depth 2 the rule of the production runs at depth 3 and
the continuation at depth 2, for `p` and for `recurse`; a failing rule leaves no call. -/
theorem production_scoping_witness :
    (p ⟨3, depth_rule⟩).parser record_depth ['x', 'y'] ⟨[⟨1, 0⟩, ⟨0, 0⟩]⟩ ⟨1, [], []⟩ [] =
      (Result.value (Value.num 1), ⟨2, [], [⟨8, 3, 1⟩, ⟨9, 2, 0⟩]⟩) ∧
    (recurse ⟨3, depth_rule⟩).parser record_depth ['x', 'y'] ⟨[⟨1, 0⟩, ⟨0, 0⟩]⟩ ⟨1, [], []⟩ [] =
      (Result.value (Value.num 1), ⟨2, [], [⟨8, 3, 1⟩, ⟨9, 2, 0⟩]⟩) ∧
    (p ⟨5, failing_rule⟩).parser record_depth ['x', 'y'] ⟨[⟨1, 0⟩, ⟨0, 0⟩]⟩ ⟨1, [], []⟩ [] =
      (Result.failure, ⟨1, [Error.expected_literal 1 0], []⟩) ∧
    (∃ a : List Value,
      (p ⟨3, depth_rule⟩).parser record_depth ['x', 'y'] ⟨[⟨1, 0⟩, ⟨0, 0⟩]⟩ ⟨1, [], []⟩ [] =
        record_depth ⟨[⟨1, 0⟩, ⟨0, 0⟩]⟩
          (depth_rule.parse ['x', 'y']
            (Context.production_context ⟨[⟨1, 0⟩, ⟨0, 0⟩]⟩ 3 1) ⟨1, [], []⟩).2 a) :=
  ⟨by decide, by decide, by decide,
    (production_scoping ⟨3, depth_rule⟩ record_depth ['x', 'y'] ⟨[⟨1, 0⟩, ⟨0, 0⟩]⟩
      ⟨1, [], []⟩ []).2.2.2.1 (by decide)⟩

/-! ## The shorthand, the precedence in the loop, and the matcher's exits -/

/-- C21 (single-delimiter shorthand). `delimited(d)` is `delimited(d, d)`: the same builder,
with `d` as opening and as closing rule, so for every content token, escape, continuation,
sink and input the two parses are equal: same result and same final state (reader,
errors, tokens), the same sink handed to `finish`. Each of the six predefined delimiters
is `delimited` of one literal used for open and for close. -/
theorem delimited_single_delimiter_shorthand (d : BranchRule) (Char : Token) (Escape : Branch)
    (fuel : Nat) (next : NextParser) (finish : Sink → Value) (inp : List Code) (st : State)
    (args : List Value) :
    delimited_delim d = delimited d d ∧
    (delimited_delim d).open_ = d ∧ (delimited_delim d).close = d ∧
    (delimited_delim d).parse Char fuel next finish inp st args =
      (delimited d d).parse Char fuel next finish inp st args ∧
    (delimited_delim d).parse_escape Char Escape fuel next finish inp st args =
      (delimited d d).parse_escape Char Escape fuel next finish inp st args ∧
    (∀ x ∈ [quoted, triple_quoted, single_quoted, backticked, double_backticked,
        triple_backticked],
      x.Open = x.Close ∧
      ∃ str : List Code, x = delimited (LEXY_LIT str).rule (LEXY_LIT str).rule) := by
  refine ⟨rfl, rfl, rfl, rfl, rfl, ?_⟩
  intro x hx
  simp only [List.mem_cons, List.mem_singleton, List.not_mem_nil, or_false] at hx
  rcases hx with rfl | rfl | rfl | rfl | rfl | rfl
  · exact ⟨rfl, _, rfl⟩
  · exact ⟨rfl, _, rfl⟩
  · exact ⟨rfl, _, rfl⟩
  · exact ⟨rfl, _, rfl⟩
  · exact ⟨rfl, _, rfl⟩
  · exact ⟨rfl, _, rfl⟩

/-- Witness of C21: the quote literal given once and given twice, on a terminated input and,
with the escape of the scenarios, on an unterminated one. -/
theorem delimited_shorthand_witness :
    (delimited_delim (LEXY_LIT [dquote]).rule).parse not_quote 4 accept count_calls
        [dquote, 'a', 'b', 'c', dquote] start [] =
      some (true, ⟨5, [], [⟨1, 0, 1⟩, ⟨2, 1, 2⟩, ⟨2, 2, 3⟩, ⟨2, 3, 4⟩, ⟨1, 4, 5⟩]⟩) ∧
    (delimited (LEXY_LIT [dquote]).rule (LEXY_LIT [dquote]).rule).parse not_quote 4 accept
        count_calls [dquote, 'a', 'b', 'c', dquote] start [] =
      some (true, ⟨5, [], [⟨1, 0, 1⟩, ⟨2, 1, 2⟩, ⟨2, 2, 3⟩, ⟨2, 3, 4⟩, ⟨1, 4, 5⟩]⟩) ∧
    (delimited_delim (LEXY_LIT [dquote]).rule).parse_escape any_char backslash_n 4 accept
        count_calls a_escape_open start [] =
      (delimited (LEXY_LIT [dquote]).rule (LEXY_LIT [dquote]).rule).parse_escape any_char
        backslash_n 4 accept count_calls a_escape_open start [] :=
  ⟨by decide, by decide,
    (delimited_single_delimiter_shorthand (LEXY_LIT [dquote]).rule any_char backslash_n 4 accept
      count_calls a_escape_open start []).2.2.2.2.1⟩

/-- C23 (precedence inside the loop with escapes): close, end-of-input guard, escape,
content. Where `Close` matches or cancels, the body is the result of the close whatever
`Escape` and `Char` are; where `Close` backtracked at the end of input, the body is the
`missing_delimiter` failure whatever `Escape` and `Char` are; where `Escape` matches or
cancels, the body is the escape's outcome whatever `Char` is, and the sink gets the values
of the escape and no lexeme; only where `Escape` backtracks is `Char` matched. -/
theorem delimited_loop_precedence (next : NextParser) (finish : Sink → Value) (Close : Branch)
    (Char : Token) (Escape : Branch) (inp : List Code) (args : List Value) (del_begin : Nat)
    (st : State) (sink : Sink) :
    (∀ (s : State) (cv : List Value), Close.try_ inp st = .matched s cv →
      ∀ (Char1 : Token) (Escape1 : Branch),
        _del_body next finish Close Char1 Escape1 inp args del_begin st sink =
          .done (next s (args ++ [finish sink] ++ cv))) ∧
    (∀ s : State, Close.try_ inp st = .canceled s →
      ∀ (Char1 : Token) (Escape1 : Branch),
        _del_body next finish Close Char1 Escape1 inp args del_begin st sink =
          .done (false, s)) ∧
    (∀ s : State, Close.try_ inp st = .backtracked s → reader_eof inp s = true →
      ∀ (Char1 : Token) (Escape1 : Branch),
        _del_body next finish Close Char1 Escape1 inp args del_begin st sink =
          .done (false, context_error s (.missing_delimiter del_begin s.cur))) ∧
    (∀ (s s2 : State) (vals : List Value), Close.try_ inp st = .backtracked s →
      reader_eof inp s = false → Escape.try_ inp s = .matched s2 vals →
      ∀ Char1 : Token,
        _del_body next finish Close Char1 Escape inp args del_begin st sink =
          .again s2 (if vals.isEmpty then sink else sink ++ [vals])) ∧
    (∀ s s2 : State, Close.try_ inp st = .backtracked s →
      reader_eof inp s = false → Escape.try_ inp s = .canceled s2 →
      ∀ Char1 : Token,
        _del_body next finish Close Char1 Escape inp args del_begin st sink =
          .done (false, s2)) ∧
    (∀ s s3 : State, Close.try_ inp st = .backtracked s →
      reader_eof inp s = false → Escape.try_ inp s = .backtracked s3 →
      _del_body next finish Close Char Escape inp args del_begin st sink =
        _del_char Char inp s3 sink) := by
  refine ⟨?_, ?_, ?_, ?_, ?_, ?_⟩
  · intro s cv h Char1 Escape1
    exact _del_body_matched _ _ _ _ _ _ _ _ _ _ _ _ h
  · intro s h Char1 Escape1
    exact _del_body_canceled _ _ _ _ _ _ _ _ _ _ _ h
  · intro s h he Char1 Escape1
    rw [_del_body_backtracked _ _ _ _ _ _ _ _ _ _ _ h, he]
    rfl
  · intro s s2 vals h he hE Char1
    rw [_del_body_backtracked _ _ _ _ _ _ _ _ _ _ _ h, he, hE]
    rfl
  · intro s s2 h he hE Char1
    rw [_del_body_backtracked _ _ _ _ _ _ _ _ _ _ _ h, he, hE]
    rfl
  · intro s s3 h he hE
    rw [_del_body_backtracked _ _ _ _ _ _ _ _ _ _ _ h, he, hE]
    rfl

/-- Witness of C23: on quote, a, backslash, n, b, quote with a content token that accepts
every unit, the backslash is taken by the escape and the closing quote by `Close`, though
the content token accepts both; at the end of an unterminated input the body fails. -/
theorem delimited_loop_precedence_witness :
    (any_char.accepts a_escape_b 2 ∧ (any_char.engine a_escape_b 2).2 = 3 ∧
      _del_body accept count_calls quoted.Close.toBranch any_char backslash_n a_escape_b [] 1
          ⟨2, [], []⟩ [[Value.lexeme 1 2]] =
        .again ⟨4, [], [⟨1, 2, 3⟩, ⟨1, 3, 4⟩]⟩ [[Value.lexeme 1 2], [Value.code newline]]) ∧
    (any_char.accepts a_escape_b 5 ∧ (any_char.engine a_escape_b 5).2 = 6 ∧
      _del_body accept count_calls quoted.Close.toBranch any_char backslash_n a_escape_b [] 1
          ⟨5, [], []⟩ [] =
        .done (true, ⟨6, [], [⟨1, 5, 6⟩]⟩)) ∧
    _del_body accept count_calls quoted.Close.toBranch any_char backslash_n a_escape_open [] 1
        ⟨5, [], []⟩ [] =
      .done (false, ⟨5, [Error.missing_delimiter 1 5], []⟩) := by
  refine ⟨⟨fun _ => rfl, rfl, by decide⟩, ⟨fun _ => rfl, rfl, by decide⟩, by decide⟩

/-- C29 (the matcher of `while_` is all-or-nothing). Whenever the matcher returns `false`,
the reader is at the position it had when the matcher was entered. Whenever it returns
`true`, the reader is where the condition left it at a loop head, reached after some
number of complete iterations, at which the condition did not match: at that loop head
itself when a failed condition leaves the reader alone. -/
theorem while_matcher_all_or_nothing (B : PatternBranch) (inp : List Code) (reader fuel : Nat)
    (res : Bool × Nat) (h : _while_matcher_match fuel B inp reader = some res) :
    (res.1 = false → res.2 = reader) ∧
    (res.1 = true →
      ∃ k r : Nat, matcher_iterations B inp k reader = some r ∧
        (B.condition_matcher inp r).1 = false ∧ res.2 = (B.condition_matcher inp r).2 ∧
        ((∀ q : Nat, (B.condition_matcher inp q).1 = false →
            (B.condition_matcher inp q).2 = q) → res.2 = r)) := by
  obtain ⟨k, r, _, hit, hor⟩ := _while_matcher_loop_inv B inp reader res fuel reader h
  rcases hor with ⟨hc, hr⟩ | ⟨_, _, hr⟩
  · constructor
    · intro hf; rw [hr] at hf; cases hf
    · intro _
      refine ⟨k, r, hit, hc, by rw [hr], ?_⟩
      intro hrestore
      rw [hr]
      exact hrestore r hc
  · constructor
    · intro _; rw [hr]
    · intro ht; rw [hr] at ht; cases ht

/-- Witness of C29: `a >> b` entered at 1; on x, a, b, a, c it returns `false` at 1, on
x, a, b, a, b, c it returns `true` at 5, where the condition does not match. -/
theorem while_matcher_all_or_nothing_witness :
    ((((false, 1) : Bool × Nat).1 = false → ((false, 1) : Bool × Nat).2 = 1) ∧
      (((false, 1) : Bool × Nat).1 = true →
        ∃ k r : Nat, matcher_iterations a_then_b ['x', 'a', 'b', 'a', 'c'] k 1 = some r ∧
          (a_then_b.condition_matcher ['x', 'a', 'b', 'a', 'c'] r).1 = false ∧
          ((false, 1) : Bool × Nat).2 = (a_then_b.condition_matcher ['x', 'a', 'b', 'a', 'c'] r).2 ∧
          ((∀ q : Nat, (a_then_b.condition_matcher ['x', 'a', 'b', 'a', 'c'] q).1 = false →
              (a_then_b.condition_matcher ['x', 'a', 'b', 'a', 'c'] q).2 = q) →
            ((false, 1) : Bool × Nat).2 = r))) ∧
    _while_matcher_match 3 a_then_b ['x', 'a', 'b', 'a', 'c'] 1 = some (false, 1) ∧
    _while_matcher_match 3 a_then_b ['x', 'a', 'b', 'a', 'b', 'c'] 1 = some (true, 5) ∧
    (a_then_b.condition_matcher ['x', 'a', 'b', 'a', 'b', 'c'] 5).1 = false :=
  ⟨while_matcher_all_or_nothing a_then_b ['x', 'a', 'b', 'a', 'c'] 1 3 (false, 1) (by decide),
    by decide, by decide, by decide⟩

/-! ## Zero-width content, termination, and reporting before failing -/

/-- A content token that matches with zero width keeps the escape-free loop at the same
loop head, with one more token event and one more empty lexeme each time round. -/
theorem void_loop_livelock (next : NextParser) (finish : Sink → Value) (Close : Branch)
    (Char : Token) (inp : List Code) (args : List Value) (b p : Nat) (errs : List Error)
    (hne : p < inp.length)
    (hclose : ∀ s : State, s.cur = p → Close.try_ inp s = .backtracked s)
    (hacc : Char.accepts inp p) (hzero : (Char.engine inp p).2 = p) :
    ∀ (n : Nat) (toks : List TokenEvent) (sink : Sink),
      _del_void_loop next finish Close Char inp args b n ⟨p, errs, toks⟩ sink = none ∧
      _del_void_heads next finish Close Char inp args b n ⟨p, errs, toks⟩ sink =
        (List.range n).map (fun i =>
          ((⟨p, errs, toks ++ List.replicate i ⟨Char.kind, p, p⟩⟩ : State),
            sink ++ List.replicate i [Value.lexeme p p])) := by
  intro n
  induction n with
  | zero => intro toks sink; exact ⟨rfl, rfl⟩
  | succ n ih =>
    intro toks sink
    have hb : _del_void_body next finish Close Char inp args b ⟨p, errs, toks⟩ sink =
        .again ⟨p, errs, toks ++ [⟨Char.kind, p, p⟩]⟩ (sink ++ [[Value.lexeme p p]]) := by
      rw [_del_void_body_backtracked _ _ _ _ _ _ _ _ _ _ (hclose ⟨p, errs, toks⟩ rfl)]
      have he : reader_eof inp ⟨p, errs, toks⟩ = false := by simp [reader_eof]; omega
      rw [he]
      simp only [Bool.false_eq_true, if_false]
      rw [_del_char_accepts _ _ _ _ hacc]
      simp only [hzero, context_token]
    obtain ⟨h1, h2⟩ := ih (toks ++ [⟨Char.kind, p, p⟩]) (sink ++ [[Value.lexeme p p]])
    refine ⟨by simp only [_del_void_loop, hb, h1], ?_⟩
    simp only [_del_void_heads, hb, h2, List.range_succ_eq_map, List.map_cons, List.map_map]
    simp only [List.replicate, List.append_nil, List.cons.injEq, true_and]
    apply List.map_congr_left
    intro i _
    simp [Function.comp, List.replicate_succ]

/-- The same for the loop with escapes, when the escape backtracks there too. -/
theorem loop_livelock (next : NextParser) (finish : Sink → Value) (Close : Branch)
    (Char : Token) (Escape : Branch) (inp : List Code) (args : List Value) (b p : Nat)
    (errs : List Error) (hne : p < inp.length)
    (hclose : ∀ s : State, s.cur = p → Close.try_ inp s = .backtracked s)
    (hesc : ∀ s : State, s.cur = p → Escape.try_ inp s = .backtracked s)
    (hacc : Char.accepts inp p) (hzero : (Char.engine inp p).2 = p) :
    ∀ (n : Nat) (toks : List TokenEvent) (sink : Sink),
      _del_loop next finish Close Char Escape inp args b n ⟨p, errs, toks⟩ sink = none ∧
      _del_heads next finish Close Char Escape inp args b n ⟨p, errs, toks⟩ sink =
        (List.range n).map (fun i =>
          ((⟨p, errs, toks ++ List.replicate i ⟨Char.kind, p, p⟩⟩ : State),
            sink ++ List.replicate i [Value.lexeme p p])) := by
  intro n
  induction n with
  | zero => intro toks sink; exact ⟨rfl, rfl⟩
  | succ n ih =>
    intro toks sink
    have hb : _del_body next finish Close Char Escape inp args b ⟨p, errs, toks⟩ sink =
        .again ⟨p, errs, toks ++ [⟨Char.kind, p, p⟩]⟩ (sink ++ [[Value.lexeme p p]]) := by
      rw [_del_body_backtracked _ _ _ _ _ _ _ _ _ _ _ (hclose ⟨p, errs, toks⟩ rfl)]
      have he : reader_eof inp ⟨p, errs, toks⟩ = false := by simp [reader_eof]; omega
      rw [he]
      simp only [Bool.false_eq_true, if_false, hesc ⟨p, errs, toks⟩ rfl]
      rw [_del_char_accepts _ _ _ _ hacc]
      simp only [hzero, context_token]
    obtain ⟨h1, h2⟩ := ih (toks ++ [⟨Char.kind, p, p⟩]) (sink ++ [[Value.lexeme p p]])
    refine ⟨by simp only [_del_loop, hb, h1], ?_⟩
    simp only [_del_heads, hb, h2, List.range_succ_eq_map, List.map_cons, List.map_map]
    simp only [List.replicate, List.append_nil, List.cons.injEq, true_and]
    apply List.map_congr_left
    intro i _
    simp [Function.comp, List.replicate_succ]

/-- C25 (livelock on empty content matches). At a loop head that is not at the end of input
and at which `Close` backtracks in place, a content token that accepts without consuming
keeps the escape-free loop running for ever: no amount of fuel gives a result, and the
loop head after `i` iterations has the reader at the same position, `i` more token events
and `i` more empty lexemes in the sink. The same holds for the loop with escapes when
`Escape` backtracks in place there. Nothing in the body rejects the zero-width match. -/
theorem delimited_livelock_on_empty_match (next : NextParser) (finish : Sink → Value)
    (Close : Branch) (Char : Token) (inp : List Code) (args : List Value) (del_begin : Nat)
    (st : State) (sink : Sink) (hne : reader_eof inp st = false)
    (hclose : ∀ s : State, s.cur = st.cur → Close.try_ inp s = .backtracked s)
    (hacc : Char.accepts inp st.cur) (hzero : (Char.engine inp st.cur).2 = st.cur) :
    (∀ n : Nat,
      _del_void_loop next finish Close Char inp args del_begin n st sink = none ∧
      _del_void_heads next finish Close Char inp args del_begin n st sink =
        (List.range n).map (fun i =>
          ((⟨st.cur, st.errors, st.tokens ++ List.replicate i ⟨Char.kind, st.cur, st.cur⟩⟩ :
              State),
            sink ++ List.replicate i [Value.lexeme st.cur st.cur]))) ∧
    (∀ Escape : Branch, (∀ s : State, s.cur = st.cur → Escape.try_ inp s = .backtracked s) →
      ∀ n : Nat,
        _del_loop next finish Close Char Escape inp args del_begin n st sink = none ∧
        _del_heads next finish Close Char Escape inp args del_begin n st sink =
          (List.range n).map (fun i =>
            ((⟨st.cur, st.errors,
                st.tokens ++ List.replicate i ⟨Char.kind, st.cur, st.cur⟩⟩ : State),
              sink ++ List.replicate i [Value.lexeme st.cur st.cur]))) := by
  have hlt : st.cur < inp.length := by simpa [reader_eof] using hne
  constructor
  · intro n
    exact void_loop_livelock next finish Close Char inp args del_begin st.cur st.errors hlt
      hclose hacc hzero n st.tokens sink
  · intro Escape hesc n
    exact loop_livelock next finish Close Char Escape inp args del_begin st.cur st.errors hlt
      hclose hesc hacc hzero n st.tokens sink

/-- The closing quote backtracks in place at the `a` of quote, a, quote. -/
theorem quote_backtracks_at_a (s : State) (h : s.cur = (⟨1, [], []⟩ : State).cur) :
    quoted.Close.toBranch.try_ [dquote, 'a', dquote] s = .backtracked s := by
  obtain ⟨c, e, t⟩ := s
  simp only at h
  subst h
  rfl

/-- Witness of C25: `quoted` with the empty literal as content on quote, a, quote: the loop
stays at position 1, pushing the empty lexeme from 1 to 1 each time round. -/
theorem delimited_livelock_witness :
    ((∀ n : Nat,
        _del_void_loop accept count_calls quoted.Close.toBranch empty_literal
            [dquote, 'a', dquote] [] 1 n ⟨1, [], []⟩ [] = none ∧
        _del_void_heads accept count_calls quoted.Close.toBranch empty_literal
            [dquote, 'a', dquote] [] 1 n ⟨1, [], []⟩ [] =
          (List.range n).map (fun i =>
            ((⟨1, [], [] ++ List.replicate i ⟨empty_literal.kind, 1, 1⟩⟩ : State),
              [] ++ List.replicate i [Value.lexeme 1 1]))) ∧
      (∀ Escape : Branch,
        (∀ s : State, s.cur = (⟨1, [], []⟩ : State).cur →
          Escape.try_ [dquote, 'a', dquote] s = .backtracked s) →
        ∀ n : Nat,
          _del_loop accept count_calls quoted.Close.toBranch empty_literal Escape
              [dquote, 'a', dquote] [] 1 n ⟨1, [], []⟩ [] = none ∧
          _del_heads accept count_calls quoted.Close.toBranch empty_literal Escape
              [dquote, 'a', dquote] [] 1 n ⟨1, [], []⟩ [] =
            (List.range n).map (fun i =>
              ((⟨1, [], [] ++ List.replicate i ⟨empty_literal.kind, 1, 1⟩⟩ : State),
                [] ++ List.replicate i [Value.lexeme 1 1])))) ∧
    _del_void_heads accept count_calls quoted.Close.toBranch empty_literal
        [dquote, 'a', dquote] [] 1 3 ⟨1, [], []⟩ [] =
      [(⟨1, [], []⟩, []), (⟨1, [], [⟨1, 1, 1⟩]⟩, [[Value.lexeme 1 1]]),
        (⟨1, [], [⟨1, 1, 1⟩, ⟨1, 1, 1⟩]⟩, [[Value.lexeme 1 1], [Value.lexeme 1 1]])] ∧
    quoted.parse empty_literal 50 accept count_calls [dquote, 'a', dquote] start [] = none :=
  ⟨delimited_livelock_on_empty_match accept count_calls quoted.Close.toBranch empty_literal
      [dquote, 'a', dquote] [] 1 ⟨1, [], []⟩ [] (by decide)
      (fun s h => quote_backtracks_at_a s h) (fun _ => rfl) rfl,
    by decide, by decide⟩

/-- With a content token that advances and a close that backtracks in place, the
escape-free loop returns within any fuel above the number of units left. -/
theorem void_loop_returns (next : NextParser) (finish : Sink → Value) (Close : Branch)
    (Char : Token) (inp : List Code) (args : List Value) (b : Nat)
    (hchar : ∀ p : Nat, Char.accepts inp p → p < (Char.engine inp p).2)
    (hclose : ∀ s t : State, Close.try_ inp s = .backtracked t → t.cur = s.cur) :
    ∀ (n : Nat) (st : State) (sink : Sink), inp.length - st.cur < n →
      ∃ r, _del_void_loop next finish Close Char inp args b n st sink = some r := by
  intro n
  induction n with
  | zero => intro st sink h; omega
  | succ n ih =>
    intro st sink h
    cases hb : _del_void_body next finish Close Char inp args b st sink with
    | done r => exact ⟨r, by simp only [_del_void_loop, hb]⟩
    | again st1 sink1 =>
      obtain ⟨s, hC, he, hacc, h1, _⟩ := _del_void_body_again _ _ _ _ _ _ _ _ _ _ _ hb
      have hs := hclose st s hC
      have hlt : s.cur < inp.length := by simpa [reader_eof] using he
      have hadv := hchar s.cur hacc
      have hcur : st1.cur = (Char.engine inp s.cur).2 := by rw [h1]; rfl
      obtain ⟨r, hr⟩ := ih st1 sink1 (by omega)
      exact ⟨r, by simp only [_del_void_loop, hb, hr]⟩

/-- The same for the loop with escapes, when a matching escape advances too. -/
theorem loop_returns (next : NextParser) (finish : Sink → Value) (Close : Branch)
    (Char : Token) (Escape : Branch) (inp : List Code) (args : List Value) (b : Nat)
    (hchar : ∀ p : Nat, Char.accepts inp p → p < (Char.engine inp p).2)
    (hclose : ∀ s t : State, Close.try_ inp s = .backtracked t → t.cur = s.cur)
    (hescm : ∀ (s t : State) (vals : List Value),
      Escape.try_ inp s = .matched t vals → s.cur < t.cur)
    (hescb : ∀ s t : State, Escape.try_ inp s = .backtracked t → t.cur = s.cur) :
    ∀ (n : Nat) (st : State) (sink : Sink), inp.length - st.cur < n →
      ∃ r, _del_loop next finish Close Char Escape inp args b n st sink = some r := by
  intro n
  induction n with
  | zero => intro st sink h; omega
  | succ n ih =>
    intro st sink h
    cases hb : _del_body next finish Close Char Escape inp args b st sink with
    | done r => exact ⟨r, by simp only [_del_loop, hb]⟩
    | again st1 sink1 =>
      obtain ⟨s, hC, he, hor⟩ := _del_body_again _ _ _ _ _ _ _ _ _ _ _ _ hb
      have hs := hclose st s hC
      have hlt : s.cur < inp.length := by simpa [reader_eof] using he
      have hcur : st.cur < st1.cur := by
        rcases hor with ⟨vals, hE, _⟩ | ⟨s3, hE, hacc, h1, _⟩
        · have := hescm s st1 vals hE
          simp only at this ⊢
          omega
        · have h3 := hescb s s3 hE
          have hadv := hchar s3.cur hacc
          have : st1.cur = (Char.engine inp s3.cur).2 := by
            simp only at h1
            rw [h1]; rfl
          omega
      obtain ⟨r, hr⟩ := ih st1 sink1 (by omega)
      exact ⟨r, by simp only [_del_loop, hb, hr]⟩

/-- Under the same hypotheses the loop passes at most one loop head more than units are
left, whatever the fuel. -/
theorem _del_void_heads_bound (next : NextParser) (finish : Sink → Value) (Close : Branch)
    (Char : Token) (inp : List Code) (args : List Value) (b : Nat)
    (hchar : ∀ p : Nat, Char.accepts inp p → p < (Char.engine inp p).2)
    (hclose : ∀ s t : State, Close.try_ inp s = .backtracked t → t.cur = s.cur) :
    ∀ (n : Nat) (st : State) (sink : Sink),
      (_del_void_heads next finish Close Char inp args b n st sink).length ≤
        inp.length - st.cur + 1 := by
  intro n
  induction n with
  | zero => intro st sink; simp [_del_void_heads]
  | succ n ih =>
    intro st sink
    cases hb : _del_void_body next finish Close Char inp args b st sink with
    | done r => simp [_del_void_heads, hb]
    | again st1 sink1 =>
      obtain ⟨s, hC, he, hacc, h1, _⟩ := _del_void_body_again _ _ _ _ _ _ _ _ _ _ _ hb
      have hs := hclose st s hC
      have hlt : s.cur < inp.length := by simpa [reader_eof] using he
      have hadv := hchar s.cur hacc
      have hcur : st1.cur = (Char.engine inp s.cur).2 := by rw [h1]; rfl
      have := ih st1 sink1
      simp only [_del_void_heads, hb, List.length_cons]
      omega

/-- The bound on the loop heads of the loop with escapes. -/
theorem _del_heads_bound (next : NextParser) (finish : Sink → Value) (Close : Branch)
    (Char : Token) (Escape : Branch) (inp : List Code) (args : List Value) (b : Nat)
    (hchar : ∀ p : Nat, Char.accepts inp p → p < (Char.engine inp p).2)
    (hclose : ∀ s t : State, Close.try_ inp s = .backtracked t → t.cur = s.cur)
    (hescm : ∀ (s t : State) (vals : List Value),
      Escape.try_ inp s = .matched t vals → s.cur < t.cur)
    (hescb : ∀ s t : State, Escape.try_ inp s = .backtracked t → t.cur = s.cur) :
    ∀ (n : Nat) (st : State) (sink : Sink),
      (_del_heads next finish Close Char Escape inp args b n st sink).length ≤
        inp.length - st.cur + 1 := by
  intro n
  induction n with
  | zero => intro st sink; simp [_del_heads]
  | succ n ih =>
    intro st sink
    cases hb : _del_body next finish Close Char Escape inp args b st sink with
    | done r => simp [_del_heads, hb]
    | again st1 sink1 =>
      obtain ⟨s, hC, he, hor⟩ := _del_body_again _ _ _ _ _ _ _ _ _ _ _ _ hb
      have hs := hclose st s hC
      have hlt : s.cur < inp.length := by simpa [reader_eof] using he
      have hcur : st.cur < st1.cur := by
        rcases hor with ⟨vals, hE, _⟩ | ⟨s3, hE, hacc, h1, _⟩
        · have := hescm s st1 vals hE
          simp only at this ⊢
          omega
        · have h3 := hescb s s3 hE
          have hadv := hchar s3.cur hacc
          have : st1.cur = (Char.engine inp s3.cur).2 := by
            simp only at h1
            rw [h1]; rfl
          omega
      have := ih st1 sink1
      simp only [_del_heads, hb, List.length_cons]
      omega

/-- C27 (termination of the delimited loop). If every successful match of `Char` advances
the reader and `Close` leaves the reader where it was when it backtracks, the escape-free
loop returns within (units left at entry) + 1 iterations: that much fuel gives a result,
more fuel gives the same result, and no run passes more loop heads than that. The same
holds for the loop with escapes if every matching escape advances the reader and a
backtracking escape leaves it where it was. -/
theorem delimited_loop_terminates (next : NextParser) (finish : Sink → Value) (Close : Branch)
    (Char : Token) (inp : List Code) (args : List Value) (del_begin : Nat) (st : State)
    (sink : Sink)
    (hchar : ∀ p : Nat, Char.accepts inp p → p < (Char.engine inp p).2)
    (hclose : ∀ s t : State, Close.try_ inp s = .backtracked t → t.cur = s.cur) :
    (∃ r, _del_void_loop next finish Close Char inp args del_begin
        (inp.length - st.cur + 1) st sink = some r ∧
      ∀ fuel : Nat, inp.length - st.cur + 1 ≤ fuel →
        _del_void_loop next finish Close Char inp args del_begin fuel st sink = some r ∧
        (_del_void_heads next finish Close Char inp args del_begin fuel st sink).length ≤
          inp.length - st.cur + 1) ∧
    (∀ Escape : Branch,
      (∀ (s t : State) (vals : List Value),
        Escape.try_ inp s = .matched t vals → s.cur < t.cur) →
      (∀ s t : State, Escape.try_ inp s = .backtracked t → t.cur = s.cur) →
      ∃ r, _del_loop next finish Close Char Escape inp args del_begin
          (inp.length - st.cur + 1) st sink = some r ∧
        ∀ fuel : Nat, inp.length - st.cur + 1 ≤ fuel →
          _del_loop next finish Close Char Escape inp args del_begin fuel st sink = some r ∧
          (_del_heads next finish Close Char Escape inp args del_begin fuel st sink).length ≤
            inp.length - st.cur + 1) := by
  constructor
  · obtain ⟨r, hr⟩ := void_loop_returns next finish Close Char inp args del_begin hchar hclose
      (inp.length - st.cur + 1) st sink (by omega)
    refine ⟨r, hr, ?_⟩
    intro fuel hf
    exact ⟨_del_void_loop_mono _ _ _ _ _ _ _ _ _ _ _ _ hf hr,
      _del_void_heads_bound next finish Close Char inp args del_begin hchar hclose fuel st sink⟩
  · intro Escape hescm hescb
    obtain ⟨r, hr⟩ := loop_returns next finish Close Char Escape inp args del_begin hchar hclose
      hescm hescb (inp.length - st.cur + 1) st sink (by omega)
    refine ⟨r, hr, ?_⟩
    intro fuel hf
    exact ⟨_del_loop_mono _ _ _ _ _ _ _ _ _ _ _ _ _ hf hr,
      _del_heads_bound next finish Close Char Escape inp args del_begin hchar hclose hescm hescb
        fuel st sink⟩

/-- A failing escape-free loop has reported an error, when a cancelling close and a failing
continuation have. -/
theorem void_loop_reports (next : NextParser) (finish : Sink → Value) (Close : Branch)
    (Char : Token) (inp : List Code) (args : List Value) (b : Nat) (s1 : State)
    (hnext : ∀ (s t : State) (a : List Value), next s a = (false, t) →
      s.errors.length < t.errors.length)
    (hcc : ∀ s t : State, Close.try_ inp s = .canceled t → s.errors.length < t.errors.length)
    (hcb : ∀ s t : State, Close.try_ inp s = .backtracked t →
      s.errors.length ≤ t.errors.length)
    (hcm : ∀ (s t : State) (cv : List Value), Close.try_ inp s = .matched t cv →
      s.errors.length ≤ t.errors.length) :
    ∀ (n : Nat) (st : State) (sink : Sink),
      _del_void_loop next finish Close Char inp args b n st sink = some (false, s1) →
      st.errors.length < s1.errors.length := by
  intro n
  induction n with
  | zero => intro st sink h; simp [_del_void_loop] at h
  | succ n ih =>
    intro st sink h
    simp only [_del_void_loop] at h
    cases hC : Close.try_ inp st with
    | matched s cv =>
      rw [_del_void_body_matched _ _ _ _ _ _ _ _ _ _ _ hC] at h
      simp only [Option.some.injEq] at h
      have := hnext _ _ _ h
      have := hcm _ _ _ hC
      omega
    | canceled s =>
      rw [_del_void_body_canceled _ _ _ _ _ _ _ _ _ _ hC] at h
      simp only [Option.some.injEq, Prod.mk.injEq, true_and] at h
      subst h
      exact hcc _ _ hC
    | backtracked s =>
      rw [_del_void_body_backtracked _ _ _ _ _ _ _ _ _ _ hC] at h
      have hs := hcb _ _ hC
      by_cases he : reader_eof inp s = true
      · simp only [he, if_true, Option.some.injEq, Prod.mk.injEq, true_and] at h
        subst h
        simp only [context_error, List.length_append, List.length_singleton]
        omega
      · simp only [he, Bool.false_eq_true, if_false] at h
        rcases _del_char_cases Char inp s sink with ⟨_, hd⟩ | ⟨_, hd⟩
        · rw [hd] at h
          simp only [Option.some.injEq, Prod.mk.injEq, true_and] at h
          subst h
          simp only [context_error, List.length_append, List.length_singleton]
          omega
        · rw [hd] at h
          have := ih _ _ h
          simp only [context_token] at this
          omega

/-- A failing loop with escapes has reported an error, when a cancelling close, a
cancelling escape and a failing continuation have. -/
theorem loop_reports (next : NextParser) (finish : Sink → Value) (Close : Branch)
    (Char : Token) (Escape : Branch) (inp : List Code) (args : List Value) (b : Nat)
    (s1 : State)
    (hnext : ∀ (s t : State) (a : List Value), next s a = (false, t) →
      s.errors.length < t.errors.length)
    (hcc : ∀ s t : State, Close.try_ inp s = .canceled t → s.errors.length < t.errors.length)
    (hcb : ∀ s t : State, Close.try_ inp s = .backtracked t →
      s.errors.length ≤ t.errors.length)
    (hcm : ∀ (s t : State) (cv : List Value), Close.try_ inp s = .matched t cv →
      s.errors.length ≤ t.errors.length)
    (hec : ∀ s t : State, Escape.try_ inp s = .canceled t → s.errors.length < t.errors.length)
    (heb : ∀ s t : State, Escape.try_ inp s = .backtracked t →
      s.errors.length ≤ t.errors.length)
    (hem : ∀ (s t : State) (vals : List Value), Escape.try_ inp s = .matched t vals →
      s.errors.length ≤ t.errors.length) :
    ∀ (n : Nat) (st : State) (sink : Sink),
      _del_loop next finish Close Char Escape inp args b n st sink = some (false, s1) →
      st.errors.length < s1.errors.length := by
  intro n
  induction n with
  | zero => intro st sink h; simp [_del_loop] at h
  | succ n ih =>
    intro st sink h
    simp only [_del_loop] at h
    cases hC : Close.try_ inp st with
    | matched s cv =>
      rw [_del_body_matched _ _ _ _ _ _ _ _ _ _ _ _ hC] at h
      simp only [Option.some.injEq] at h
      have := hnext _ _ _ h
      have := hcm _ _ _ hC
      omega
    | canceled s =>
      rw [_del_body_canceled _ _ _ _ _ _ _ _ _ _ _ hC] at h
      simp only [Option.some.injEq, Prod.mk.injEq, true_and] at h
      subst h
      exact hcc _ _ hC
    | backtracked s =>
      rw [_del_body_backtracked _ _ _ _ _ _ _ _ _ _ _ hC] at h
      have hs := hcb _ _ hC
      by_cases he : reader_eof inp s = true
      · simp only [he, if_true, Option.some.injEq, Prod.mk.injEq, true_and] at h
        subst h
        simp only [context_error, List.length_append, List.length_singleton]
        omega
      · simp only [he, Bool.false_eq_true, if_false] at h
        cases hE : Escape.try_ inp s with
        | matched s2 vals =>
          rw [hE] at h
          simp only at h
          have := ih _ _ h
          have := hem _ _ _ hE
          omega
        | canceled s2 =>
          rw [hE] at h
          simp only [Option.some.injEq, Prod.mk.injEq, true_and] at h
          subst h
          have := hec _ _ hE
          omega
        | backtracked s2 =>
          rw [hE] at h
          simp only at h
          have := heb _ _ hE
          rcases _del_char_cases Char inp s2 sink with ⟨_, hd⟩ | ⟨_, hd⟩
          · rw [hd] at h
            simp only [Option.some.injEq, Prod.mk.injEq, true_and] at h
            subst h
            simp only [context_error, List.length_append, List.length_singleton]
            omega
          · rw [hd] at h
            have := ih _ _ h
            simp only [context_token] at this
            omega

/-- A failing parse of `while_` has reported an error, when a failing `then` and a failing
continuation have. -/
theorem while_reports (B : PatternBranch) (next : NextParser) (inp : List Code) (s1 : State)
    (hnext : ∀ (s t : State) (a : List Value), next s a = (false, t) →
      s.errors.length < t.errors.length)
    (htf : ∀ s t : State, B.then_.parse inp s = .failed t → s.errors.length < t.errors.length)
    (hts : ∀ (s t : State) (vals : List Value), B.then_.parse inp s = .succeeded t vals →
      s.errors.length ≤ t.errors.length) :
    ∀ (n : Nat) (st : State) (args : List Value),
      _while_parse B next inp n st args = some (false, s1) →
      st.errors.length < s1.errors.length := by
  intro n
  induction n with
  | zero => intro st args h; simp [_while_parse] at h
  | succ n ih =>
    intro st args h
    by_cases hthen : B.has_then = true
    · simp only [_while_parse, hthen, if_true] at h
      by_cases hc : (B.condition_matcher inp st.cur).1 = true
      · simp only [hc, if_true] at h
        cases hp : B.then_.parse inp { st with cur := (B.condition_matcher inp st.cur).2 } with
        | failed s =>
          rw [hp] at h
          simp only [Option.some.injEq, Prod.mk.injEq, true_and] at h
          subst h
          exact htf { st with cur := (B.condition_matcher inp st.cur).2 } _ hp
        | succeeded s vals =>
          rw [hp] at h
          simp only at h
          have := ih _ _ h
          have := hts { st with cur := (B.condition_matcher inp st.cur).2 } _ _ hp
          simp only at this
          omega
      · simp only [hc, Bool.false_eq_true, if_false, Option.some.injEq] at h
        exact hnext { st with cur := (B.condition_matcher inp st.cur).2 } _ _ h
    · simp only [_while_parse, hthen, Bool.false_eq_true, if_false] at h
      cases hl : _while_condition_loop B inp (n + 1) st.cur with
      | none => rw [hl] at h; cases h
      | some r =>
        rw [hl] at h
        simp only [Option.some.injEq] at h
        exact hnext { st with cur := r } _ _ h


/-- A token tried as a branch never cancels. -/
theorem token_try_not_canceled (T : Token) (inp : List Code) (s t : State) :
    T.try_ inp s ≠ .canceled t := by
  simp only [Token.try_]
  split <;> simp

/-- A token that backtracks leaves the state as it was. -/
theorem token_try_backtracked (T : Token) (inp : List Code) (s t : State)
    (h : T.try_ inp s = .backtracked t) : t = s := by
  simp only [Token.try_] at h
  split at h
  · simp only [TryOutcome.backtracked.injEq] at h
    exact h.symm
  · cases h

/-- A token that matches reports no error, and ends where its engine does. -/
theorem token_try_matched (T : Token) (inp : List Code) (s t : State) (vals : List Value)
    (h : T.try_ inp s = .matched t vals) :
    t.errors = s.errors ∧ (T.engine inp s.cur).1 = 0 ∧ t.cur = (T.engine inp s.cur).2 := by
  simp only [Token.try_, engine_try_match] at h
  by_cases h0 : (T.engine inp s.cur).1 = 0
  · simp only [h0, if_true, TryOutcome.matched.injEq] at h
    obtain ⟨h1, _⟩ := h
    subst h1
    exact ⟨rfl, h0, rfl⟩
  · simp [h0] at h

/-- A token whose parse fails has reported one error. -/
theorem token_parse_failed (T : Token) (inp : List Code) (s t : State)
    (h : T.parse inp s = .failed t) : t.errors.length = s.errors.length + 1 := by
  simp only [Token.parse] at h
  split at h
  · simp only [ParseOutcome.failed.injEq] at h
    subst h
    simp [context_error]
  · cases h

/-- A token whose parse succeeds reports no error. -/
theorem token_parse_succeeded (T : Token) (inp : List Code) (s t : State) (vals : List Value)
    (h : T.parse inp s = .succeeded t vals) : t.errors = s.errors := by
  simp only [Token.parse] at h
  split at h
  · cases h
  · simp only [ParseOutcome.succeeded.injEq] at h
    obtain ⟨h1, _⟩ := h
    subst h1
    rfl

/-- The continuation "then the token `T`, then accept" reports an error when it fails. -/
theorem parse_then_accept_reports (T : Token) (inp : List Code) (s t : State)
    (a : List Value) (h : T.parse_then accept inp s a = (false, t)) :
    s.errors.length < t.errors.length := by
  simp only [Token.parse_then] at h
  cases hp : T.parse inp s with
  | failed s1 =>
    rw [hp] at h
    simp only [Prod.mk.injEq, true_and] at h
    subst h
    have := token_parse_failed T inp s s1 hp
    omega
  | succeeded s1 vals =>
    rw [hp] at h
    simp [accept] at h

/-- C24 (report before failing). With a continuation that has reported an error whenever
it returns `false`: the escape-free delimited loop that returns `false` has reported at
least one error since it was entered, if `Close` has whenever it cancels; so has the loop
with escapes, if `Close` and `Escape` have whenever they cancel; so has the parser of
`while_`, if its `then` has whenever it fails. Reported errors are counted in the
context, in which the rules only add errors. -/
theorem report_before_failing (next : NextParser)
    (hnext : ∀ (s t : State) (a : List Value), next s a = (false, t) →
      s.errors.length < t.errors.length) :
    (∀ (finish : Sink → Value) (Close : Branch) (Char : Token) (inp : List Code)
        (args : List Value) (del_begin fuel : Nat) (st s1 : State) (sink : Sink),
      (∀ s t : State, Close.try_ inp s = .canceled t → s.errors.length < t.errors.length) →
      (∀ s t : State, Close.try_ inp s = .backtracked t →
        s.errors.length ≤ t.errors.length) →
      (∀ (s t : State) (cv : List Value), Close.try_ inp s = .matched t cv →
        s.errors.length ≤ t.errors.length) →
      (_del_void_loop next finish Close Char inp args del_begin fuel st sink =
          some (false, s1) →
        st.errors.length < s1.errors.length) ∧
      ∀ Escape : Branch,
        (∀ s t : State, Escape.try_ inp s = .canceled t →
          s.errors.length < t.errors.length) →
        (∀ s t : State, Escape.try_ inp s = .backtracked t →
          s.errors.length ≤ t.errors.length) →
        (∀ (s t : State) (vals : List Value), Escape.try_ inp s = .matched t vals →
          s.errors.length ≤ t.errors.length) →
        _del_loop next finish Close Char Escape inp args del_begin fuel st sink =
          some (false, s1) →
        st.errors.length < s1.errors.length) ∧
    (∀ (B : PatternBranch) (inp : List Code) (fuel : Nat) (st s1 : State) (args : List Value),
      (∀ s t : State, B.then_.parse inp s = .failed t → s.errors.length < t.errors.length) →
      (∀ (s t : State) (vals : List Value), B.then_.parse inp s = .succeeded t vals →
        s.errors.length ≤ t.errors.length) →
      _while_parse B next inp fuel st args = some (false, s1) →
      st.errors.length < s1.errors.length) := by
  constructor
  · intro finish Close Char inp args del_begin fuel st s1 sink hcc hcb hcm
    constructor
    · exact void_loop_reports next finish Close Char inp args del_begin s1 hnext hcc hcb hcm
        fuel st sink
    · intro Escape hec heb hem
      exact loop_reports next finish Close Char Escape inp args del_begin s1 hnext hcc hcb hcm
        hec heb hem fuel st sink
  · intro B inp fuel st s1 args htf hts
    exact while_reports B next inp s1 hnext htf hts fuel st args

/-- The closing quote only adds errors when it cancels, which it never does. -/
theorem quote_canceled_reports (inp : List Code) (s t : State)
    (h : quoted.Close.toBranch.try_ inp s = .canceled t) :
    s.errors.length < t.errors.length :=
  absurd h (token_try_not_canceled (LEXY_LIT [dquote]) inp s t)

/-- The closing quote that backtracks drops no error. -/
theorem quote_backtracked_keeps (inp : List Code) (s t : State)
    (h : quoted.Close.toBranch.try_ inp s = .backtracked t) :
    s.errors.length ≤ t.errors.length := by
  rw [token_try_backtracked (LEXY_LIT [dquote]) inp s t h]

/-- The closing quote that matches drops no error. -/
theorem quote_matched_keeps (inp : List Code) (s t : State) (cv : List Value)
    (h : quoted.Close.toBranch.try_ inp s = .matched t cv) :
    s.errors.length ≤ t.errors.length := by
  rw [(token_try_matched (LEXY_LIT [dquote]) inp s t cv h).1]

/-- Witness of C24: the body of `quoted` on quote, a, quote, x with the continuation "then a
semicolon" fails after the close, with the error of the continuation reported; on the
unterminated quote, a it fails with `missing_delimiter` reported. -/
theorem report_before_failing_witness :
    (start.errors.length <
        (⟨3, [Error.expected_literal 3 0], [⟨2, 1, 2⟩, ⟨1, 2, 3⟩]⟩ : State).errors.length) ∧
    _del_void_loop (semicolon.parse_then accept [dquote, 'a', dquote, 'x']) count_calls
        quoted.Close.toBranch not_quote [dquote, 'a', dquote, 'x'] [] 1 3
        ⟨1, start.errors, []⟩ [] =
      some (false, ⟨3, [Error.expected_literal 3 0], [⟨2, 1, 2⟩, ⟨1, 2, 3⟩]⟩) ∧
    _del_void_loop accept count_calls quoted.Close.toBranch not_quote [dquote, 'a'] [] 1 3
        ⟨1, [], []⟩ [] =
      some (false, ⟨2, [Error.missing_delimiter 1 2], [⟨2, 1, 2⟩]⟩) :=
  ⟨((report_before_failing (semicolon.parse_then accept [dquote, 'a', dquote, 'x'])
      (parse_then_accept_reports semicolon [dquote, 'a', dquote, 'x'])).1 count_calls
      quoted.Close.toBranch not_quote [dquote, 'a', dquote, 'x'] [] 1 3 ⟨1, start.errors, []⟩
      ⟨3, [Error.expected_literal 3 0], [⟨2, 1, 2⟩, ⟨1, 2, 3⟩]⟩ []
      (quote_canceled_reports _) (quote_backtracked_keeps _) (quote_matched_keeps _)).1
      (by decide),
    by decide, by decide⟩

/-- A one-unit token that accepts advances the reader. -/
theorem char_if_advances (p : Code → Bool) (inp : List Code) (q : Nat)
    (h : (char_if p).accepts inp q) : q < ((char_if p).engine inp q).2 := by
  have h0 := h rfl
  simp only [char_if] at h0 ⊢
  cases hg : inp.get? q with
  | none => rw [hg] at h0; simp at h0
  | some c =>
    rw [hg] at h0
    simp only at h0 ⊢
    by_cases hp : p c = true
    · simp [hp]
    · simp [hp] at h0

/-- The escape token alone, when it matches, advances the reader. -/
theorem backslash_escape_advances (inp : List Code) (s t : State) (vals : List Value)
    (h : backslash_escape.rule_.try_ inp s = .matched t vals) : s.cur < t.cur := by
  obtain ⟨_, h0, h1⟩ := token_try_matched (LEXY_LIT [backslash]) inp s t vals h
  have := (lit_match_ok inp [backslash] s.cur h0).1
  have h2 : t.cur = (lit_match [backslash] inp s.cur).2 := h1
  rw [h2, this]
  simp

/-- The escape token alone, when it backtracks, leaves the reader where it was. -/
theorem backslash_escape_backtracks (inp : List Code) (s t : State)
    (h : backslash_escape.rule_.try_ inp s = .backtracked t) : t.cur = s.cur := by
  rw [token_try_backtracked (LEXY_LIT [backslash]) inp s t h]

/-- The closing quote, when it backtracks, leaves the reader where it was. -/
theorem quote_backtracks_in_place (inp : List Code) (s t : State)
    (h : quoted.Close.toBranch.try_ inp s = .backtracked t) : t.cur = s.cur := by
  rw [token_try_backtracked (LEXY_LIT [dquote]) inp s t h]

/-- Witness of C27: the body of `quoted` on quote, a, backslash, n, b, quote, entered at 1
with five units left: six iterations are enough, without escape and with the backslash
as escape, and five give the result. -/
theorem delimited_loop_terminates_witness :
    ((∃ r, _del_void_loop accept count_calls quoted.Close.toBranch not_quote a_escape_b [] 1
          (a_escape_b.length - (⟨1, [], []⟩ : State).cur + 1) ⟨1, [], []⟩ [] = some r ∧
        ∀ fuel : Nat, a_escape_b.length - (⟨1, [], []⟩ : State).cur + 1 ≤ fuel →
          _del_void_loop accept count_calls quoted.Close.toBranch not_quote a_escape_b [] 1
              fuel ⟨1, [], []⟩ [] = some r ∧
          (_del_void_heads accept count_calls quoted.Close.toBranch not_quote a_escape_b [] 1
              fuel ⟨1, [], []⟩ []).length ≤
            a_escape_b.length - (⟨1, [], []⟩ : State).cur + 1) ∧
      (∃ r, _del_loop accept count_calls quoted.Close.toBranch not_quote
            backslash_escape.rule_ a_escape_b [] 1
            (a_escape_b.length - (⟨1, [], []⟩ : State).cur + 1) ⟨1, [], []⟩ [] = some r ∧
        ∀ fuel : Nat, a_escape_b.length - (⟨1, [], []⟩ : State).cur + 1 ≤ fuel →
          _del_loop accept count_calls quoted.Close.toBranch not_quote backslash_escape.rule_
              a_escape_b [] 1 fuel ⟨1, [], []⟩ [] = some r ∧
          (_del_heads accept count_calls quoted.Close.toBranch not_quote
              backslash_escape.rule_ a_escape_b [] 1 fuel ⟨1, [], []⟩ []).length ≤
            a_escape_b.length - (⟨1, [], []⟩ : State).cur + 1)) ∧
    _del_void_loop accept count_calls quoted.Close.toBranch not_quote a_escape_b [] 1 5
        ⟨1, [], []⟩ [] =
      some (true, ⟨6, [], [⟨2, 1, 2⟩, ⟨2, 2, 3⟩, ⟨2, 3, 4⟩, ⟨2, 4, 5⟩, ⟨1, 5, 6⟩]⟩) ∧
    (_del_void_heads accept count_calls quoted.Close.toBranch not_quote a_escape_b [] 1 20
        ⟨1, [], []⟩ []).length = 5 ∧
    _del_loop accept count_calls quoted.Close.toBranch not_quote backslash_escape.rule_
        a_escape_b [] 1 5 ⟨1, [], []⟩ [] =
      some (true, ⟨6, [], [⟨2, 1, 2⟩, ⟨1, 2, 3⟩, ⟨2, 3, 4⟩, ⟨2, 4, 5⟩, ⟨1, 5, 6⟩]⟩) :=
  ⟨⟨(delimited_loop_terminates accept count_calls quoted.Close.toBranch not_quote a_escape_b []
        1 ⟨1, [], []⟩ [] (char_if_advances _ a_escape_b) (quote_backtracks_in_place _)).1,
      (delimited_loop_terminates accept count_calls quoted.Close.toBranch not_quote a_escape_b []
        1 ⟨1, [], []⟩ [] (char_if_advances _ a_escape_b) (quote_backtracks_in_place _)).2
        backslash_escape.rule_ (backslash_escape_advances _) (backslash_escape_backtracks _)⟩,
    by decide, by decide, by decide⟩

/-! ## The content lexemes tile the body -/

/-- A successful run of the escape-free loop, read as a tiling: the reader went through
the positions `cuts`, one token event and one lexeme per step, and `Close` matched at the
last of them, with the sink that holds these lexemes handed to `finish`. -/
theorem void_loop_success_tiling (next : NextParser) (finish : Sink → Value) (Close : Branch)
    (Char : Token) (inp : List Code) (args : List Value) (b : Nat) (s1 : State)
    (hback : ∀ s t : State, Close.try_ inp s = .backtracked t → t = s)
    (hmono : ∀ p : Nat, p ≤ (Char.engine inp p).2) :
    ∀ (fuel : Nat) (st : State) (sink : Sink),
      _del_void_loop next finish Close Char inp args b fuel st sink = some (true, s1) →
      ∃ (cuts : List Nat) (e : Nat) (sc : State) (cv : List Value),
        ascending st.cur cuts e ∧
        Close.try_ inp ⟨e, st.errors, st.tokens ++ tokens_between Char.kind st.cur cuts⟩ =
          .matched sc cv ∧
        next sc (args ++ [finish (sink ++ lexemes_between st.cur cuts)] ++ cv) =
          (true, s1) := by
  intro fuel
  induction fuel with
  | zero => intro st sink h; simp [_del_void_loop] at h
  | succ n ih =>
    intro st sink h
    simp only [_del_void_loop] at h
    cases hb : _del_void_body next finish Close Char inp args b st sink with
    | done r =>
      rw [hb] at h
      simp only [Option.some.injEq] at h
      subst h
      cases hC : Close.try_ inp st with
      | matched s cv =>
        rw [_del_void_body_matched _ _ _ _ _ _ _ _ _ _ _ hC] at hb
        injection hb with hb
        refine ⟨[], st.cur, s, cv, rfl, ?_, ?_⟩
        · simpa [tokens_between] using hC
        · simpa [lexemes_between] using hb
      | canceled s =>
        rw [_del_void_body_canceled _ _ _ _ _ _ _ _ _ _ hC] at hb
        injection hb with hb
        simp at hb
      | backtracked s =>
        rw [_del_void_body_backtracked _ _ _ _ _ _ _ _ _ _ hC] at hb
        by_cases he : reader_eof inp s = true
        · simp [he] at hb
        · simp only [he, Bool.false_eq_true, if_false] at hb
          rcases _del_char_cases Char inp s sink with ⟨_, hd⟩ | ⟨_, ha⟩
          · rw [hd] at hb; injection hb with hb; simp at hb
          · rw [ha] at hb; cases hb
    | again st1 sink1 =>
      rw [hb] at h
      simp only at h
      obtain ⟨s, hC, _, _, h1, h2⟩ := _del_void_body_again _ _ _ _ _ _ _ _ _ _ _ hb
      have hs := hback st s hC
      subst hs
      obtain ⟨cuts, e, sc, cv, ha, hc, hn⟩ := ih st1 sink1 h
      subst h1 h2
      refine ⟨(Char.engine inp s.cur).2 :: cuts, e, sc, cv, ⟨hmono s.cur, ha⟩, ?_, ?_⟩
      · simpa [tokens_between, context_token, List.append_assoc] using hc
      · simpa [lexemes_between, List.append_assoc] using hn

/-- C28 (content lexemes tile the body). With a closing rule that restores the reader when
it backtracks and a content engine that never moves the reader backwards, every
successful parse of `delimited(open, close)(Char)` went through positions `cuts` that
never decrease, from the position after `Open` to the position `e` at which `Close`
matched: the sink handed to `finish` holds exactly the lexemes between consecutive
positions, in that order, so each lexeme begins where the one before ended, the first
at the position after `Open`, the last ending at `e`; and the tokens observed after `Open`
and before `Close` are exactly one event of `Char`'s kind per lexeme, with the same span. -/
theorem content_lexemes_tile (d : _delim_dsl) (Char : Token) (fuel : Nat) (next : NextParser)
    (finish : Sink → Value) (inp : List Code) (st s1 : State) (args : List Value)
    (hback : ∀ s t : State, d.Close.try_ inp s = .backtracked t → t = s)
    (hmono : ∀ p : Nat, p ≤ (Char.engine inp p).2)
    (hrun : d.parse Char fuel next finish inp st args = some (true, s1)) :
    ∃ (so : State) (ov : List Value) (cuts : List Nat) (e : Nat) (sc : State)
        (cv : List Value),
      d.Open.parse inp st = .succeeded so ov ∧
      ascending so.cur cuts e ∧
      d.Close.try_ inp ⟨e, so.errors, so.tokens ++ tokens_between Char.kind so.cur cuts⟩ =
        .matched sc cv ∧
      next sc (args ++ ov ++ [finish (lexemes_between so.cur cuts)] ++ cv) = (true, s1) := by
  simp only [_delim_dsl.parse, _delim_dsl.open_] at hrun
  cases ho : d.Open.parse inp st with
  | failed s => rw [ho] at hrun; simp at hrun
  | succeeded so ov =>
    rw [ho] at hrun
    simp only [_del_void_parse] at hrun
    obtain ⟨cuts, e, sc, cv, ha, hc, hn⟩ :=
      void_loop_success_tiling next finish d.Close.toBranch Char inp (args ++ ov) so.cur s1
        hback hmono fuel so [] hrun
    exact ⟨so, ov, cuts, e, sc, cv, rfl, ha, hc, by simpa using hn⟩

/-- A one-unit token never moves the reader backwards. -/
theorem char_if_monotone (p : Code → Bool) (inp : List Code) (q : Nat) :
    q ≤ ((char_if p).engine inp q).2 := by
  simp only [char_if]
  cases hg : inp.get? q with
  | none => simp
  | some c =>
    by_cases hp : p c = true
    · simp [hp]
    · simp [hp]

/-- The closing quote restores the state when it backtracks. -/
theorem quote_backtracks_restores (inp : List Code) (s t : State)
    (h : quoted.Close.try_ inp s = .backtracked t) : t = s :=
  token_try_backtracked (LEXY_LIT [dquote]) inp s t h

/-- Witness of C28: `quoted` on quote, a, b, c, quote: the lexemes from 1 to 2, 2 to 3 and
3 to 4, the closing quote matched at 4. -/
theorem content_lexemes_tile_witness :
    (∃ (so : State) (ov : List Value) (cuts : List Nat) (e : Nat) (sc : State)
        (cv : List Value),
      quoted.Open.parse [dquote, 'a', 'b', 'c', dquote] start = .succeeded so ov ∧
      ascending so.cur cuts e ∧
      quoted.Close.try_ [dquote, 'a', 'b', 'c', dquote]
          ⟨e, so.errors, so.tokens ++ tokens_between not_quote.kind so.cur cuts⟩ =
        .matched sc cv ∧
      accept sc ([] ++ ov ++ [count_calls (lexemes_between so.cur cuts)] ++ cv) =
        (true, ⟨5, [], [⟨1, 0, 1⟩, ⟨2, 1, 2⟩, ⟨2, 2, 3⟩, ⟨2, 3, 4⟩, ⟨1, 4, 5⟩]⟩)) ∧
    quoted.parse not_quote 4 accept count_calls [dquote, 'a', 'b', 'c', dquote] start [] =
      some (true, ⟨5, [], [⟨1, 0, 1⟩, ⟨2, 1, 2⟩, ⟨2, 2, 3⟩, ⟨2, 3, 4⟩, ⟨1, 4, 5⟩]⟩) ∧
    ascending 1 [2, 3, 4] 4 ∧
    lexemes_between 1 [2, 3, 4] =
      [[Value.lexeme 1 2], [Value.lexeme 2 3], [Value.lexeme 3 4]] ∧
    tokens_between not_quote.kind 1 [2, 3, 4] = [⟨2, 1, 2⟩, ⟨2, 2, 3⟩, ⟨2, 3, 4⟩] :=
  ⟨content_lexemes_tile quoted not_quote 4 accept count_calls [dquote, 'a', 'b', 'c', dquote]
      start ⟨5, [], [⟨1, 0, 1⟩, ⟨2, 1, 2⟩, ⟨2, 2, 3⟩, ⟨2, 3, 4⟩, ⟨1, 4, 5⟩]⟩ []
      (quote_backtracks_restores _) (char_if_monotone _ _) (by decide),
    by decide, by simp [ascending], by decide, by decide⟩

/-! ## Token difference -/

/-- The engine of `A - B`, unfolded. -/
theorem minus_engine_unfold (A B : Token) (inp : List Code) (cur : Nat) :
    (minus A B).engine inp cur =
      if (A.engine inp cur).1 ≠ 0 then ((A.engine inp cur).1 + 1, (A.engine inp cur).2)
      else if (B.engine (inp.take (A.engine inp cur).2) cur).1 = 0 ∧
          (inp.take (A.engine inp cur).2).length ≤
            (B.engine (inp.take (A.engine inp cur).2) cur).2 then
        (1, (A.engine inp cur).2)
      else (0, (A.engine inp cur).2) := rfl

/-- The engine of `A - B` always leaves the reader where `A` left it. -/
theorem minus_engine_end (A B : Token) (inp : List Code) (cur : Nat) :
    ((minus A B).engine inp cur).2 = (A.engine inp cur).2 := by
  rw [minus_engine_unfold]
  split
  · rfl
  · split <;> rfl

/-- When `A` fails, `A - B` fails with the error code of `A` moved up by one. -/
theorem minus_engine_fails (A B : Token) (inp : List Code) (cur : Nat)
    (ha : (A.engine inp cur).1 ≠ 0) :
    (minus A B).engine inp cur = ((A.engine inp cur).1 + 1, (A.engine inp cur).2) := by
  rw [minus_engine_unfold, if_pos ha]

/-- When `A` matches and `B` matches its whole span, `A - B` fails with the error code 1. -/
theorem minus_engine_excluded (A B : Token) (inp : List Code) (cur : Nat)
    (ha : (A.engine inp cur).1 = 0) (hb : matches_whole_span A B inp cur) :
    (minus A B).engine inp cur = (1, (A.engine inp cur).2) := by
  unfold matches_whole_span at hb
  rw [minus_engine_unfold, if_neg (not_not.mpr ha), if_pos hb]

/-- When `A` matches and `B` does not match its whole span, `A - B` matches. -/
theorem minus_engine_matches (A B : Token) (inp : List Code) (cur : Nat)
    (ha : (A.engine inp cur).1 = 0) (hb : ¬ matches_whole_span A B inp cur) :
    (minus A B).engine inp cur = (0, (A.engine inp cur).2) := by
  unfold matches_whole_span at hb
  rw [minus_engine_unfold, if_neg (not_not.mpr ha), if_neg hb]

/-- The engine of `A - B` reports no error exactly when `A` reports none and `B` does not
match the whole span of `A`. -/
theorem minus_engine_ok (A B : Token) (inp : List Code) (cur : Nat) :
    ((minus A B).engine inp cur).1 = 0 ↔
      ((A.engine inp cur).1 = 0 ∧ ¬ matches_whole_span A B inp cur) := by
  by_cases ha : (A.engine inp cur).1 = 0
  · by_cases hb : matches_whole_span A B inp cur
    · rw [minus_engine_excluded A B inp cur ha hb]
      constructor
      · intro h; cases h
      · intro h; exact absurd hb h.2
    · rw [minus_engine_matches A B inp cur ha hb]
      exact ⟨fun _ => ⟨ha, hb⟩, fun _ => rfl⟩
  · rw [minus_engine_fails A B inp cur ha]
    constructor
    · intro h; exact absurd h (Nat.succ_ne_zero _)
    · intro h; exact absurd h.1 ha

/-- What `any` excludes is every span: it matches the whole of any input. -/
theorem any_matches_whole_span (A : Token) (inp : List Code) (cur : Nat) :
    matches_whole_span A any inp cur :=
  ⟨rfl, Nat.le_max_right _ _⟩

/-- The literal `!` at `cur`. -/
theorem bang_engine (inp : List Code) (cur : Nat) :
    bang.engine inp cur = if inp.get? cur = some '!' then (0, cur + 1) else (1, cur) := rfl

/-- The engine of `until(LIT("!"))` reports no error when a `!` lies ahead. -/
theorem until_bang_ok (inp : List Code) :
    ∀ (fuel cur : Nat), inp.length - cur ≤ fuel →
      (∃ i : Nat, cur ≤ i ∧ inp.get? i = some '!') →
      (until_match bang inp fuel cur).1 = 0 := by
  intro fuel
  induction fuel with
  | zero =>
    intro cur hf ⟨i, hi, hg⟩
    have : i < inp.length := by
      by_contra hlt
      rw [List.get?_eq_none.mpr (by omega)] at hg
      cases hg
    omega
  | succ n ih =>
    intro cur hf ⟨i, hi, hg⟩
    have hlen : i < inp.length := by
      by_contra hlt
      rw [List.get?_eq_none.mpr (by omega)] at hg
      cases hg
    by_cases hc : inp.get? cur = some '!'
    · have he : engine_try_match bang.engine inp cur = some (cur + 1) := by
        rw [engine_try_match, bang_engine, if_pos hc]
        rfl
      rw [until_match, he]
    · have he : engine_try_match bang.engine inp cur = none := by
        rw [engine_try_match, bang_engine, if_neg hc]
        rfl
      have hne : i ≠ cur := fun h => hc (h ▸ hg)
      have hnl : ¬ inp.length ≤ cur := by omega
      rw [until_match, he]
      simp only [hnl, if_false]
      exact ih (cur + 1) (by omega) ⟨i, by omega, hg⟩

/-- C22 (token difference `A - B`; `minus.hpp`, `until.hpp` and `any.hpp` are modelled from
the spec and the tests). The engine of `A - B` matches exactly when `A` matches and `B`
does not match the whole span `A` consumed, and it ends where `A` ended; the parse then
succeeds with the reader there. If `A` fails, the parse of `A - B` is the failed parse of
`A`, with the error of `A`. If `A` matches and `B` matches the whole span, the parse
fails with `minus_failure` from where the token began to where `A` ended. `A - B - C`
matches exactly when `A` matches and neither `B` nor `C` matches the whole span.
`until(LIT("!")) - any` fails with `minus_failure` whenever a `!` lies ahead. -/
theorem minus_token_contract (A B C : Token) (inp : List Code) (st : State) :
    (∀ e : Nat, (minus A B).engine inp st.cur = (0, e) ↔
      (A.engine inp st.cur = (0, e) ∧ ¬ matches_whole_span A B inp st.cur)) ∧
    ((A.engine inp st.cur).1 = 0 → ¬ matches_whole_span A B inp st.cur →
      (minus A B).parse inp st =
        .succeeded (context_token { st with cur := (A.engine inp st.cur).2 } A.kind st.cur
          (A.engine inp st.cur).2) []) ∧
    ((A.engine inp st.cur).1 ≠ 0 →
      (minus A B).parse inp st = A.parse inp st ∧
      A.parse inp st = .failed (context_error { st with cur := (A.engine inp st.cur).2 }
        (A.token_error (A.engine inp st.cur).2 (A.engine inp st.cur).1 st.cur))) ∧
    ((A.engine inp st.cur).1 = 0 → matches_whole_span A B inp st.cur →
      (minus A B).parse inp st =
        .failed (context_error { st with cur := (A.engine inp st.cur).2 }
          (Error.minus_failure st.cur (A.engine inp st.cur).2))) ∧
    (∀ e : Nat, (minus (minus A B) C).engine inp st.cur = (0, e) ↔
      (A.engine inp st.cur = (0, e) ∧ ¬ matches_whole_span A B inp st.cur ∧
        ¬ matches_whole_span A C inp st.cur)) ∧
    ((∃ i : Nat, st.cur ≤ i ∧ inp.get? i = some '!') →
      until_bang_minus_any.parse inp st =
        .failed (context_error { st with cur := ((until_ bang).engine inp st.cur).2 }
          (Error.minus_failure st.cur ((until_ bang).engine inp st.cur).2))) := by
  refine ⟨?_, ?_, ?_, ?_, ?_, ?_⟩
  · intro e
    constructor
    · intro h
      have h1 : ((minus A B).engine inp st.cur).1 = 0 := by rw [h]
      have h2 : ((minus A B).engine inp st.cur).2 = e := by rw [h]
      obtain ⟨ha, hb⟩ := (minus_engine_ok A B inp st.cur).mp h1
      rw [minus_engine_end] at h2
      exact ⟨Prod.ext ha h2, hb⟩
    · intro ⟨h, hb⟩
      have ha : (A.engine inp st.cur).1 = 0 := by rw [h]
      rw [minus_engine_matches A B inp st.cur ha hb, h]
  · intro ha hb
    simp only [Token.parse, minus_engine_matches A B inp st.cur ha hb, ne_eq,
      not_true_eq_false, if_false]
    rfl
  · intro ha
    constructor
    · simp only [Token.parse, minus_engine_fails A B inp st.cur ha, ne_eq,
        Nat.succ_ne_zero, not_false_eq_true, if_true, ha]
      simp only [minus, Nat.add_sub_cancel]
      rw [if_neg (by omega)]
    · simp only [Token.parse, ne_eq, ha, not_false_eq_true, if_true]
  · intro ha hb
    simp only [Token.parse, minus_engine_excluded A B inp st.cur ha hb, ne_eq,
      Nat.succ_ne_zero, not_false_eq_true, if_true]
    simp only [minus, if_true]
  · intro e
    have hspan : matches_whole_span (minus A B) C inp st.cur ↔
        matches_whole_span A C inp st.cur := by
      unfold matches_whole_span
      rw [minus_engine_end]
    constructor
    · intro h
      have h1 : ((minus (minus A B) C).engine inp st.cur).1 = 0 := by rw [h]
      have h2 : ((minus (minus A B) C).engine inp st.cur).2 = e := by rw [h]
      obtain ⟨hab, hc⟩ := (minus_engine_ok (minus A B) C inp st.cur).mp h1
      obtain ⟨ha, hb⟩ := (minus_engine_ok A B inp st.cur).mp hab
      rw [minus_engine_end, minus_engine_end] at h2
      exact ⟨Prod.ext ha h2, hb, fun hw => hc (hspan.mpr hw)⟩
    · intro ⟨h, hb, hc⟩
      have ha : (A.engine inp st.cur).1 = 0 := by rw [h]
      have hab := (minus_engine_ok A B inp st.cur).mpr ⟨ha, hb⟩
      rw [minus_engine_matches (minus A B) C inp st.cur hab (fun hw => hc (hspan.mp hw)),
        minus_engine_end, h]
  · intro hex
    have ha : ((until_ bang).engine inp st.cur).1 = 0 :=
      until_bang_ok inp (inp.length - st.cur) st.cur (Nat.le_refl _) hex
    have hb := any_matches_whole_span (until_ bang) inp st.cur
    simp only [until_bang_minus_any, Token.parse,
      minus_engine_excluded (until_ bang) any inp st.cur ha hb, ne_eq, Nat.succ_ne_zero,
      not_false_eq_true, if_true]
    simp only [minus, if_true]

/-- Witness of C22: the three tests of `minus.cpp`. `until(LIT("!")) - LIT("aa!")` consumes 1,
2 and 4 units on !, a! and aaa!, fails with `minus_failure` from 0 to 3 on aa! and with
`expected_literal` at the end of the empty input; with `LIT("a!")` excluded too, a! fails
as well; `until(LIT("!")) - any` fails with `minus_failure` on ! and on aaa!. -/
theorem minus_token_witness :
    (until_bang_minus_aa.parse ['a', 'a', '!'] start =
      .failed (context_error
        { start with cur := ((until_ bang).engine ['a', 'a', '!'] start.cur).2 }
        (Error.minus_failure start.cur ((until_ bang).engine ['a', 'a', '!'] start.cur).2))) ∧
    until_bang_minus_aa.parse ['a', 'a', '!'] start =
      .failed ⟨3, [Error.minus_failure 0 3], []⟩ ∧
    until_bang_minus_aa.parse [] start = .failed ⟨0, [Error.expected_literal 0 0], []⟩ ∧
    until_bang_minus_aa.parse ['!'] start = .succeeded ⟨1, [], [⟨3, 0, 1⟩]⟩ [] ∧
    until_bang_minus_aa.parse ['a', '!'] start = .succeeded ⟨2, [], [⟨3, 0, 2⟩]⟩ [] ∧
    until_bang_minus_aa.parse ['a', 'a', 'a', '!'] start =
      .succeeded ⟨4, [], [⟨3, 0, 4⟩]⟩ [] ∧
    until_bang_minus_a_minus_aa.parse [] start =
      .failed ⟨0, [Error.expected_literal 0 0], []⟩ ∧
    until_bang_minus_a_minus_aa.parse ['!'] start = .succeeded ⟨1, [], [⟨3, 0, 1⟩]⟩ [] ∧
    until_bang_minus_a_minus_aa.parse ['a', '!'] start =
      .failed ⟨2, [Error.minus_failure 0 2], []⟩ ∧
    until_bang_minus_a_minus_aa.parse ['a', 'a', '!'] start =
      .failed ⟨3, [Error.minus_failure 0 3], []⟩ ∧
    until_bang_minus_a_minus_aa.parse ['a', 'a', 'a', '!'] start =
      .succeeded ⟨4, [], [⟨3, 0, 4⟩]⟩ [] ∧
    until_bang_minus_any.parse [] start = .failed ⟨0, [Error.expected_literal 0 0], []⟩ ∧
    until_bang_minus_any.parse ['!'] start = .failed ⟨1, [Error.minus_failure 0 1], []⟩ ∧
    until_bang_minus_any.parse ['a', 'a', 'a', '!'] start =
      .failed ⟨4, [Error.minus_failure 0 4], []⟩ :=
  ⟨(minus_token_contract (until_ bang) (LEXY_LIT ['a', 'a', '!']) any ['a', 'a', '!']
      start).2.2.2.1 (by decide) ⟨by decide, by decide⟩,
    by decide, by decide, by decide, by decide, by decide, by decide, by decide, by decide,
    by decide, by decide, by decide, by decide, by decide⟩

/-! ## The start position of a production -/

/-- C26 (production start position), evaluated on the code. The production 4 with the branch
rule "an a, then the rest" is parsed on x, a with the reader at 1. Parsed unconditionally,
its child context is entered with start position 1, where the rule begins (the token of
kind 8 records depth 1 and start 1). Parsed through its branch form, `match` consumes the
a in the caller's context and `parse` then enters the child context at the position the
reader has by then, 2 (the token of kind 8 records depth 1 and start 2). Both end with
the reader at 2 and the same result, in two different child contexts. -/
theorem production_start_position_branch_form :
    (p ⟨4, a_branch_rule⟩).parser record_depth ['x', 'a'] ⟨[]⟩ ⟨1, [], []⟩ [] =
      (Result.value (Value.num 0), ⟨2, [], [⟨8, 1, 1⟩, ⟨9, 0, 0⟩]⟩) ∧
    ((p ⟨4, a_branch_rule⟩).branch_matcher.map
        (fun m =>
          ((m.match_ ['x', 'a'] ⟨[]⟩ ⟨1, [], []⟩).1,
            m.parse (m.match_ ['x', 'a'] ⟨[]⟩ ⟨1, [], []⟩).2.2 record_depth ['x', 'a'] ⟨[]⟩
              (m.match_ ['x', 'a'] ⟨[]⟩ ⟨1, [], []⟩).2.1 []))) =
      some (true, Result.value (Value.num 0),
        ⟨2, [], [⟨7, 0, 0⟩, ⟨8, 1, 2⟩, ⟨9, 0, 0⟩]⟩) ∧
    (⟨[]⟩ : Context).production_context 4 (⟨1, [], []⟩ : State).cur = ⟨[⟨4, 1⟩]⟩ ∧
    ((p ⟨4, a_branch_rule⟩).branch_matcher.map
        (fun m => (⟨[]⟩ : Context).production_context m.Production
          (m.match_ ['x', 'a'] ⟨[]⟩ ⟨1, [], []⟩).2.1.cur)) = some ⟨[⟨4, 2⟩]⟩ := by
  refine ⟨by decide, by decide, by decide, by decide⟩

/-! ## Where the unterminated-input and round-trip claims fail as stated -/

/-- The closing quote backtracks in place at the `a` of the unterminated quote, a. -/
theorem quote_backtracks_at_open_a (s : State) (h : s.cur = 1) :
    quoted.Close.try_ [dquote, 'a'] s = .backtracked s := by
  obtain ⟨c, e, t⟩ := s
  simp only at h
  subst h
  rfl

/-- Counterexample to C1 as stated: `quoted` with the empty literal as content on the
unterminated quote, a. `Open` has matched, the empty literal accepts at every position,
`Close` backtracks at every loop head the loop ever passes, and yet the content parser
does not return failure: it returns nothing, whatever the fuel, so no `missing_delimiter`
is reported. -/
theorem unterminated_zero_width_counterexample :
    quoted.Open.parse [dquote, 'a'] start = .succeeded ⟨1, [], [⟨1, 0, 1⟩]⟩ [] ∧
    (∀ p : Nat, empty_literal.accepts [dquote, 'a'] p) ∧
    (∀ fuel : Nat,
      ∀ h ∈ _del_void_heads accept count_calls quoted.Close.toBranch empty_literal
          [dquote, 'a'] [] 1 fuel ⟨1, [], [⟨1, 0, 1⟩]⟩ [],
        quoted.Close.try_ [dquote, 'a'] h.1 = .backtracked h.1) ∧
    (∀ fuel : Nat,
      quoted.parse empty_literal fuel accept count_calls [dquote, 'a'] start [] = none) := by
  have hl := void_loop_livelock accept count_calls quoted.Close.toBranch empty_literal
    [dquote, 'a'] [] 1 1 [] (by decide) (fun s h => quote_backtracks_at_open_a s h)
    (fun _ => rfl) rfl
  refine ⟨rfl, fun p _ => rfl, ?_, ?_⟩
  · intro fuel h hm
    rw [(hl fuel [⟨1, 0, 1⟩] []).2] at hm
    obtain ⟨i, _, hi⟩ := List.mem_map.mp hm
    subst hi
    exact quote_backtracks_at_open_a _ rfl
  · intro fuel
    exact (hl fuel [⟨1, 0, 1⟩] []).1

/-- Counterexample to C2 as stated: `quoted` on quote, a, b, c, quote, where `Close` matches
at no position inside a, b, c. With the content token `any`, which accepts at every
position, the first match consumes the closing quote as well and the parse fails with
`missing_delimiter` from 1 to 5. With the empty literal, which accepts at every position
too, the loop stays at 1 and the parse returns nothing, whatever the fuel. -/
theorem round_trip_counterexample :
    (∀ s : State, 1 ≤ s.cur → s.cur < 4 →
      quoted.Close.try_ [dquote, 'a', 'b', 'c', dquote] s = .backtracked s) ∧
    (∀ p : Nat, any.accepts [dquote, 'a', 'b', 'c', dquote] p) ∧
    (∀ fuel : Nat, 1 < fuel →
      quoted.parse any fuel accept count_calls [dquote, 'a', 'b', 'c', dquote] start [] =
        some (false, ⟨5, [Error.missing_delimiter 1 5], [⟨1, 0, 1⟩, ⟨4, 1, 5⟩]⟩)) ∧
    (∀ p : Nat, empty_literal.accepts [dquote, 'a', 'b', 'c', dquote] p) ∧
    (∀ fuel : Nat,
      quoted.parse empty_literal fuel accept count_calls [dquote, 'a', 'b', 'c', dquote]
        start [] = none) := by
  refine ⟨fun s h1 h2 => quoted_close_backtracks_abc s h1 h2, fun p h => ?_, ?_,
    fun p _ => rfl, ?_⟩
  · cases h
  · intro fuel hf
    have h2 : _del_void_loop accept count_calls quoted.Close.toBranch any
        [dquote, 'a', 'b', 'c', dquote] [] 1 2 ⟨1, [], [⟨1, 0, 1⟩]⟩ [] =
        some (false, ⟨5, [Error.missing_delimiter 1 5], [⟨1, 0, 1⟩, ⟨4, 1, 5⟩]⟩) := by decide
    exact _del_void_loop_mono accept count_calls quoted.Close.toBranch any
      [dquote, 'a', 'b', 'c', dquote] [] 1 _ 2 fuel ⟨1, [], [⟨1, 0, 1⟩]⟩ [] hf h2
  · intro fuel
    exact (void_loop_livelock accept count_calls quoted.Close.toBranch empty_literal
      [dquote, 'a', 'b', 'c', dquote] [] 1 1 [] (by decide)
      (fun s h => quoted_close_backtracks_abc s (by omega) (by omega))
      (fun _ => rfl) rfl fuel [⟨1, 0, 1⟩] []).1

end lexy
